import Mathlib

/-!
Verification of the lddx dependency crawler and collector.

This file gives a shallow embedding in Lean of the core of the `lddx`
tool (package `lddx`, files `macho.go`, `dependencies.go`, `collector.go`),
together with theorems about the embedded definitions.

Modelling conventions:
* Go strings are Lean `String`s, byte buffers are `List Nat` (each entry a
  byte value).
* The filesystem and the Go standard library's symlink/abs resolution are
  external collaborators; they are modelled as explicit oracle parameters
  (`FS`, `Env`).  Each theorem that quantifies over an oracle holds for
  every filesystem behaviour.
* Go pointer structure (`*[]*Dependency`, `*Dependency`) is modelled with
  an arena: `Graph.nodes` is the arena of dependency nodes addressed by
  index, and `Graph.depsArr` is the arena of children slices, so that the
  sharing of a `Deps` slice between two nodes is the sharing of an index.
* The concurrent crawl is modelled both sequentially (recursion with fuel,
  matching the `wg == nil` code path) and as a small-step task system with
  an explicit scheduler (for the determinism theorem).
-/

namespace Lddx

/-- Little-endian 32-bit word from four byte values,
as in Go's `binary.LittleEndian.Uint32`. -/
def leU32 (b0 b1 b2 b3 : Nat) : Nat :=
  b0 + 256 * b1 + 65536 * b2 + 16777216 * b3

/-- Read a 32-bit word from a byte list at an offset, in the byte order
given by `little` (Go `binary.ByteOrder.Uint32`). -/
def readU32 (little : Bool) (data : List Nat) (off : Nat) : Nat :=
  let b := fun i => data.getD (off + i) 0
  if little then leU32 (b 0) (b 1) (b 2) (b 3) else leU32 (b 3) (b 2) (b 1) (b 0)

/-! ### Magic constants, from `lddx/macho.go` -/

def mhMagic : Nat := 0xfeedface
def mhCigam : Nat := 0xcefaedfe
def mhMagic64 : Nat := 0xfeedfacf
def mhCigam64 : Nat := 0xcffaedfe
def fatMagic : Nat := 0xcafebabe
def fatCigam : Nat := 0xbebafeca

def loadCmdReq : Nat := 0x80000000
def loadCmdWeakDylib : Nat := 0x18 ||| loadCmdReq
def loadCmdId : Nat := 0x0d

/-- Model of `IsFatMachO` from `lddx/macho.go` applied to an already
opened file whose content is `data`.  Go's `fp.Read` with a 4-byte buffer
on a regular file returns `(min 4 (length data))` bytes and reports
`io.EOF` only when the file is empty; with fewer than 4 bytes read the
function returns `(false, nil)` (the `io.EOF` case is filtered out), and
with 4 bytes it tests the little-endian magic. -/
def IsFatMachO (data : List Nat) : Bool × Option String :=
  let num := min 4 data.length
  if num ≠ 4 then
    (false, none)
  else
    let magic := leU32 (data.getD 0 0) (data.getD 1 0) (data.getD 2 0) (data.getD 3 0)
    (decide (magic = mhMagic ∨ magic = mhCigam ∨ magic = mhMagic64 ∨
             magic = mhCigam64 ∨ magic = fatMagic ∨ magic = fatCigam), none)

/-! ### Dylib records and load-command parsing, from `lddx/macho.go` -/

/-- The `Dylib` record of `lddx/macho.go`.  The architecture pointer is
modelled as an optional CPU/sub-CPU pair. -/
structure Dylib where
  path : String
  time : Nat := 0
  currentVersion : Nat := 0
  compatVersion : Nat := 0
  weak : Bool := false
  arch : Option (Nat × Nat) := none
  deriving Repr, DecidableEq, Inhabited

/-- Model of `TryParseLoadCmd` from `lddx/macho.go`.  `data` is the raw
load command.  `binary.Read` of a `macho.DylibCmd` consumes six 32-bit
fields (cmd, len, name, time, current version, compatibility version) and
fails when fewer than 24 bytes are available.  The name is a NUL- or
end-terminated byte range starting at the `name` offset.  Note the
produced record always carries `weak := true`. -/
def TryParseLoadCmd (loadCmd : Nat) (data : List Nat) (little : Bool) :
    Except String (Option Dylib) :=
  if readU32 little data 0 ≠ loadCmd then
    .ok none
  else if data.length < 24 then
    .error "binary read failed"
  else if readU32 little data 8 ≥ data.length then
    .error "invalid name in dynamic library command"
  else
    .ok (some {
      path := String.mk (((data.drop (readU32 little data 8)).takeWhile
        (fun b => b ≠ 0)).map Char.ofNat),
      time := readU32 little data 12,
      currentVersion := readU32 little data 16,
      compatVersion := readU32 little data 20,
      weak := true })

/-- One load command of a Mach-O slice as surfaced by Go's `debug/macho`:
either a standard dylib command already parsed by the standard library
(`*macho.Dylib` in the type switch of `ReadDylibs`), or the raw bytes of
some other command. -/
inductive MachoLoad where
  | dylib (name : String) (time currentVersion compatVersion : Nat)
  | raw (bytes : List Nat)
  deriving Repr, DecidableEq

/-- One architecture slice of a (possibly fat) Mach-O file. -/
structure MachoSlice where
  cpu : Nat
  subCpu : Nat
  little : Bool
  loads : List MachoLoad
  deriving Repr, DecidableEq

/-- The body of the load loop of `ReadDylibs` in `lddx/macho.go` for a
single load command: a standard dylib load command yields a record with
`Weak: false`; any other command is offered to `TryParseLoadCmd` with the
weak-dylib command tag. -/
def readDylibsLoad (arch : Nat × Nat) (little : Bool) (load : MachoLoad) :
    Except String (Option Dylib) :=
  match load with
  | .dylib name time cur compat =>
      .ok (some { path := name, time := time, currentVersion := cur,
                  compatVersion := compat, weak := false, arch := some arch })
  | .raw bytes =>
      match TryParseLoadCmd loadCmdWeakDylib bytes little with
      | .error e => .error e
      | .ok none => .ok none
      | .ok (some dl) => .ok (some { dl with arch := some arch })

/-- Model of `ReadDylibs` from `lddx/macho.go` applied to the parsed
slices of a file: every slice's load commands are scanned in order and the
recognised records concatenated; a parse error aborts the whole call. -/
def ReadDylibs (slices : List MachoSlice) : Except String (List Dylib) :=
  slices.foldl (fun acc lib =>
    match acc with
    | .error e => .error e
    | .ok ret =>
        lib.loads.foldl (fun acc load =>
          match acc with
          | .error e => .error e
          | .ok ret =>
              match readDylibsLoad (lib.cpu, lib.subCpu) lib.little load with
              | .error e => .error e
              | .ok none => .ok ret
              | .ok (some dl) => .ok (ret ++ [dl])) (.ok ret)) (.ok [])

/-- Raw bytes of a load command as `GetDylibInfo` sees them via
`load.Raw()`.  For a command the standard library parsed as a dylib
command the identity scan still only looks at the raw bytes; we model the
bytes of such a command as unavailable (empty), which cannot match the
identity tag, mirroring that a `LC_LOAD_DYLIB` command is never the
identity command. -/
def MachoLoad.bytesOf : MachoLoad → List Nat
  | .dylib _ _ _ _ => []
  | .raw bytes => bytes

/-- The per-slice search of `GetDylibInfo` in `lddx/macho.go`: scan the
load commands for the identity command (`0x0d`), stopping at the first
match (the `break` in the source); a parse error aborts. -/
def getDylibInfoSlice (lib : MachoSlice) : Except String (Option Dylib) :=
  lib.loads.foldl (fun acc load =>
    match acc with
    | .error e => .error e
    | .ok (some dl) => .ok (some dl)
    | .ok none =>
        match TryParseLoadCmd loadCmdId load.bytesOf lib.little with
        | .error e => .error e
        | .ok none => .ok none
        | .ok (some dl) => .ok (some { dl with arch := some (lib.cpu, lib.subCpu) }))
    (.ok none)

/-- Model of `GetDylibInfo` from `lddx/macho.go`: for each slice, the
first identity record found is appended to the result. -/
def GetDylibInfo (slices : List MachoSlice) : Except String (List Dylib) :=
  slices.foldl (fun acc lib =>
    match acc with
    | .error e => .error e
    | .ok ret =>
        match getDylibInfoSlice lib with
        | .error e => .error e
        | .ok none => .ok ret
        | .ok (some dl) => .ok (ret ++ [dl])) (.ok [])

/-! ### String primitives

Go's `strings.HasPrefix` and string comparison are modelled on character
lists so that every definition evaluates by kernel reduction. -/

/-- Go `strings.HasPrefix s pre`. -/
def goStartsWith (s pre : String) : Bool :=
  pre.toList.isPrefixOf s.toList

/-- Lexicographic order on code-point lists; Go's `<` on strings compares
UTF-8 bytes, which orders strings exactly like code points. -/
def listLeNat : List Nat → List Nat → Bool
  | [], _ => true
  | _ :: _, [] => false
  | a :: as, b :: bs => if a < b then true else if b < a then false else listLeNat as bs

/-- Go string `<=` (the reflexive closure of the `Less` used by `ByPath`). -/
def strLe (a b : String) : Bool :=
  listLeNat (a.toList.map Char.toNat) (b.toList.map Char.toNat)

/-! ### Path helpers (`path/filepath` functions used by the source) -/

/-- Model of Go `filepath.Base`: strip trailing slashes, then take the
part after the last slash; empty input yields `"."` and an all-slash
input yields `"/"`. -/
def goBase (path : String) : String :=
  if path = "" then "." else
  let rev := path.toList.reverse.dropWhile (fun c => c = '/')
  if rev = [] then "/" else String.mk ((rev.takeWhile (fun c => c ≠ '/')).reverse)

/-- Model of Go `filepath.Dir`: everything before the last slash of the
cleaned path; `"."` when there is no slash, `"/"` for paths directly under
the root.  (The full lexical `Clean` is not reproduced; `goDir`'s output
only feeds the filesystem oracle.) -/
def goDir (path : String) : String :=
  let rev := (path.toList.reverse.dropWhile (fun c => c ≠ '/')).dropWhile (fun c => c = '/')
  if rev = [] then (if goStartsWith path "/" then "/" else ".") else String.mk rev.reverse

/-- Model of Go `filepath.Ext`: the suffix of the last path element
starting at its final dot, or `""` when the last element has no dot. -/
def goExt (path : String) : String :=
  let pre := path.toList.reverse.takeWhile (fun c => c ≠ '/')
  let seg := pre.takeWhile (fun c => c ≠ '.')
  if seg.length < pre.length then String.mk ('.' :: seg.reverse) else ""

/-- `IsSpecialPath` from `lddx/dependencies.go`. -/
def IsSpecialPath (path : String) : Bool :=
  goStartsWith path "@"

/-! ### Collector, from `lddx/collector.go` -/

/-- `CollectorOptions` from `lddx/collector.go` (the fields consumed by
the selection logic). -/
structure CollectorOptions where
  folder : String := ""
  preferredOrder : List String := []
  overwrite : Bool := false
  modifySpecialPaths : Bool := false
  collectFrameworks : Bool := false
  jobs : Int := 1
  deriving Repr

/-- The loop of `getNiceness` from `lddx/collector.go`: indices are
scanned in order while either niceness is still `-1`, and each niceness is
set to the first index whose entry is a string prefix of the
corresponding path. -/
def getNicenessAux (ent1 ent2 : String) : List String → Nat → Int → Int → Int × Int
  | [], _, n1, n2 => (n1, n2)
  | o :: rest, i, n1, n2 =>
    if n1 < 0 ∨ n2 < 0 then
      let n1' := if n1 < 0 ∧ goStartsWith ent1 o then (i : Int) else n1
      let n2' := if n2 < 0 ∧ goStartsWith ent2 o then (i : Int) else n2
      getNicenessAux ent1 ent2 rest (i + 1) n1' n2'
    else (n1, n2)

/-- `getNiceness` from `lddx/collector.go`. -/
def getNiceness (ent1 ent2 : String) (order : List String) : Int × Int :=
  getNicenessAux ent1 ent2 order 0 (-1) (-1)

/-- Read an optional found index as a niceness (`-1` when absent). -/
def toNiceness : Option Nat → Int
  | some j => (j : Int)
  | none => -1

/-- Niceness as the specification words it: the lowest index whose entry
is a prefix of the path, or `-1` when no entry matches. -/
def nicenessSpec (ent : String) (order : List String) : Int :=
  toNiceness (order.findIdx? (fun o => goStartsWith ent o))

/-- `isFrameworkLib` from `lddx/collector.go`: a file whose name has no
extension at all. -/
def isFrameworkLib (file : String) : Bool :=
  goExt file = ""

/-- The skip decision of the selection loop of `CollectDeps`
(`lddx/collector.go` lines 139–151) for one `flat_deps` entry, given the
entry's flags and whether `getTopDep` found a top-level with the same name
and info.  `true` means the entry is skipped (not collected). -/
def collectSkip (opts : CollectorOptions) (notResolved : Bool)
    (path name : String) (isTopDep : Bool) : Bool :=
  notResolved ||
  (!opts.modifySpecialPaths && IsSpecialPath path) ||
  isTopDep ||
  (!opts.collectFrameworks && isFrameworkLib name)

/-- The conflict-resolution fold of `CollectDeps` (`lddx/collector.go`
lines 152–166) restricted to the candidates sharing one name, listed by
their `Path` in encounter order: the first candidate is installed, and a
later candidate displaces the holder exactly when
`n2 >= 0 && (n1 < 0 || n2 < n1)`. -/
def resolveConflict (order : List String) (cands : List String) : Option String :=
  cands.foldl (fun holder cand =>
    match holder with
    | none => some cand
    | some ex =>
        let n := getNiceness ex cand order
        if n.2 ≥ 0 ∧ (n.1 < 0 ∨ n.2 < n.1) then some cand else some ex) none

/-- Penalty reading of a niceness: `-1` (no preferred-order match) is
worse than every real index. -/
def nicePenalty (order : List String) (ent : String) : Nat :=
  match order.findIdx? (fun o => goStartsWith ent o) with
  | some i => i
  | none => order.length

/-- First-seen minimum of the penalty over a candidate list: the winner
the specification describes. -/
def firstMinCand (order : List String) (cands : List String) : Option String :=
  cands.foldl (fun holder cand =>
    match holder with
    | none => some cand
    | some ex => if nicePenalty order cand < nicePenalty order ex then some cand else some ex)
    none

/-! ### Path resolution, from `lddx/dependencies.go` and the
`ResolveAbsPath` helper -/

/-- The filesystem-dependent behaviour of Go's `filepath.EvalSymlinks`
and `filepath.Abs`: each returns a string result and a success flag (Go
returns a `(string, error)` pair). -/
structure FS where
  evalSymlinks : String → String × Bool
  abs : String → String × Bool

/-- Errors produced by the path resolver. -/
inductive PathErr where
  | noExecutablePath (path : String)
  | unsupported (path : String)
  | resolveFailed
  deriving Repr, DecidableEq

/-- Model of `ResolveAbsPath`: evaluate symlinks, propagating the
evaluator's returned string on failure, then absolutise. -/
def ResolveAbsPath (fs : FS) (path : String) : String × Option PathErr :=
  let r := fs.evalSymlinks path
  if r.2 then
    let a := fs.abs r.1
    if a.2 then (a.1, none) else (a.1, some .resolveFailed)
  else (r.1, some .resolveFailed)

/-- `DependencyOptions` from `lddx/dependencies.go`. -/
structure DependencyOptions where
  executablePath : String := ""
  ignoredPrefixes : List String := []
  ignoredFiles : List String := []
  recursive : Bool := false
  skipWeakLibs : Bool := false
  jobs : Int := 1
  deriving Repr

/-- Model of `resolvePath` from `lddx/dependencies.go`.  `depRealPath` is
the referrer's `RealPath` (the `dep.RealPath` used for `@loader_path`).
Special tokens are expanded in place and the result always goes through
`ResolveAbsPath`, except for the two early error returns. -/
def resolvePath (fs : FS) (path : String) (depRealPath : String)
    (opts : DependencyOptions) : String × Option PathErr :=
  if IsSpecialPath path then
    if goStartsWith path "@executable_path/" then
      if opts.executablePath = "" then (path, some (.noExecutablePath path))
      else ResolveAbsPath fs (opts.executablePath ++ path.drop 16)
    else if goStartsWith path "@loader_path/" then
      ResolveAbsPath fs (goDir depRealPath ++ path.drop 12)
    else (path, some (.unsupported path))
  else ResolveAbsPath fs path

/-- `matchesIgnoredPrefixes` from `lddx/dependencies.go`. -/
def matchesIgnoredPrefixes (path : String) (opts : DependencyOptions) : Bool :=
  opts.ignoredPrefixes.any (fun pre => goStartsWith path pre)

/-! ### The dependency graph arena -/

/-- The `Dependency` node of `lddx/dependencies.go`.  The
`Deps *[]*Dependency` pointer is an optional index into the children-slice
arena (`Graph.depsArr`); `none` is a nil pointer. -/
structure Dependency where
  name : String := ""
  path : String := ""
  realPath : String := ""
  info : String := ""
  pruned : Bool := false
  prunedByFlatDeps : Bool := false
  notResolved : Bool := false
  isWeakDep : Bool := false
  deps : Option Nat := none
  deriving Repr, DecidableEq, Inhabited

/-- The `DependencyGraph` of `lddx/dependencies.go`, with both pointer
arenas made explicit.  `flatDeps` is an association list with unique keys
(the Go map); `topDeps` lists node indices. -/
structure Graph where
  nodes : List Dependency := []
  depsArr : List (List Nat) := []
  topDeps : List Nat := []
  flatDeps : List (String × Nat) := []
  deriving Repr, DecidableEq, Inhabited

/-- Dereference a node index. -/
def Graph.node (g : Graph) (i : Nat) : Dependency :=
  g.nodes.getD i default

/-- Dereference a children-slice index. -/
def Graph.arr (g : Graph) (a : Nat) : List Nat :=
  g.depsArr.getD a []

/-- Allocate a node, returning its index. -/
def Graph.allocNode (g : Graph) (d : Dependency) : Nat × Graph :=
  (g.nodes.length, { g with nodes := g.nodes ++ [d] })

/-- Allocate a children slice, returning its index. -/
def Graph.allocArr (g : Graph) (l : List Nat) : Nat × Graph :=
  (g.depsArr.length, { g with depsArr := g.depsArr ++ [l] })

/-- Overwrite a children slice. -/
def Graph.setArr (g : Graph) (a : Nat) (l : List Nat) : Graph :=
  { g with depsArr := g.depsArr.set a l }

/-- Overwrite a node. -/
def Graph.setNode (g : Graph) (i : Nat) (d : Dependency) : Graph :=
  { g with nodes := g.nodes.set i d }

/-- Go map lookup on the flat-deps association list. -/
def flatLookup (fd : List (String × Nat)) (k : String) : Option Nat :=
  (fd.find? (fun p => p.1 == k)).map (fun p => p.2)

/-- The version string built by `pruneDep` and `DepsRead`
(`compatibility version A.B.C, current version A.B.C`). -/
def mkInfo (compat cur : Nat) : String :=
  "compatibility version " ++ toString (compat >>> 16) ++ "." ++
    toString ((compat >>> 8) &&& 0xff) ++ "." ++ toString (compat &&& 0xff) ++
  ", current version " ++ toString (cur >>> 16) ++ "." ++
    toString ((cur >>> 8) &&& 0xff) ++ "." ++ toString (cur &&& 0xff)

/-- Model of `pruneDep` from `lddx/dependencies.go`.  Returns the index
of the node to append to the parent's children, the `pruned` flag of the
source (`true` means the caller must not descend), and the updated graph.
Every locally constructed `ret` is allocated in the arena at the point it
is returned; in the exact-duplicate branch the existing node's index is
returned and nothing is allocated. -/
def pruneDep (fs : FS) (lib : Dylib) (parentId : Nat) (g : Graph)
    (opts : DependencyOptions) : Nat × Bool × Graph :=
  let ret : Dependency := {
    name := goBase lib.path, path := lib.path, realPath := lib.path,
    info := mkInfo lib.compatVersion lib.currentVersion,
    isWeakDep := lib.weak }
  if lib.weak && opts.skipWeakLibs then
    let r := g.allocNode { ret with pruned := true }
    (r.1, true, r.2)
  else if opts.ignoredFiles.contains ret.name then
    let r := g.allocNode { ret with pruned := true }
    (r.1, true, r.2)
  else if g.topDeps.any (fun t => (g.node t).path == ret.path ||
      (g.node t).realPath == ret.realPath) then
    let r := g.allocNode { ret with pruned := true }
    (r.1, true, r.2)
  else
    match resolvePath fs lib.path (g.node parentId).realPath opts with
    | (_, some _) =>
      let r := g.allocNode { ret with notResolved := true }
      (r.1, true, r.2)
    | (rp, none) =>
      let ret := if rp ≠ lib.path then { ret with realPath := rp } else ret
      if matchesIgnoredPrefixes ret.path opts ||
          (ret.path ≠ ret.realPath && matchesIgnoredPrefixes ret.realPath opts) then
        let r := g.allocNode { ret with pruned := true }
        (r.1, true, r.2)
      else
        match flatLookup g.flatDeps ret.realPath with
        | none =>
          let ra := g.allocArr []
          let r := ra.2.allocNode { ret with deps := some ra.1 }
          (r.1, false, { r.2 with flatDeps := r.2.flatDeps ++ [(ret.realPath, r.1)] })
        | some ex =>
          if (g.node ex).path ≠ ret.path then
            let r := g.allocNode { ret with deps := (g.node ex).deps }
            (r.1, true, r.2)
          else (ex, true, g)

/-- Append a child index through the parent's `Deps` pointer
(`*dep.Deps = append(*dep.Deps, subDep)`).  A nil pointer leaves the
graph unchanged. -/
def appendChild (g : Graph) (pid cid : Nat) : Graph :=
  match (g.node pid).deps with
  | none => g
  | some a => g.setArr a (g.arr a ++ [cid])

/-- Sort the parent's children by `Path` (`sort.Sort(ByPath(*dep.Deps))`). -/
def sortChildren (g : Graph) (pid : Nat) : Graph :=
  match (g.node pid).deps with
  | none => g
  | some a =>
      g.setArr a ((g.arr a).insertionSort
        (fun i j => strLe (g.node i).path (g.node j).path = true))

/-- External collaborators of the crawler: the filesystem resolver, the
per-file raw bytes (for the magic check; `none` is an open error) and the
parsed Mach-O slices of a file (`none` is an open/parse error). -/
structure Env where
  fs : FS
  contents : String → Option (List Nat)
  slices : String → Option (List MachoSlice)

/-- `ReadDylibs` lifted to a file path through the environment. -/
def readDylibsFile (env : Env) (path : String) : Option (List Dylib) :=
  match env.slices path with
  | none => none
  | some s => (ReadDylibs s).toOption

/-- `GetDylibInfo` lifted to a file path through the environment. -/
def getDylibInfoFile (env : Env) (path : String) : Option (List Dylib) :=
  match env.slices path with
  | none => none
  | some s => (GetDylibInfo s).toOption

/-- The state threaded through the dylib loop of `depsRead`:
the graph, the parent-local `observedDeps` set, and `depsToProcess`. -/
abbrev CrawlAcc := Graph × List String × List Nat

/-- The body of the dylib loop of `depsRead` in `lddx/dependencies.go`
for one `ReadDylibs` record: skip a `Path` already observed under this
parent, otherwise prune/insert and append to the parent's children,
collecting non-pruned children for recursion. -/
def depsReadStep (fs : FS) (opts : DependencyOptions) (id : Nat)
    (acc : CrawlAcc) (lib : Dylib) : CrawlAcc :=
  if acc.2.1.contains lib.path then acc
  else
    let r := pruneDep fs lib id acc.1 opts
    let g := appendChild r.2.2 id r.1
    (g, lib.path :: acc.2.1, if r.2.1 then acc.2.2 else acc.2.2 ++ [r.1])

/-- Model of `depsRead` from `lddx/dependencies.go` (the sequential
`wg == nil` path; recursion depth is bounded by `fuel`, which every
terminating execution of the source admits).  On a `ReadDylibs` failure
the node is marked `NotResolved`; otherwise children are discovered,
deduplicated per parent, sorted by `Path`, and recursed into when
`opts.recursive` is set. -/
def depsRead (env : Env) (opts : DependencyOptions) :
    Nat → Nat → Graph → Graph
  | 0, _, g => g
  | fuel + 1, id, g =>
    match readDylibsFile env (g.node id).realPath with
    | none => g.setNode id { g.node id with notResolved := true }
    | some libs =>
      let acc := libs.foldl (depsReadStep env.fs opts id) (g, [], [])
      let g := sortChildren acc.1 id
      if opts.recursive then
        acc.2.2.foldl (fun g c => depsRead env opts fuel c g) g
      else g

/-- Errors of `DepsRead` input normalisation. -/
inductive DepsErr where
  | ioError (file : String)
  | notMachO (file : String)
  | infoError (file : String)
  | noFiles
  deriving Repr, DecidableEq

/-- The body of the input-normalisation loop of `DepsRead` for one file:
resolve, magic-check and read identity info (any failure aborts), then
create a top-level node unless the caller-supplied string was already
seen. -/
def depsReadSeed (env : Env) (acc : Except DepsErr (Graph × List String))
    (file : String) : Except DepsErr (Graph × List String) :=
  match acc with
  | .error e => .error e
  | .ok (g, seen) =>
    match ResolveAbsPath env.fs file with
    | (_, some _) => .error (.ioError file)
    | (absPath, none) =>
      match env.contents file with
      | none => .error (.ioError file)
      | some data =>
        if !(IsFatMachO data).1 then .error (.notMachO file)
        else match getDylibInfoFile env absPath with
        | none => .error (.infoError file)
        | some info =>
          if seen.contains file then .ok (g, seen)
          else
            let ra := g.allocArr []
            let dep : Dependency := {
              name := goBase file, path := file,
              realPath := if absPath ≠ file then absPath else file,
              info := match info with
                      | [] => ""
                      | i :: _ => mkInfo i.compatVersion i.currentVersion,
              deps := some ra.1 }
            let r := ra.2.allocNode dep
            .ok ({ r.2 with topDeps := r.2.topDeps ++ [r.1] }, file :: seen)

/-- Model of `DepsRead` from `lddx/dependencies.go`: normalise and seed
the top-level nodes, fail with `noFiles` when none were created, then
crawl every top-level (sequentially; the concurrent path is modelled by
the task system below). -/
def DepsRead (env : Env) (fuel : Nat) (opts : DependencyOptions)
    (files : List String) : Except DepsErr Graph :=
  match files.foldl (depsReadSeed env) (.ok ({}, [])) with
  | .error e => .error e
  | .ok (g, _) =>
    if g.topDeps = [] then .error .noFiles
    else .ok (g.topDeps.foldl (fun g t => depsRead env opts fuel t g) g)

/-! ### Arena helper lemmas -/

/-- Reading back the node just allocated. -/
theorem node_alloc_self (g : Graph) (d : Dependency) :
    (g.allocNode d).2.node (g.allocNode d).1 = d := by
  simp [Graph.allocNode, Graph.node, List.getD_eq_getElem?_getD, List.getElem?_concat_length]

/-- Allocation preserves existing nodes. -/
theorem node_alloc_lt (g : Graph) (d : Dependency) (i : Nat) (h : i < g.nodes.length) :
    (g.allocNode d).2.node i = g.node i := by
  simp [Graph.allocNode, Graph.node, List.getD_eq_getElem?_getD, List.getElem?_append_left h]

/-! ### Concrete environments used by the counterexamples and witnesses -/

/-- A filesystem on which symlink evaluation always fails, returning its
input (even more generous than Go's `filepath.EvalSymlinks`, which returns
the empty string on failure). -/
def fsFailEval : FS :=
  { evalSymlinks := fun p => (p, false), abs := fun p => (p, true) }

/-- A filesystem where `/p1` and `/p2` are two names of the file `/R`. -/
def fsTwoNames : FS :=
  { evalSymlinks := fun p => if p = "/p1" ∨ p = "/p2" then ("/R", true) else (p, true),
    abs := fun p => (p, true) }

/-- A graph whose flat index already holds `/R` under declared path `/p1`. -/
def gTwoNames : Graph :=
  { nodes := [{ name := "p1", path := "/p1", realPath := "/R", deps := some 0 }],
    depsArr := [[]], topDeps := [], flatDeps := [("/R", 0)] }

/-- A filesystem where the two caller strings `a` and `b` both resolve to
the absolute path `/x`. -/
def fsSameAbs : FS :=
  { evalSymlinks := fun p => if p = "a" ∨ p = "b" then ("/x", true) else (p, true),
    abs := fun p => (p, true) }

/-- An environment over `fsSameAbs` where every file carries a Mach-O
magic and has no load commands. -/
def envSameAbs : Env :=
  { fs := fsSameAbs,
    contents := fun _ => some [0xce, 0xfa, 0xed, 0xfe],
    slices := fun _ => some [] }

/-- A filesystem where the input `t` resolves to `/T` and the dependency
name `/sym` is a symlink to the same `/T`. -/
def fsRootSym : FS :=
  { evalSymlinks := fun p => if p = "t" ∨ p = "/sym" then ("/T", true) else (p, true),
    abs := fun p => (p, true) }

/-- The single slice of `/T`, declaring the dependency `/sym`. -/
def slRootSym : MachoSlice :=
  { cpu := 0, subCpu := 0, little := true, loads := [MachoLoad.dylib "/sym" 0 0 0] }

/-- Environment for the cycle-through-root scenario: the top-level file
`t` (really `/T`) declares a dependency on `/sym`, another name of `/T`. -/
def envRootSym : Env :=
  { fs := fsRootSym,
    contents := fun _ => some [0xce, 0xfa, 0xed, 0xfe],
    slices := fun p => if p = "/T" then some [slRootSym] else some [] }

/-- A graph with one top-level node whose declared path is `/t`. -/
def gOneTop : Graph :=
  { nodes := [{ name := "t", path := "/t", realPath := "/T", deps := some 0 }],
    depsArr := [[]], topDeps := [0], flatDeps := [] }

/-! ### Claim C4: the magic-check law -/

/-- Claim C4: `IsFatMachO` never errors on an opened file, returns
`(false, none)` for files shorter than four bytes, and for files of at
least four bytes returns `true` exactly when the first four bytes read as
a little-endian 32-bit word equal one of the six Mach-O/fat magics. -/
theorem isFatMachO_magic_law : ∀ data : List Nat,
    (IsFatMachO data).2 = none ∧
    (data.length < 4 → IsFatMachO data = (false, none)) ∧
    (4 ≤ data.length →
      ((IsFatMachO data).1 = true ↔
        (leU32 (data.getD 0 0) (data.getD 1 0) (data.getD 2 0) (data.getD 3 0) = mhMagic ∨
         leU32 (data.getD 0 0) (data.getD 1 0) (data.getD 2 0) (data.getD 3 0) = mhCigam ∨
         leU32 (data.getD 0 0) (data.getD 1 0) (data.getD 2 0) (data.getD 3 0) = mhMagic64 ∨
         leU32 (data.getD 0 0) (data.getD 1 0) (data.getD 2 0) (data.getD 3 0) = mhCigam64 ∨
         leU32 (data.getD 0 0) (data.getD 1 0) (data.getD 2 0) (data.getD 3 0) = fatMagic ∨
         leU32 (data.getD 0 0) (data.getD 1 0) (data.getD 2 0) (data.getD 3 0) = fatCigam))) := by
  intro data
  by_cases h : data.length < 4
  · have hm : min 4 data.length ≠ 4 := by omega
    exact ⟨by simp [IsFatMachO, hm], fun _ => by simp [IsFatMachO, hm],
           fun h4 => absurd h4 (by omega)⟩
  · have hm : min 4 data.length = 4 := by omega
    refine ⟨by simp [IsFatMachO, hm], fun h4 => absurd h4 h, fun _ => ?_⟩
    simp [IsFatMachO, hm]

/-- Witness for C4: a two-byte file yields `(false, none)` and a fat
(byte-swapped) magic is recognised. -/
theorem isFatMachO_magic_law_witness :
    IsFatMachO [0xfe, 0xed] = (false, none) ∧
    (IsFatMachO [0xca, 0xfe, 0xba, 0xbe, 9]).1 = true :=
  ⟨(isFatMachO_magic_law [0xfe, 0xed]).2.1 (by decide),
   ((isFatMachO_magic_law [0xca, 0xfe, 0xba, 0xbe, 9]).2.2 (by decide)).mpr (by decide)⟩

/-! ### Claim C8: framework skipping (corrected) -/

/-- Counterexample to claim C8: with `collect_frameworks` off, the entry
named `foo.bundle` lacks a dylib extension (`.dylib`/`.so`), yet the
selection loop does NOT skip it, because `isFrameworkLib` only tests for
the absence of any extension. -/
theorem collectSkip_bundle_counterexample :
    collectSkip { collectFrameworks := false } false "/opt/foo.bundle" "foo.bundle" false = false ∧
    (".dylib".toList.isSuffixOf "foo.bundle".toList) = false ∧
    (".so".toList.isSuffixOf "foo.bundle".toList) = false := by
  decide

/-- Amended claim C8: with `collect_frameworks` off (and the entry
resolved, not special-skipped, and not a top-level), the selection loop
skips exactly the entries whose name has no extension at all. -/
theorem collectSkip_no_extension : ∀ (opts : CollectorOptions) (path name : String),
    opts.collectFrameworks = false →
    (!opts.modifySpecialPaths && IsSpecialPath path) = false →
    collectSkip opts false path name false = isFrameworkLib name ∧
    isFrameworkLib name = decide (goExt name = "") := by
  intro opts path name h1 h2
  refine ⟨?_, rfl⟩
  simp [collectSkip, h1, h2]

/-- Witness for the amended C8: `libz.dylib` has an extension and is
collected. -/
theorem collectSkip_no_extension_witness :
    collectSkip { collectFrameworks := false } false "/usr/local/libz.dylib" "libz.dylib" false =
      isFrameworkLib "libz.dylib" :=
  (collectSkip_no_extension { collectFrameworks := false } "/usr/local/libz.dylib"
    "libz.dylib" rfl rfl).1

/-! ### Claim C5: resolution failure (corrected) -/

/-- Counterexample to claim C5: on a filesystem whose symlink evaluator
fails (here even generously returning its input unchanged, where Go
returns `""`), resolving `@executable_path/foo` returns the expanded
string `/exe/foo`, not the original declared path, together with the
resolution error. -/
theorem resolvePath_not_declared_counterexample :
    (resolvePath fsFailEval "@executable_path/foo" "" { executablePath := "/exe" }).1 ≠
      "@executable_path/foo" ∧
    (resolvePath fsFailEval "@executable_path/foo" "" { executablePath := "/exe" }).2 =
      some PathErr.resolveFailed ∧
    (resolvePath fsFailEval "@executable_path/foo" "" { executablePath := "/exe" }).1 =
      "/exe/foo" := by
  decide

/-- Amended claim C5: whenever path resolution reports an error (and the
candidate survived the weak/ignored/top-level checks), `pruneDep` records
the candidate as `not_resolved`, does not descend, keeps the declared
path on the node's `Path` field, and leaves the flat index and children
arenas unchanged; the string component of the failed resolution is not
used. -/
theorem pruneDep_notResolved_on_failure :
    ∀ (fs : FS) (lib : Dylib) (pid : Nat) (g : Graph) (opts : DependencyOptions) (e : PathErr),
    (lib.weak && opts.skipWeakLibs) = false →
    opts.ignoredFiles.contains (goBase lib.path) = false →
    (g.topDeps.any fun t => (g.node t).path == lib.path || (g.node t).realPath == lib.path) = false →
    (resolvePath fs lib.path (g.node pid).realPath opts).2 = some e →
    (pruneDep fs lib pid g opts).2.1 = true ∧
    ((pruneDep fs lib pid g opts).2.2.node (pruneDep fs lib pid g opts).1).notResolved = true ∧
    ((pruneDep fs lib pid g opts).2.2.node (pruneDep fs lib pid g opts).1).path = lib.path ∧
    (pruneDep fs lib pid g opts).2.2.flatDeps = g.flatDeps ∧
    (pruneDep fs lib pid g opts).2.2.depsArr = g.depsArr := by
  intro fs lib pid g opts e h1 h2 h3 h4
  rcases hr : resolvePath fs lib.path (g.node pid).realPath opts with ⟨s, err⟩
  rw [hr] at h4
  simp only at h4
  subst h4
  unfold pruneDep
  simp only [h1, h2, h3, hr, Bool.false_eq_true, if_false]
  simp [Graph.allocNode, Graph.node,
        List.getD_eq_getElem?_getD, List.getElem?_concat_length]

/-- Witness for the amended C5: a failing resolution of `/lib` under the
empty graph is recorded as `not_resolved`. -/
theorem pruneDep_notResolved_on_failure_witness :
    (pruneDep fsFailEval { path := "/lib" } 0 {} {}).2.1 = true ∧
    ((pruneDep fsFailEval { path := "/lib" } 0 {} {}).2.2.node
      (pruneDep fsFailEval { path := "/lib" } 0 {} {}).1).notResolved = true ∧
    ((pruneDep fsFailEval { path := "/lib" } 0 {} {}).2.2.node
      (pruneDep fsFailEval { path := "/lib" } 0 {} {}).1).path = "/lib" ∧
    (pruneDep fsFailEval { path := "/lib" } 0 {} {}).2.2.flatDeps = Graph.flatDeps {} ∧
    (pruneDep fsFailEval { path := "/lib" } 0 {} {}).2.2.depsArr = Graph.depsArr {} :=
  pruneDep_notResolved_on_failure fsFailEval { path := "/lib" } 0 {} {} .resolveFailed
    (by decide) (by decide) (by decide) (by decide)

/-! ### Claim C1: the flat-deps pruning decision (corrected) -/

/-- Counterexample to claim C1: the candidate `/p2` resolves to the key
`/R` already held by the node with declared path `/p1`; the returned node
carries `/p2`, shares the existing node's children slice, and is not
descended — but it is NOT flagged `pruned_by_flat_deps` (that flag is only
ever set by the JSON projection `DepsGetJSONSerialisableVersion`). -/
theorem pruneDep_no_flag_counterexample :
    flatLookup gTwoNames.flatDeps "/R" = some 0 ∧
    (gTwoNames.node 0).path = "/p1" ∧
    (pruneDep fsTwoNames { path := "/p2" } 0 gTwoNames {}).2.1 = true ∧
    ((pruneDep fsTwoNames { path := "/p2" } 0 gTwoNames {}).2.2.node
      (pruneDep fsTwoNames { path := "/p2" } 0 gTwoNames {}).1).path = "/p2" ∧
    ((pruneDep fsTwoNames { path := "/p2" } 0 gTwoNames {}).2.2.node
      (pruneDep fsTwoNames { path := "/p2" } 0 gTwoNames {}).1).deps = some 0 ∧
    ((pruneDep fsTwoNames { path := "/p2" } 0 gTwoNames {}).2.2.node
      (pruneDep fsTwoNames { path := "/p2" } 0 gTwoNames {}).1).prunedByFlatDeps = false := by
  decide

/-- Amended claim C1: when the candidate's resolved real path is already
a key of `flat_deps` (and the earlier pruning checks passed), then with an
equal declared path the very same canonical node index is returned with
the graph unchanged and no descent; with a differing declared path a new
node is returned that carries the candidate's declared path, shares the
existing node's children slice, and is not descended — but its
`pruned_by_flat_deps` flag remains `false` (the flag is set only by the
JSON-serialisation projection). -/
theorem pruneDep_flat_deps_decision :
    ∀ (fs : FS) (lib : Dylib) (pid : Nat) (g : Graph) (opts : DependencyOptions)
      (rp : String) (ex : Nat),
    (lib.weak && opts.skipWeakLibs) = false →
    opts.ignoredFiles.contains (goBase lib.path) = false →
    (g.topDeps.any fun t => (g.node t).path == lib.path || (g.node t).realPath == lib.path) = false →
    resolvePath fs lib.path (g.node pid).realPath opts = (rp, none) →
    (matchesIgnoredPrefixes lib.path opts ||
      (decide (lib.path ≠ rp) && matchesIgnoredPrefixes rp opts)) = false →
    flatLookup g.flatDeps rp = some ex →
    ((g.node ex).path = lib.path → pruneDep fs lib pid g opts = (ex, true, g)) ∧
    ((g.node ex).path ≠ lib.path →
      (pruneDep fs lib pid g opts).2.1 = true ∧
      (pruneDep fs lib pid g opts).1 = g.nodes.length ∧
      ((pruneDep fs lib pid g opts).2.2.node (pruneDep fs lib pid g opts).1).path = lib.path ∧
      ((pruneDep fs lib pid g opts).2.2.node (pruneDep fs lib pid g opts).1).deps =
        (g.node ex).deps ∧
      ((pruneDep fs lib pid g opts).2.2.node
        (pruneDep fs lib pid g opts).1).prunedByFlatDeps = false ∧
      ((pruneDep fs lib pid g opts).2.2.node (pruneDep fs lib pid g opts).1).pruned = false ∧
      (pruneDep fs lib pid g opts).2.2.flatDeps = g.flatDeps ∧
      (pruneDep fs lib pid g opts).2.2.depsArr = g.depsArr) := by
  intro fs lib pid g opts rp ex h1 h2 h3 h4 h5 h6
  have hcore : pruneDep fs lib pid g opts =
      (if (g.node ex).path ≠ lib.path then
        ((g.allocNode
            { name := goBase lib.path
              path := lib.path
              realPath := if rp ≠ lib.path then rp else lib.path
              info := mkInfo lib.compatVersion lib.currentVersion
              isWeakDep := lib.weak
              deps := (g.node ex).deps }).1, true,
         (g.allocNode
            { name := goBase lib.path
              path := lib.path
              realPath := if rp ≠ lib.path then rp else lib.path
              info := mkInfo lib.compatVersion lib.currentVersion
              isWeakDep := lib.weak
              deps := (g.node ex).deps }).2)
      else (ex, true, g)) := by
    unfold pruneDep
    simp only [h1, h2, h3, h4, Bool.false_eq_true, if_false]
    by_cases hrp : rp = lib.path
    · subst hrp
      simp only [ne_eq, not_true_eq_false, if_false, reduceIte] at h5 ⊢
      simp only [h5, Bool.false_eq_true, if_false, h6]
    · have hne : lib.path ≠ rp := fun hx => hrp hx.symm
      simp only [ne_eq, hrp, hne, not_false_eq_true, if_true, reduceIte] at h5 ⊢
      simp only [decide_not, h5, Bool.false_eq_true, if_false, h6]
  constructor
  · intro hp
    rw [hcore, if_neg (by simpa using hp)]
  · intro hp
    rw [hcore, if_pos hp]
    refine ⟨rfl, rfl, ?_, ?_, ?_, ?_, rfl, rfl⟩ <;>
      simp [Graph.allocNode, Graph.node, List.getD_eq_getElem?_getD, List.getElem?_concat_length]

/-- Witness for the amended C1: an exact duplicate (`/p1` again) reuses
the canonical node `0` and leaves the graph untouched. -/
theorem pruneDep_flat_deps_decision_witness :
    pruneDep fsTwoNames { path := "/p1" } 0 gTwoNames {} = (0, true, gTwoNames) :=
  (pruneDep_flat_deps_decision fsTwoNames { path := "/p1" } 0 gTwoNames {} "/R" 0
    (by decide) (by decide) (by decide) (by decide) (by decide) (by decide)).1 (by decide)

/-! ### Claim C3: cycle breaking through the roots (corrected) -/

/-- Counterexample to claim C3: the top-level file `t` resolves to `/T`
and declares the dependency `/sym`, a symlink for the same `/T`.  The
pre-expansion top-level check does not catch it, so after expansion the
candidate is inserted and the top-level's `real_path` `/T` IS a key of
`flat_deps`. -/
theorem topDep_in_flatDeps_counterexample :
    (DepsRead envRootSym 1 {} ["t"]).toOption.map
      (fun g => (g.topDeps.map (fun t => flatLookup g.flatDeps (g.node t).realPath),
                 g.nodes.map (fun n => n.path),
                 g.nodes.map (fun n => n.pruned))) =
      some ([some 1], ["t", "/sym"], [false, false]) := by
  decide

/-- Amended claim C3: the top-level comparison happens before path
expansion: a candidate whose declared path equals some top-level's `path`
or `real_path` is marked pruned, not descended, and not inserted into
`flat_deps`; a candidate that matches a top-level only after expansion is
not caught by this check. -/
theorem pruneDep_top_level_check :
    ∀ (fs : FS) (lib : Dylib) (pid : Nat) (g : Graph) (opts : DependencyOptions),
    (lib.weak && opts.skipWeakLibs) = false →
    opts.ignoredFiles.contains (goBase lib.path) = false →
    (g.topDeps.any fun t => (g.node t).path == lib.path || (g.node t).realPath == lib.path) = true →
    pruneDep fs lib pid g opts =
      (g.nodes.length, true,
        { g with nodes := g.nodes ++
            [{ name := goBase lib.path
               path := lib.path
               realPath := lib.path
               info := mkInfo lib.compatVersion lib.currentVersion
               pruned := true
               isWeakDep := lib.weak }] }) := by
  intro fs lib pid g opts h1 h2 h3
  unfold pruneDep
  simp only [h1, h2, h3, Bool.false_eq_true, if_false, if_true, reduceIte]
  rfl

/-- Witness for the amended C3: a candidate equal to the top-level's
declared path is pruned without touching the flat index. -/
theorem pruneDep_top_level_check_witness :
    pruneDep fsRootSym { path := "/t" } 0 gOneTop {} =
      (1, true,
        { gOneTop with nodes := gOneTop.nodes ++
            [{ name := "t"
               path := "/t"
               realPath := "/t"
               info := mkInfo 0 0
               pruned := true
               isWeakDep := false }] }) :=
  pruneDep_top_level_check fsRootSym { path := "/t" } 0 gOneTop {}
    (by decide) (by decide) (by decide)

/-! ### Claim C2: top-level deduplication (code bug) -/

/-- Claim C2 names the documented behaviour (the source comments `Reduce
the file list to make it unique by the absolute path`), but the code keys
`seenFiles` by the caller-supplied string: the two distinct caller strings
`a` and `b` both resolve to `/x`, yet two top-level nodes are produced,
in caller order and with the same `real_path`. -/
theorem depsRead_dedup_by_caller_string :
    (DepsRead envSameAbs 1 {} ["a", "b"]).toOption.map
      (fun g => (g.topDeps.length,
                 g.topDeps.map (fun t => (g.node t).realPath),
                 g.topDeps.map (fun t => (g.node t).path))) =
      some (2, ["/x", "/x"], ["a", "b"]) := by
  decide

/-! ### Claim C10: the weak flag reflects only the parse path -/

/-- Every record produced by `TryParseLoadCmd` carries `weak = true`. -/
theorem tryParseLoadCmd_weak (cmd : Nat) (data : List Nat) (little : Bool) (dl : Dylib)
    (h : TryParseLoadCmd cmd data little = .ok (some dl)) : dl.weak = true := by
  unfold TryParseLoadCmd at h
  split_ifs at h <;> simp only [Except.ok.injEq, Option.some.injEq, reduceCtorEq] at h
  subst h
  rfl

/-- Fold invariant of `ReadDylibs`: a record appended for a
standard-dylib load has `weak = false`; one appended for a raw load has
`weak = true` (claim theorem uses these per-load facts). -/
theorem readDylibsLoad_weak (arch : Nat × Nat) (little : Bool) :
    (∀ (name : String) (time cur compat : Nat) (dl : Dylib),
      readDylibsLoad arch little (.dylib name time cur compat) = .ok (some dl) →
        dl.weak = false) ∧
    (∀ (bytes : List Nat) (dl : Dylib),
      readDylibsLoad arch little (.raw bytes) = .ok (some dl) → dl.weak = true) := by
  constructor
  · intro name time cur compat dl h
    simp only [readDylibsLoad, Except.ok.injEq, Option.some.injEq] at h
    subst h
    rfl
  · intro bytes dl h
    simp only [readDylibsLoad] at h
    rcases hp : TryParseLoadCmd loadCmdWeakDylib bytes little with e | o
    · rw [hp] at h; simp at h
    · rw [hp] at h
      match o, hp with
      | none, hp => simp at h
      | some dlp, hp =>
        simp only [Except.ok.injEq, Option.some.injEq] at h
        subst h
        exact tryParseLoadCmd_weak _ _ _ dlp hp

/-- The identity scan of one slice only produces weak-flagged records. -/
theorem getDylibInfoSlice_weak (lib : MachoSlice) (dl : Dylib)
    (h : getDylibInfoSlice lib = .ok (some dl)) : dl.weak = true := by
  unfold getDylibInfoSlice at h
  suffices hgen : ∀ (loads : List MachoLoad) (acc : Except String (Option Dylib)),
      (∀ d, acc = .ok (some d) → d.weak = true) →
      ∀ d, loads.foldl (fun acc load =>
        match acc with
        | .error e => .error e
        | .ok (some dl) => .ok (some dl)
        | .ok none =>
            match TryParseLoadCmd loadCmdId load.bytesOf lib.little with
            | .error e => .error e
            | .ok none => .ok none
            | .ok (some dl) => .ok (some { dl with arch := some (lib.cpu, lib.subCpu) }))
        acc = .ok (some d) → d.weak = true by
    exact hgen lib.loads (.ok none) (by intro d hd; simp at hd) dl h
  intro loads
  induction loads with
  | nil => intro acc hacc d hd; exact hacc d hd
  | cons l ls ih =>
    intro acc hacc d hd
    refine ih _ ?_ d hd
    intro d' hd'
    match acc, hacc with
    | .error e, _ => simp at hd'
    | .ok (some dl'), hacc =>
      simp only [Except.ok.injEq, Option.some.injEq] at hd'
      subst hd'
      exact hacc _ rfl
    | .ok none, _ =>
      simp only at hd'
      rcases hp : TryParseLoadCmd loadCmdId l.bytesOf lib.little with e | o
      · rw [hp] at hd'; simp at hd'
      · rw [hp] at hd'
        match o, hp with
        | none, hp => simp at hd'
        | some dlp, hp =>
          simp only [Except.ok.injEq, Option.some.injEq] at hd'
          subst hd'
          exact tryParseLoadCmd_weak _ _ _ dlp hp

/-- Every record of a successful `GetDylibInfo` carries `weak = true`. -/
theorem getDylibInfo_weak (slices : List MachoSlice) (ret : List Dylib)
    (h : GetDylibInfo slices = .ok ret) : ∀ d ∈ ret, d.weak = true := by
  unfold GetDylibInfo at h
  suffices hgen : ∀ (ss : List MachoSlice) (acc : Except String (List Dylib)),
      (∀ r, acc = .ok r → ∀ d ∈ r, d.weak = true) →
      ∀ r, ss.foldl (fun acc lib =>
        match acc with
        | .error e => .error e
        | .ok ret =>
            match getDylibInfoSlice lib with
            | .error e => .error e
            | .ok none => .ok ret
            | .ok (some dl) => .ok (ret ++ [dl])) acc = .ok r →
        ∀ d ∈ r, d.weak = true by
    exact hgen slices (.ok []) (by intro r hr; simp only [Except.ok.injEq] at hr; subst hr; simp) ret h
  intro ss
  induction ss with
  | nil => intro acc hacc r hr; exact hacc r hr
  | cons s ss ih =>
    intro acc hacc r hr
    refine ih _ ?_ r hr
    intro r' hr'
    match acc, hacc with
    | .error e, _ => simp at hr'
    | .ok ret', hacc =>
      simp only at hr'
      rcases hp : getDylibInfoSlice s with e | o
      · rw [hp] at hr'; simp at hr'
      · rw [hp] at hr'
        match o, hp with
        | none, hp =>
          simp only [Except.ok.injEq] at hr'
          subst hr'
          exact hacc _ rfl
        | some dlp, hp =>
          simp only [Except.ok.injEq] at hr'
          subst hr'
          intro d hd
          rcases List.mem_append.mp hd with hd | hd
          · exact hacc _ rfl d hd
          · rcases List.mem_singleton.mp hd with rfl
            exact getDylibInfoSlice_weak s d hp

/-- Claim C10: the load-command parser flags every record it produces as
weak; consequently every identity record from `GetDylibInfo` is flagged
weak, and a dependency record's weak flag reflects only the parse path
that produced it — a standard dylib load command yields `weak = false`,
the weak-dylib parse path yields `weak = true`. -/
theorem dylib_weak_flag_by_parse_path :
    ∀ (cmd : Nat) (data bytes : List Nat) (little : Bool) (dl : Dylib)
      (slices : List MachoSlice) (ret : List Dylib) (arch : Nat × Nat)
      (name : String) (time cur compat : Nat),
    (TryParseLoadCmd cmd data little = .ok (some dl) → dl.weak = true) ∧
    (GetDylibInfo slices = .ok ret → ∀ d ∈ ret, d.weak = true) ∧
    (readDylibsLoad arch little (.dylib name time cur compat) = .ok (some dl) →
      dl.weak = false) ∧
    (readDylibsLoad arch little (.raw bytes) = .ok (some dl) → dl.weak = true) := by
  intro cmd data bytes little dl slices ret arch name time cur compat
  exact ⟨tryParseLoadCmd_weak cmd data little dl,
         getDylibInfo_weak slices ret,
         (readDylibsLoad_weak arch little).1 name time cur compat dl,
         (readDylibsLoad_weak arch little).2 bytes dl⟩

/-- Byte image of an identity load command (`0x0d`), name offset 24,
name `abc`. -/
def idCmdBytes : List Nat :=
  [0x0d, 0, 0, 0, 28, 0, 0, 0, 24, 0, 0, 0, 0, 0, 0, 0,
   1, 0, 0, 0, 2, 0, 0, 0, 97, 98, 99, 0]

/-- Witness for C10: the concrete identity command parses to a record
flagged weak. -/
theorem dylib_weak_flag_by_parse_path_witness :
    ({ path := "abc", time := 0, currentVersion := 1, compatVersion := 2,
       weak := true } : Dylib).weak = true :=
  (dylib_weak_flag_by_parse_path loadCmdId idCmdBytes [] true _ [] [] (0, 0) "" 0 0 0).1
    rfl

/-! ### Claim C7: collection conflict resolution -/

/-- A found index stays below the start plus the list length. -/
theorem findIdx?_some_lt {α : Type} (p : α → Bool) :
    ∀ (l : List α) (i j : Nat), l.findIdx? p i = some j → j < i + l.length := by
  intro l
  induction l with
  | nil => intro i j h; simp [List.findIdx?_nil] at h
  | cons a l ih =>
    intro i j h
    rw [List.findIdx?_cons] at h
    by_cases hp : p a
    · rw [if_pos hp] at h
      simp only [Option.some.injEq] at h
      subst h
      simp
    · rw [if_neg (by simpa using hp)] at h
      have := ih (i + 1) j h
      simp only [List.length_cons]
      omega

/-- The loop of `getNiceness` computes, for each of the two paths, the
first matching index of the preferred order (relative to the start
index), as long as the accumulators start at `-1` or a found value. -/
theorem getNicenessAux_spec (e1 e2 : String) :
    ∀ (order : List String) (i : Nat) (n1 n2 : Int), -1 ≤ n1 → -1 ≤ n2 →
    getNicenessAux e1 e2 order i n1 n2 =
      ((if 0 ≤ n1 then n1 else toNiceness (order.findIdx? (fun o => goStartsWith e1 o) i)),
       (if 0 ≤ n2 then n2 else toNiceness (order.findIdx? (fun o => goStartsWith e2 o) i))) := by
  intro order
  induction order with
  | nil =>
    intro i n1 n2 h1 h2
    simp only [getNicenessAux, List.findIdx?_nil, toNiceness, Prod.mk.injEq]
    constructor
    · split <;> omega
    · split <;> omega
  | cons o rest ih =>
    intro i n1 n2 h1 h2
    rw [getNicenessAux]
    by_cases hc : n1 < 0 ∨ n2 < 0
    · rw [if_pos hc]
      rw [ih (i + 1) _ _ (by split <;> omega) (by split <;> omega)]
      rw [List.findIdx?_cons, List.findIdx?_cons]
      simp only [Prod.mk.injEq]
      constructor
      · by_cases hn1 : 0 ≤ n1
        · have hinner : (if n1 < 0 ∧ goStartsWith e1 o = true then (i : Int) else n1) = n1 :=
            if_neg (fun hx => absurd hx.1 (by omega))
          rw [hinner, if_pos hn1, if_pos hn1]
        · have hn1' : n1 < 0 := by omega
          by_cases hs : goStartsWith e1 o = true
          · have hinner :
                (if n1 < 0 ∧ goStartsWith e1 o = true then (i : Int) else n1) = (i : Int) :=
              if_pos ⟨hn1', hs⟩
            rw [hinner, if_pos (Int.natCast_nonneg i), if_neg hn1, if_pos hs]
            rfl
          · have hinner : (if n1 < 0 ∧ goStartsWith e1 o = true then (i : Int) else n1) = n1 :=
              if_neg (fun hx => hs hx.2)
            rw [hinner, if_neg hs, if_neg hn1]
      · by_cases hn2 : 0 ≤ n2
        · have hinner : (if n2 < 0 ∧ goStartsWith e2 o = true then (i : Int) else n2) = n2 :=
            if_neg (fun hx => absurd hx.1 (by omega))
          rw [hinner, if_pos hn2, if_pos hn2]
        · have hn2' : n2 < 0 := by omega
          by_cases hs : goStartsWith e2 o = true
          · have hinner :
                (if n2 < 0 ∧ goStartsWith e2 o = true then (i : Int) else n2) = (i : Int) :=
              if_pos ⟨hn2', hs⟩
            rw [hinner, if_pos (Int.natCast_nonneg i), if_neg hn2, if_pos hs]
            rfl
          · have hinner : (if n2 < 0 ∧ goStartsWith e2 o = true then (i : Int) else n2) = n2 :=
              if_neg (fun hx => hs hx.2)
            rw [hinner, if_neg hs, if_neg hn2]
    · rw [if_neg hc]
      have hn1 : 0 ≤ n1 := by omega
      have hn2 : 0 ≤ n2 := by omega
      simp only [Prod.mk.injEq]
      rw [if_pos hn1, if_pos hn2]
      exact ⟨rfl, rfl⟩

/-- `getNiceness` computes the specification's niceness for both paths. -/
theorem getNiceness_spec (e1 e2 : String) (order : List String) :
    getNiceness e1 e2 order = (nicenessSpec e1 order, nicenessSpec e2 order) := by
  rw [getNiceness, getNicenessAux_spec e1 e2 order 0 (-1) (-1) (by omega) (by omega)]
  rw [if_neg (by omega : ¬ (0:Int) ≤ -1), if_neg (by omega : ¬ (0:Int) ≤ -1)]
  rfl

/-- The displacement condition of `CollectDeps` is exactly a strict
penalty decrease. -/
theorem conflict_cond_iff (order : List String) (ex cand : String) :
    ((getNiceness ex cand order).2 ≥ 0 ∧
     ((getNiceness ex cand order).1 < 0 ∨
      (getNiceness ex cand order).2 < (getNiceness ex cand order).1)) ↔
    nicePenalty order cand < nicePenalty order ex := by
  rw [getNiceness_spec]
  rcases h1 : List.findIdx? (fun o => goStartsWith ex o) order 0 with _ | j1 <;>
    rcases h2 : List.findIdx? (fun o => goStartsWith cand o) order 0 with _ | j2 <;>
    simp only [nicenessSpec, nicePenalty, h1, h2, toNiceness]
  · omega
  · have := findIdx?_some_lt _ order 0 j2 h2
    omega
  · have := findIdx?_some_lt _ order 0 j1 h1
    omega
  · have b1 := findIdx?_some_lt _ order 0 j1 h1
    have b2 := findIdx?_some_lt _ order 0 j2 h2
    omega

/-- The conflict fold of `CollectDeps` equals the first-seen penalty
minimum fold. -/
theorem resolveConflict_eq_firstMin (order : List String) (cands : List String) :
    resolveConflict order cands = firstMinCand order cands := by
  unfold resolveConflict firstMinCand
  refine List.foldl_ext _ _ none ?_
  intro a b _
  match a with
  | none => rfl
  | some ex =>
    simp only
    exact if_congr (conflict_cond_iff order ex b) rfl rfl

/-- The first-seen minimum fold keeps a member of minimal penalty. -/
theorem firstMin_mem_le (order : List String) :
    ∀ (cs : List String) (w0 : String),
    ∃ w, cs.foldl (fun holder cand =>
        match holder with
        | none => some cand
        | some ex => if nicePenalty order cand < nicePenalty order ex then some cand
                     else some ex) (some w0) = some w ∧
      (w = w0 ∨ w ∈ cs) ∧ nicePenalty order w ≤ nicePenalty order w0 ∧
      ∀ x ∈ cs, nicePenalty order w ≤ nicePenalty order x := by
  intro cs
  induction cs with
  | nil => intro w0; exact ⟨w0, rfl, Or.inl rfl, le_refl _, by simp⟩
  | cons c cs ih =>
    intro w0
    simp only [List.foldl_cons]
    by_cases hlt : nicePenalty order c < nicePenalty order w0
    · rw [if_pos hlt]
      obtain ⟨w, hw, hmem, hle, hall⟩ := ih c
      refine ⟨w, hw, ?_, ?_, ?_⟩
      · rcases hmem with rfl | hmem
        · exact Or.inr (List.mem_cons_self _ _)
        · exact Or.inr (List.mem_cons_of_mem _ hmem)
      · omega
      · intro x hx
        rcases List.mem_cons.mp hx with rfl | hx
        · exact hle
        · exact hall x hx
    · rw [if_neg hlt]
      obtain ⟨w, hw, hmem, hle, hall⟩ := ih w0
      refine ⟨w, hw, ?_, hle, ?_⟩
      · rcases hmem with rfl | hmem
        · exact Or.inl rfl
        · exact Or.inr (List.mem_cons_of_mem _ hmem)
      · intro x hx
        rcases List.mem_cons.mp hx with rfl | hx
        · omega
        · exact hall x hx

/-- Claim C7: each candidate's niceness is the lowest matching index of
the preferred order (or `-1`); the conflict fold of `CollectDeps` keeps
the first-seen candidate of minimal penalty, where the penalty of a
candidate is its niceness with `-1` read as worse than every index (so
the lowest non-negative niceness wins, a non-negative challenger
displaces a `-1` holder, and ties and all-negative groups keep the
first-seen candidate). -/
theorem collect_conflict_resolution :
    ∀ (e1 e2 ent : String) (order : List String) (c : String) (cs : List String),
    getNiceness e1 e2 order = (nicenessSpec e1 order, nicenessSpec e2 order) ∧
    resolveConflict order (c :: cs) = firstMinCand order (c :: cs) ∧
    ((nicenessSpec ent order = -1 ∧ nicePenalty order ent = order.length) ∨
     (0 ≤ nicenessSpec ent order ∧ nicenessSpec ent order = (nicePenalty order ent : Int) ∧
      nicePenalty order ent < order.length)) ∧
    (∃ w, firstMinCand order (c :: cs) = some w ∧ w ∈ c :: cs ∧
      ∀ x ∈ c :: cs, nicePenalty order w ≤ nicePenalty order x) := by
  intro e1 e2 ent order c cs
  refine ⟨getNiceness_spec e1 e2 order, resolveConflict_eq_firstMin order (c :: cs), ?_, ?_⟩
  · rcases h : List.findIdx? (fun o => goStartsWith ent o) order 0 with _ | j <;>
      simp only [nicenessSpec, nicePenalty, h, toNiceness]
    · exact Or.inl ⟨by trivial, by trivial⟩
    · have := findIdx?_some_lt _ order 0 j h
      exact Or.inr ⟨by omega, by trivial, by omega⟩
  · obtain ⟨w, hw, hmem, hle, hall⟩ := firstMin_mem_le order cs c
    refine ⟨w, ?_, ?_, ?_⟩
    · simpa [firstMinCand] using hw
    · rcases hmem with rfl | hmem
      · exact List.mem_cons_self _ _
      · exact List.mem_cons_of_mem _ hmem
    · intro x hx
      rcases List.mem_cons.mp hx with rfl | hx
      · exact hle
      · exact hall x hx

/-! ### Claim C6: per-parent children are sorted and duplicate-free

The development below proves the invariant for the whole sequential
crawl.  The key facts: `pruneDep` only appends to the arenas and returns
a child whose declared path is the record's path; each crawled node owns
a fresh empty children slice; the per-parent `observedDeps` set makes the
appended paths distinct; and the final `sort.Sort` makes them sorted. -/

/-- Declared paths of the nodes of a children slice. -/
def pathsOf (g : Graph) (l : List Nat) : List String :=
  l.map (fun i => (g.node i).path)

/-- A children slice is sorted by declared path with no duplicates. -/
def ArrSorted (g : Graph) (l : List Nat) : Prop :=
  (pathsOf g l).Sorted (fun x y => strLe x y = true) ∧ (pathsOf g l).Nodup

/-- Well-formedness of a graph: children slices point at allocated
nodes, every children slice is sorted and duplicate-free, and the flat
index points at allocated nodes. -/
def GraphOK (g : Graph) : Prop :=
  (∀ a, ∀ i ∈ g.arr a, i < g.nodes.length) ∧
  (∀ a, ArrSorted g (g.arr a)) ∧
  (∀ p ∈ g.flatDeps, p.2 < g.nodes.length)

/-- Arena growth: nodes are only added, and existing nodes keep their
`path` and `deps` fields. -/
def Preserves (g g' : Graph) : Prop :=
  g.nodes.length ≤ g'.nodes.length ∧
  g.depsArr.length ≤ g'.depsArr.length ∧
  (∀ i, i < g.nodes.length →
    (g'.node i).path = (g.node i).path ∧ (g'.node i).deps = (g.node i).deps)

theorem Preserves.refl (g : Graph) : Preserves g g :=
  ⟨le_refl _, le_refl _, fun _ _ => ⟨rfl, rfl⟩⟩

theorem Preserves.trans {g1 g2 g3 : Graph} (h1 : Preserves g1 g2) (h2 : Preserves g2 g3) :
    Preserves g1 g3 := by
  refine ⟨le_trans h1.1 h2.1, le_trans h1.2.1 h2.2.1, fun i hi => ?_⟩
  have ha := h1.2.2 i hi
  have hb := h2.2.2 i (lt_of_lt_of_le hi h1.1)
  exact ⟨hb.1.trans ha.1, hb.2.trans ha.2⟩

/-- Paths of a valid slice are unchanged by arena growth. -/
theorem pathsOf_preserved {g g' : Graph} (h : Preserves g g') (l : List Nat)
    (hl : ∀ i ∈ l, i < g.nodes.length) : pathsOf g' l = pathsOf g l := by
  unfold pathsOf
  exact List.map_congr_left (fun i hi => (h.2.2 i (hl i hi)).1)

/-- Sortedness of a valid slice is unchanged by arena growth. -/
theorem ArrSorted_preserved {g g' : Graph} (h : Preserves g g') (l : List Nat)
    (hl : ∀ i ∈ l, i < g.nodes.length) (hs : ArrSorted g l) : ArrSorted g' l := by
  unfold ArrSorted
  rw [pathsOf_preserved h l hl]
  exact hs

/-- The one-step summary of `pruneDep`: the arenas only grow (children
slices only by a fresh empty one), the flat index stays valid, the
returned child is allocated and carries the record's declared path, and
in the descend case it is the freshly inserted node owning the fresh
empty children slice. -/
def PruneSpec (g : Graph) (lib : Dylib) (r : Nat × Bool × Graph) : Prop :=
  r.2.2.topDeps = g.topDeps ∧
  (∃ ns, r.2.2.nodes = g.nodes ++ ns) ∧
  (r.2.2.depsArr = g.depsArr ∨ r.2.2.depsArr = g.depsArr ++ [[]]) ∧
  (∀ p ∈ r.2.2.flatDeps, p.2 < r.2.2.nodes.length) ∧
  r.1 < r.2.2.nodes.length ∧
  (r.2.2.node r.1).path = lib.path ∧
  (r.2.1 = false →
    r.1 = g.nodes.length ∧
    (r.2.2.node r.1).deps = some g.depsArr.length ∧
    r.2.2.depsArr = g.depsArr ++ [[]])

theorem pruneDep_spec (fs : FS) (lib : Dylib) (pid : Nat) (g : Graph)
    (opts : DependencyOptions) (hflat : ∀ p ∈ g.flatDeps, p.2 < g.nodes.length) :
    PruneSpec g lib (pruneDep fs lib pid g opts) := by
  have halloc : ∀ (d : Dependency), d.path = lib.path →
      PruneSpec g lib (g.nodes.length, true, { g with nodes := g.nodes ++ [d] }) := by
    intro d hd
    refine ⟨rfl, ⟨[d], rfl⟩, Or.inl rfl, ?_, ?_, ?_, fun hb => by simp at hb⟩
    · intro p hp
      have := hflat p hp
      simp only [List.length_append, List.length_cons, List.length_nil]
      omega
    · simp
    · simpa [Graph.node, List.getD_eq_getElem?_getD, List.getElem?_concat_length] using hd
  have hfresh : ∀ (d : Dependency) (k : String), d.path = lib.path →
      d.deps = some g.depsArr.length →
      PruneSpec g lib (g.nodes.length, false,
        { g with nodes := g.nodes ++ [d], depsArr := g.depsArr ++ [[]],
                 flatDeps := g.flatDeps ++ [(k, g.nodes.length)] }) := by
    intro d k hd hdeps
    refine ⟨rfl, ⟨[d], rfl⟩, Or.inr rfl, ?_, by simp, ?_, fun _ => ⟨rfl, ?_, rfl⟩⟩
    · intro p hp
      rcases List.mem_append.mp hp with hp | hp
      · have := hflat p hp
        simp only [List.length_append, List.length_cons, List.length_nil]
        omega
      · rcases List.mem_singleton.mp hp with rfl
        simp
    · simpa [Graph.node, List.getD_eq_getElem?_getD, List.getElem?_concat_length] using hd
    · simpa [Graph.node, List.getD_eq_getElem?_getD, List.getElem?_concat_length] using hdeps
  have hexist : ∀ (ex : Nat) (k : String), flatLookup g.flatDeps k = some ex →
      (g.node ex).path = lib.path → PruneSpec g lib (ex, true, g) := by
    intro ex k hlook hpath
    have hmem : ex < g.nodes.length := by
      unfold flatLookup at hlook
      rcases hfind : g.flatDeps.find? (fun p => p.1 == k) with _ | p
      · rw [hfind] at hlook; simp at hlook
      · rw [hfind] at hlook
        simp at hlook
        subst hlook
        exact hflat p (List.mem_of_find?_eq_some hfind)
    exact ⟨rfl, ⟨[], by simp⟩, Or.inl rfl, hflat, hmem, hpath, fun hb => by simp at hb⟩
  cases h1 : lib.weak && opts.skipWeakLibs with
  | true =>
    simp only [pruneDep, h1, if_true]
    exact halloc _ rfl
  | false =>
  cases h2 : opts.ignoredFiles.contains (goBase lib.path) with
  | true =>
    simp only [pruneDep, h1, h2, Bool.false_eq_true, if_false, if_true]
    exact halloc _ rfl
  | false =>
  cases h3 : g.topDeps.any fun t => (g.node t).path == lib.path ||
      (g.node t).realPath == lib.path with
  | true =>
    simp only [pruneDep, h1, h2, h3, Bool.false_eq_true, if_false, if_true]
    exact halloc _ rfl
  | false =>
  rcases hres : resolvePath fs lib.path (g.node pid).realPath opts with ⟨rp, err⟩
  simp only [pruneDep, h1, h2, h3, hres, Bool.false_eq_true, if_false]
  rcases err with _ | e
  · dsimp only
    split_ifs with hrp hpre hpre
    · exact halloc _ rfl
    · rcases hlook : flatLookup g.flatDeps
          ({ name := goBase lib.path, path := lib.path, realPath := rp,
             info := mkInfo lib.compatVersion lib.currentVersion, pruned := false,
             prunedByFlatDeps := false, notResolved := false, isWeakDep := lib.weak,
             deps := none } : Dependency).realPath with _ | ex
      · dsimp only
        exact hfresh _ _ rfl rfl
      · dsimp only
        split_ifs with hex
        · exact halloc _ rfl
        · exact hexist ex _ hlook (by simpa using hex)
    · exact halloc _ rfl
    · rcases hlook : flatLookup g.flatDeps
          ({ name := goBase lib.path, path := lib.path, realPath := lib.path,
             info := mkInfo lib.compatVersion lib.currentVersion, pruned := false,
             prunedByFlatDeps := false, notResolved := false, isWeakDep := lib.weak,
             deps := none } : Dependency).realPath with _ | ex
      · dsimp only
        exact hfresh _ _ rfl rfl
      · dsimp only
        split_ifs with hex
        · exact halloc _ rfl
        · exact hexist ex _ hlook (by simpa using hex)
  · dsimp only
    exact halloc _ rfl

/-! #### Small arena and order lemmas -/

theorem getD_append_lt {α : Type} (l1 l2 : List α) (i : Nat) (d : α)
    (h : i < l1.length) : (l1 ++ l2).getD i d = l1.getD i d := by
  simp [List.getD_eq_getElem?_getD, List.getElem?_append_left h]

theorem getD_append_ge {α : Type} (l1 l2 : List α) (i : Nat) (d : α)
    (h : l1.length ≤ i) : (l1 ++ l2).getD i d = l2.getD (i - l1.length) d := by
  simp [List.getD_eq_getElem?_getD, List.getElem?_append_right h]

theorem ArrSorted_nil (g : Graph) : ArrSorted g [] := by
  constructor <;> simp [pathsOf]

theorem listLeNat_total : ∀ x y : List Nat, listLeNat x y = true ∨ listLeNat y x = true := by
  intro x
  induction x with
  | nil => intro y; exact Or.inl rfl
  | cons a as ih =>
    intro y
    cases y with
    | nil => exact Or.inr rfl
    | cons b bs =>
      by_cases hab : a < b
      · exact Or.inl (by simp [listLeNat, hab])
      · by_cases hba : b < a
        · exact Or.inr (by simp [listLeNat, hba])
        · rcases ih bs with h | h
          · exact Or.inl (by simp [listLeNat, hab, hba, h])
          · exact Or.inr (by simp [listLeNat, hab, hba, h])

theorem listLeNat_cons (a b : Nat) (as bs : List Nat) :
    listLeNat (a :: as) (b :: bs) = true ↔ a < b ∨ (a = b ∧ listLeNat as bs = true) := by
  simp only [listLeNat]
  by_cases h1 : a < b
  · simp [h1]
  · by_cases h2 : b < a
    · rw [if_neg h1, if_pos h2]
      constructor
      · intro hx; exact absurd hx (by simp)
      · intro hx; rcases hx with hx | ⟨hx, _⟩ <;> omega
    · have hab : a = b := by omega
      rw [if_neg h1, if_neg h2]
      constructor
      · intro hx; exact Or.inr ⟨hab, hx⟩
      · intro hx
        rcases hx with hx | ⟨_, hx⟩
        · omega
        · exact hx

theorem listLeNat_trans : ∀ x y z : List Nat,
    listLeNat x y = true → listLeNat y z = true → listLeNat x z = true := by
  intro x
  induction x with
  | nil => intro y z _ _; rfl
  | cons a as ih =>
    intro y z hxy hyz
    cases y with
    | nil => simp [listLeNat] at hxy
    | cons b bs =>
      cases z with
      | nil => simp [listLeNat] at hyz
      | cons c cs =>
        rw [listLeNat_cons] at hxy hyz ⊢
        rcases hxy with h | ⟨hab, hx⟩
        · rcases hyz with h2 | ⟨hbc, _⟩
          · exact Or.inl (by omega)
          · exact Or.inl (by omega)
        · rcases hyz with h2 | ⟨hbc, hy⟩
          · exact Or.inl (by omega)
          · exact Or.inr ⟨by omega, ih bs cs hx hy⟩

theorem strLe_total (a b : String) : strLe a b = true ∨ strLe b a = true :=
  listLeNat_total _ _

theorem strLe_trans {a b c : String} (h1 : strLe a b = true) (h2 : strLe b c = true) :
    strLe a c = true :=
  listLeNat_trans _ _ _ h1 h2

/-! #### One-step specifications of the crawl primitives -/

theorem appendChild_spec (g : Graph) (pid cid : Nat) :
    (appendChild g pid cid).nodes = g.nodes ∧
    (appendChild g pid cid).topDeps = g.topDeps ∧
    (appendChild g pid cid).flatDeps = g.flatDeps ∧
    (appendChild g pid cid).depsArr.length = g.depsArr.length ∧
    (∀ a, (g.node pid).deps ≠ some a → (appendChild g pid cid).arr a = g.arr a) ∧
    (∀ a, (g.node pid).deps = some a → a < g.depsArr.length →
       (appendChild g pid cid).arr a = g.arr a ++ [cid]) := by
  unfold appendChild
  rcases hdep : (g.node pid).deps with _ | a0
  · exact ⟨rfl, rfl, rfl, rfl, fun _ _ => rfl, fun a ha => by simp at ha⟩
  · refine ⟨rfl, rfl, rfl, by simp [Graph.setArr], ?_, ?_⟩
    · intro a ha
      have hne : a0 ≠ a := fun hx => ha (by rw [hx])
      simp [Graph.setArr, Graph.arr, List.getD_eq_getElem?_getD, List.getElem?_set_ne hne]
    · intro a ha hlt
      have : a0 = a := by injection ha
      subst this
      simp [Graph.setArr, Graph.arr, List.getD_eq_getElem?_getD,
            List.getElem?_set_self hlt]

theorem sortChildren_spec (g : Graph) (pid : Nat) :
    (sortChildren g pid).nodes = g.nodes ∧
    (sortChildren g pid).topDeps = g.topDeps ∧
    (sortChildren g pid).flatDeps = g.flatDeps ∧
    (sortChildren g pid).depsArr.length = g.depsArr.length ∧
    (∀ a, (g.node pid).deps ≠ some a → (sortChildren g pid).arr a = g.arr a) ∧
    (∀ a, (g.node pid).deps = some a → a < g.depsArr.length →
       (sortChildren g pid).arr a =
         (g.arr a).insertionSort
           (fun i j => strLe (g.node i).path (g.node j).path = true)) := by
  unfold sortChildren
  rcases hdep : (g.node pid).deps with _ | a0
  · exact ⟨rfl, rfl, rfl, rfl, fun _ _ => rfl, fun a ha => by simp at ha⟩
  · refine ⟨rfl, rfl, rfl, by simp [Graph.setArr], ?_, ?_⟩
    · intro a ha
      have hne : a0 ≠ a := fun hx => ha (by rw [hx])
      simp [Graph.setArr, Graph.arr, List.getD_eq_getElem?_getD, List.getElem?_set_ne hne]
    · intro a ha hlt
      have : a0 = a := by injection ha
      subst this
      simp [Graph.setArr, Graph.arr, List.getD_eq_getElem?_getD,
            List.getElem?_set_self hlt]

theorem setNode_flag_spec (g : Graph) (id : Nat) (d : Dependency)
    (hpath : d.path = (g.node id).path) (hdeps : d.deps = (g.node id).deps)
    (hreal : d.realPath = (g.node id).realPath) :
    (g.setNode id d).depsArr = g.depsArr ∧
    (g.setNode id d).topDeps = g.topDeps ∧
    (g.setNode id d).flatDeps = g.flatDeps ∧
    (g.setNode id d).nodes.length = g.nodes.length ∧
    (∀ i, ((g.setNode id d).node i).path = (g.node i).path ∧
          ((g.setNode id d).node i).deps = (g.node i).deps ∧
          ((g.setNode id d).node i).realPath = (g.node i).realPath) := by
  refine ⟨rfl, rfl, rfl, by simp [Graph.setNode], ?_⟩
  intro i
  by_cases hi : id = i
  · subst hi
    by_cases hlt : id < g.nodes.length
    · simp [Graph.setNode, Graph.node, List.getD_eq_getElem?_getD,
            List.getElem?_set_self hlt, hpath, hdeps, hreal]
    · have : g.nodes.set id d = g.nodes := List.set_eq_of_length_le (by omega)
      simp [Graph.setNode, Graph.node, this]
  · simp [Graph.setNode, Graph.node, List.getD_eq_getElem?_getD,
          List.getElem?_set_ne hi]

theorem preserves_of_append {g g' : Graph} (hn : ∃ ns, g'.nodes = g.nodes ++ ns)
    (hd : g'.depsArr = g.depsArr ∨ g'.depsArr = g.depsArr ++ [[]]) : Preserves g g' := by
  obtain ⟨ns, hns⟩ := hn
  refine ⟨by rw [hns]; simp, ?_, ?_⟩
  · rcases hd with hd | hd <;> rw [hd] <;> simp
  · intro i hi
    constructor <;> simp [Graph.node, hns, List.getElem?_append_left hi]

theorem arr_of_append {g g' : Graph}
    (hd : g'.depsArr = g.depsArr ∨ g'.depsArr = g.depsArr ++ [[]]) :
    ∀ a, g'.arr a = g.arr a ∨ g'.arr a = [] := by
  intro a
  rcases hd with hd | hd
  · exact Or.inl (by simp [Graph.arr, hd])
  · by_cases ha : a < g.depsArr.length
    · exact Or.inl (by simp [Graph.arr, hd, List.getElem?_append_left ha])
    · right
      rw [Graph.arr, hd, getD_append_ge _ _ _ _ (by omega)]
      rcases hk : a - g.depsArr.length with _ | k <;> simp

theorem arr_of_append_lt {g g' : Graph}
    (hd : g'.depsArr = g.depsArr ∨ g'.depsArr = g.depsArr ++ [[]]) :
    ∀ a, a < g.depsArr.length → g'.arr a = g.arr a := by
  intro a ha
  rcases hd with hd | hd
  · simp [Graph.arr, hd]
  · simp [Graph.arr, hd, List.getElem?_append_left ha]

/-- The invariant carried through the dylib loop of `depsRead` for
parent `id`, starting from graph `g0`. -/
def FoldInv (g0 : Graph) (id : Nat) (st : CrawlAcc) : Prop :=
  Preserves g0 st.1 ∧
  st.1.topDeps = g0.topDeps ∧
  (∀ p ∈ st.1.flatDeps, p.2 < st.1.nodes.length) ∧
  (∀ a, ∀ i ∈ st.1.arr a, i < st.1.nodes.length) ∧
  (∀ a, some a ≠ (g0.node id).deps → ArrSorted st.1 (st.1.arr a)) ∧
  (∀ a0, (g0.node id).deps = some a0 → pathsOf st.1 (st.1.arr a0) = st.2.1.reverse) ∧
  st.2.1.Nodup ∧
  (∀ c ∈ st.2.2, c < st.1.nodes.length ∧ ∃ ac, (st.1.node c).deps = some ac ∧
     ac < st.1.depsArr.length ∧ g0.depsArr.length ≤ ac ∧ st.1.arr ac = []) ∧
  st.2.2.Pairwise (fun c d => (st.1.node c).deps ≠ (st.1.node d).deps) ∧
  (∀ a, a < g0.depsArr.length → some a ≠ (g0.node id).deps → st.1.arr a = g0.arr a)

theorem foldInv_init (g0 : Graph) (id : Nat) (hok : GraphOK g0)
    (hdep : ∀ a, (g0.node id).deps = some a → a < g0.depsArr.length ∧ g0.arr a = []) :
    FoldInv g0 id (g0, [], []) := by
  refine ⟨Preserves.refl g0, rfl, hok.2.2, hok.1, fun a _ => hok.2.1 a, ?_,
          List.nodup_nil, by simp, List.Pairwise.nil, fun _ _ _ => rfl⟩
  intro a0 ha0
  have := (hdep a0 ha0).2
  simp [this, pathsOf]

theorem node_eq_of_nodes_eq {g g' : Graph} (h : g'.nodes = g.nodes) (i : Nat) :
    g'.node i = g.node i := by
  simp [Graph.node, h]

theorem pathsOf_append (g : Graph) (l1 l2 : List Nat) :
    pathsOf g (l1 ++ l2) = pathsOf g l1 ++ pathsOf g l2 := by
  simp [pathsOf]

/-- One iteration of the dylib loop preserves the fold invariant. -/
theorem foldStep_inv (fs : FS) (opts : DependencyOptions) (id : Nat) (g0 : Graph)
    (hid : id < g0.nodes.length)
    (hdep : ∀ a, (g0.node id).deps = some a → a < g0.depsArr.length ∧ g0.arr a = []) :
    ∀ (st : CrawlAcc) (lib : Dylib), FoldInv g0 id st →
      FoldInv g0 id (depsReadStep fs opts id st lib) := by
  rintro ⟨g, obs, toProc⟩ lib hinv
  obtain ⟨hpre, htop, hflat, hclosed, hsort, hcontent, hnodup, hproc, hpair, hframe⟩ := hinv
  dsimp only at hpre htop hflat hclosed hsort hcontent hnodup hproc hpair hframe
  unfold depsReadStep
  cases hobs : obs.contains lib.path with
  | true =>
    simp only [hobs, if_true]
    exact ⟨hpre, htop, hflat, hclosed, hsort, hcontent, hnodup, hproc, hpair, hframe⟩
  | false =>
  simp only [hobs, Bool.false_eq_true, if_false]
  have hnotmem : lib.path ∉ obs := by simpa using hobs
  rcases hps : pruneDep fs lib id g opts with ⟨cid, pruned, g2⟩
  have hspec := pruneDep_spec fs lib id g opts hflat
  rw [hps] at hspec
  obtain ⟨htop2, ⟨ns, hns⟩, hdarr, hflat2, hcidlt, hcidpath, hfreshR⟩ := hspec
  dsimp only at htop2 hns hdarr hflat2 hcidlt hcidpath hfreshR
  have hpres2 : Preserves g g2 := preserves_of_append ⟨ns, hns⟩ hdarr
  obtain ⟨han, hat, haf, hal, hane, hae⟩ := appendChild_spec g2 id cid
  have hdep2 : (g2.node id).deps = (g0.node id).deps := by
    have h1 := (hpres2.2.2 id (lt_of_lt_of_le hid hpre.1)).2
    have h0 := (hpre.2.2 id hid).2
    rw [h1, h0]
  have hpres3 : Preserves g2 (appendChild g2 id cid) :=
    ⟨le_of_eq (by rw [han]), le_of_eq (by rw [hal]),
     fun i _ => by rw [node_eq_of_nodes_eq han i]; exact ⟨rfl, rfl⟩⟩
  have hpres03 : Preserves g0 (appendChild g2 id cid) :=
    (hpre.trans hpres2).trans hpres3
  have hpresg3 : Preserves g (appendChild g2 id cid) := hpres2.trans hpres3
  -- how the children slices of the new graph relate to the old ones
  have harr3 : ∀ a, some a ≠ (g0.node id).deps →
      (appendChild g2 id cid).arr a = g2.arr a := by
    intro a ha
    exact hane a (fun hx => ha (by rw [← hx, hdep2]))
  have harr3old : ∀ a, a < g.depsArr.length → some a ≠ (g0.node id).deps →
      (appendChild g2 id cid).arr a = g.arr a := by
    intro a hlt ha
    rw [harr3 a ha, arr_of_append_lt hdarr a hlt]
  have hg2lenle : g.depsArr.length ≤ g2.depsArr.length := hpres2.2.1
  have hlen3 : (appendChild g2 id cid).nodes.length = g2.nodes.length := by rw [han]
  have hglen : g.nodes.length ≤ g2.nodes.length := hpres2.1
  have hg0len : g0.depsArr.length ≤ g.depsArr.length := hpre.2.1
  unfold FoldInv
  dsimp only
  refine ⟨hpres03, by rw [hat, htop2, htop], ?_, ?_, ?_, ?_, ?_, ?_, ?_, ?_⟩
  · -- flat index valid
    intro p hp
    rw [haf] at hp
    have h := hflat2 p hp
    omega
  · -- children slices point at allocated nodes
    intro a i hi
    by_cases ha : some a = (g0.node id).deps
    · obtain ⟨ha0lt, _⟩ := hdep a ha.symm
      have halt : a < g2.depsArr.length := by omega
      rw [hae a (by rw [hdep2]; exact ha.symm) halt] at hi
      rcases List.mem_append.mp hi with hi | hi
      · rw [arr_of_append_lt hdarr a (by omega)] at hi
        have := hclosed a i hi
        omega
      · rcases List.mem_singleton.mp hi with rfl
        omega
    · rw [harr3 a ha] at hi
      rcases arr_of_append hdarr a with hx | hx
      · rw [hx] at hi
        have := hclosed a i hi
        omega
      · rw [hx] at hi
        simp at hi
  · -- every non-parent slice stays sorted
    intro a ha
    rw [harr3 a ha]
    rcases arr_of_append hdarr a with hx | hx
    · rw [hx]
      exact ArrSorted_preserved hpresg3 _ (hclosed a) (hsort a ha)
    · rw [hx]
      exact ArrSorted_nil _
  · -- the parent slice records exactly the observed paths
    intro a0 ha0
    obtain ⟨ha0lt, _⟩ := hdep a0 ha0
    have halt : a0 < g2.depsArr.length := by omega
    rw [hae a0 (by rw [hdep2]; exact ha0) halt,
        arr_of_append_lt hdarr a0 (by omega), pathsOf_append,
        pathsOf_preserved hpresg3 _ (hclosed a0), hcontent a0 ha0]
    have h2 : pathsOf (appendChild g2 id cid) [cid] = [lib.path] := by
      simp [pathsOf, node_eq_of_nodes_eq han, hcidpath]
    rw [h2, List.reverse_cons]
  · -- the observed set stays duplicate-free
    exact List.nodup_cons.mpr ⟨hnotmem, hnodup⟩
  · -- pending children own fresh empty slices
    have harr_pres : ∀ ac, g0.depsArr.length ≤ ac → ac < g.depsArr.length →
        g.arr ac = [] → (appendChild g2 id cid).arr ac = [] := by
      intro ac hge hlt hempty
      have hne : some ac ≠ (g0.node id).deps := by
        rcases hd0 : (g0.node id).deps with _ | a0
        · simp
        · obtain ⟨hlt0, _⟩ := hdep a0 hd0
          simp only [ne_eq, Option.some.injEq]
          omega
      rw [harr3old ac hlt hne, hempty]
    cases hp : pruned with
    | true =>
      simp only [hp, if_true]
      intro c hc
      obtain ⟨hclt, ac, hacdeps, haclt, hacge, hacempty⟩ := hproc c hc
      refine ⟨by omega, ac, ?_, ?_, hacge, harr_pres ac hacge haclt hacempty⟩
      · rw [(hpresg3.2.2 c hclt).2, hacdeps]
      · have := hpresg3.2.1
        omega
    | false =>
      simp only [hp, Bool.false_eq_true, if_false]
      intro c hc
      rcases List.mem_append.mp hc with hc | hc
      · obtain ⟨hclt, ac, hacdeps, haclt, hacge, hacempty⟩ := hproc c hc
        refine ⟨by omega, ac, ?_, ?_, hacge, harr_pres ac hacge haclt hacempty⟩
        · rw [(hpresg3.2.2 c hclt).2, hacdeps]
        · have := hpresg3.2.1
          omega
      · rcases List.mem_singleton.mp hc with rfl
        obtain ⟨hcid_eq, hcid_deps, hcid_darr⟩ := hfreshR hp
        have hg2darr : g2.depsArr.length = g.depsArr.length + 1 := by
          rw [hcid_darr]
          simp
        have hne : some g.depsArr.length ≠ (g0.node id).deps := by
          rcases hd0 : (g0.node id).deps with _ | a0
          · simp
          · obtain ⟨hlt0, _⟩ := hdep a0 hd0
            simp only [ne_eq, Option.some.injEq]
            omega
        refine ⟨by omega, g.depsArr.length, ?_, ?_, by omega, ?_⟩
        · rw [node_eq_of_nodes_eq han, hcid_deps]
        · rw [hal]
          omega
        · rw [harr3 _ hne, Graph.arr, hcid_darr, getD_append_ge _ _ _ _ (le_refl _)]
          simp
  · -- pending children have pairwise distinct slice pointers
    have htrans : ∀ c ∈ toProc, ∀ d ∈ toProc,
        ((g.node c).deps ≠ (g.node d).deps) →
        ((appendChild g2 id cid).node c).deps ≠ ((appendChild g2 id cid).node d).deps := by
      intro c hcm d hdm hcd
      rw [(hpresg3.2.2 c (hproc c hcm).1).2, (hpresg3.2.2 d (hproc d hdm).1).2]
      exact hcd
    cases hp : pruned with
    | true =>
      simp only [hp, if_true]
      exact hpair.imp_of_mem (fun hcm hdm hcd => htrans _ hcm _ hdm hcd)
    | false =>
      simp only [hp, Bool.false_eq_true, if_false]
      rw [List.pairwise_append]
      refine ⟨hpair.imp_of_mem (fun hcm hdm hcd => htrans _ hcm _ hdm hcd),
              List.pairwise_singleton _ _, ?_⟩
      intro c hcm d hdm
      rcases List.mem_singleton.mp hdm with rfl
      obtain ⟨hclt, ac, hacdeps, haclt, _, _⟩ := hproc c hcm
      obtain ⟨hcid_eq, hcid_deps, _⟩ := hfreshR hp
      rw [(hpresg3.2.2 c hclt).2, hacdeps, node_eq_of_nodes_eq han, hcid_deps]
      simp only [ne_eq, Option.some.injEq]
      omega
  · -- slices below the start and off the parent are untouched
    intro a halt hane0
    rw [harr3old a (by omega) hane0]
    exact hframe a halt hane0

theorem pathsOf_eq_of_nodes_eq {g g' : Graph} (h : g'.nodes = g.nodes) (l : List Nat) :
    pathsOf g' l = pathsOf g l := by
  simp [pathsOf, node_eq_of_nodes_eq h]

/-- After the dylib loop, sorting the parent's children restores full
well-formedness, and the collected non-pruned children are intact
crawl-ready targets. -/
theorem sortFinal (g0 : Graph) (id : Nat) (hid : id < g0.nodes.length)
    (hdep : ∀ a, (g0.node id).deps = some a → a < g0.depsArr.length ∧ g0.arr a = [])
    (st : CrawlAcc) (hinv : FoldInv g0 id st) :
    GraphOK (sortChildren st.1 id) ∧
    Preserves g0 (sortChildren st.1 id) ∧
    (sortChildren st.1 id).topDeps = g0.topDeps ∧
    (∀ a, a < g0.depsArr.length → (g0.node id).deps ≠ some a →
       (sortChildren st.1 id).arr a = g0.arr a) ∧
    (∀ c ∈ st.2.2, c < (sortChildren st.1 id).nodes.length ∧
       ∃ ac, ((sortChildren st.1 id).node c).deps = some ac ∧
         ac < (sortChildren st.1 id).depsArr.length ∧
         g0.depsArr.length ≤ ac ∧
         (sortChildren st.1 id).arr ac = []) ∧
    st.2.2.Pairwise (fun c d =>
      ((sortChildren st.1 id).node c).deps ≠ ((sortChildren st.1 id).node d).deps) := by
  obtain ⟨hpre, htop, hflat, hclosed, hsort, hcontent, hnodup, hproc, hpair, hframe⟩ := hinv
  obtain ⟨hsn, hst, hsf, hsl, hsne, hseq⟩ := sortChildren_spec st.1 id
  have hdep1 : (st.1.node id).deps = (g0.node id).deps :=
    (hpre.2.2 id hid).2
  have hpresS : Preserves st.1 (sortChildren st.1 id) :=
    ⟨le_of_eq (by rw [hsn]), le_of_eq (by rw [hsl]),
     fun i _ => by rw [node_eq_of_nodes_eq hsn i]; exact ⟨rfl, rfl⟩⟩
  have hsnlen : (sortChildren st.1 id).nodes.length = st.1.nodes.length := by rw [hsn]
  have hpresOS : Preserves g0 (sortChildren st.1 id) := hpre.trans hpresS
  have harrS : ∀ a, some a ≠ (g0.node id).deps →
      (sortChildren st.1 id).arr a = st.1.arr a := by
    intro a ha
    exact hsne a (fun hx => ha (by rw [← hx, hdep1]))
  have hArrSortedS : ∀ (l : List Nat), ArrSorted st.1 l →
      ArrSorted (sortChildren st.1 id) l := by
    intro l hl
    unfold ArrSorted at hl ⊢
    rw [pathsOf_eq_of_nodes_eq hsn]
    exact hl
  have hmain : ∀ a, ArrSorted (sortChildren st.1 id) ((sortChildren st.1 id).arr a) ∧
      (∀ i ∈ (sortChildren st.1 id).arr a, i < (sortChildren st.1 id).nodes.length) := by
    intro a
    by_cases ha : some a = (g0.node id).deps
    · obtain ⟨halt, _⟩ := hdep a ha.symm
      have halt1 : a < st.1.depsArr.length := by
        have := hpre.2.1
        omega
      rw [hseq a (by rw [hdep1]; exact ha.symm) halt1]
      have hperm : ((st.1.arr a).insertionSort
          (fun i j => strLe (st.1.node i).path (st.1.node j).path = true)).Perm
          (st.1.arr a) :=
        List.perm_insertionSort _ _
      constructor
      · constructor
        · -- sortedness from the insertion sort
          haveI : IsTrans Nat
              (fun i j => strLe (st.1.node i).path (st.1.node j).path = true) :=
            ⟨fun _ _ _ h1 h2 => strLe_trans h1 h2⟩
          haveI : IsTotal Nat
              (fun i j => strLe (st.1.node i).path (st.1.node j).path = true) :=
            ⟨fun x y => strLe_total (st.1.node x).path (st.1.node y).path⟩
          have hps := List.sorted_insertionSort
            (fun i j => strLe (st.1.node i).path (st.1.node j).path = true)
            (st.1.arr a)
          unfold pathsOf
          refine List.pairwise_map.mpr (hps.imp_of_mem ?_)
          intro x y hx hy hxy
          rw [node_eq_of_nodes_eq hsn x, node_eq_of_nodes_eq hsn y]
          exact hxy
        · -- distinctness from the observed-paths invariant
          have hnd : (pathsOf st.1 (st.1.arr a)).Nodup := by
            rw [hcontent a ha.symm]
            exact List.nodup_reverse.mpr hnodup
          have hpermp : (pathsOf (sortChildren st.1 id)
              ((st.1.arr a).insertionSort
                (fun i j => strLe (st.1.node i).path (st.1.node j).path = true))).Perm
              (pathsOf st.1 (st.1.arr a)) := by
            rw [pathsOf_eq_of_nodes_eq hsn]
            exact hperm.map _
          exact hpermp.symm.nodup hnd
      · intro i hi
        have hi' : i ∈ st.1.arr a := (List.mem_insertionSort _).mp hi
        have := hclosed a i hi'
        omega
    · rw [harrS a ha]
      refine ⟨hArrSortedS _ (hsort a ha), ?_⟩
      intro i hi
      have := hclosed a i hi
      omega
  refine ⟨⟨fun a => (hmain a).2, fun a => (hmain a).1, ?_⟩, hpresOS, by rw [hst, htop], ?_, ?_, ?_⟩
  · intro p hp
    rw [hsf] at hp
    have := hflat p hp
    omega
  · intro a halt hane
    rw [harrS a (fun hx => hane hx.symm)]
    exact hframe a halt (fun hx => hane hx.symm)
  · intro c hc
    obtain ⟨hclt, ac, hacdeps, haclt, hacge, hacempty⟩ := hproc c hc
    refine ⟨by omega, ac, ?_, by omega, hacge, ?_⟩
    · rw [(hpresS.2.2 c hclt).2, hacdeps]
    · have hne : some ac ≠ (g0.node id).deps := by
        rcases hd0 : (g0.node id).deps with _ | a0
        · simp
        · obtain ⟨hlt0, _⟩ := hdep a0 hd0
          have := hpre.2.1
          simp only [ne_eq, Option.some.injEq]
          omega
      rw [harrS ac hne, hacempty]
  · exact hpair.imp_of_mem (fun {c d} hcm hdm hcd => by
      rw [(hpresS.2.2 c (hproc c hcm).1).2, (hpresS.2.2 d (hproc d hdm).1).2]
      exact hcd)

/-- The whole dylib loop preserves the fold invariant. -/
theorem crawlFold_inv (fs : FS) (opts : DependencyOptions) (id : Nat) (g0 : Graph)
    (hid : id < g0.nodes.length)
    (hdep : ∀ a, (g0.node id).deps = some a → a < g0.depsArr.length ∧ g0.arr a = []) :
    ∀ (libs : List Dylib) (st : CrawlAcc), FoldInv g0 id st →
      FoldInv g0 id (libs.foldl (depsReadStep fs opts id) st) := by
  intro libs
  induction libs with
  | nil => intro st h; exact h
  | cons l ls ih =>
    intro st h
    exact ih _ (foldStep_inv fs opts id g0 hid hdep st l h)

/-- The conclusion of one crawl of `depsRead` at a given fuel: the graph
stays well-formed, the arenas only grow, the top-level list is unchanged,
and every slice other than the crawled node's own is untouched. -/
def CrawlGood (env : Env) (opts : DependencyOptions) (fuel : Nat) : Prop :=
  ∀ (id : Nat) (g : Graph), id < g.nodes.length → GraphOK g →
    (∀ a, (g.node id).deps = some a → a < g.depsArr.length ∧ g.arr a = []) →
    GraphOK (depsRead env opts fuel id g) ∧
    Preserves g (depsRead env opts fuel id g) ∧
    (depsRead env opts fuel id g).topDeps = g.topDeps ∧
    (∀ a, a < g.depsArr.length → (g.node id).deps ≠ some a →
      (depsRead env opts fuel id g).arr a = g.arr a)

/-- Crawling a pending list of fresh children (each owning an empty
slice, with pairwise distinct slice pointers) preserves well-formedness
and touches only the pending slices. -/
theorem crawlList_good (env : Env) (opts : DependencyOptions) (fuel : Nat)
    (hcg : CrawlGood env opts fuel) :
    ∀ (cs : List Nat) (g : Graph), GraphOK g →
    (∀ c ∈ cs, c < g.nodes.length ∧ ∃ ac, (g.node c).deps = some ac ∧
       ac < g.depsArr.length ∧ g.arr ac = []) →
    cs.Pairwise (fun c d => (g.node c).deps ≠ (g.node d).deps) →
    GraphOK (cs.foldl (fun gg c => depsRead env opts fuel c gg) g) ∧
    Preserves g (cs.foldl (fun gg c => depsRead env opts fuel c gg) g) ∧
    (cs.foldl (fun gg c => depsRead env opts fuel c gg) g).topDeps = g.topDeps ∧
    (∀ a, a < g.depsArr.length → (∀ c ∈ cs, (g.node c).deps ≠ some a) →
      (cs.foldl (fun gg c => depsRead env opts fuel c gg) g).arr a = g.arr a) := by
  intro cs
  induction cs with
  | nil =>
    intro g hok _ _
    exact ⟨hok, Preserves.refl g, rfl, fun _ _ _ => rfl⟩
  | cons c cs ih =>
    intro g hok hpend hpair
    simp only [List.foldl_cons]
    obtain ⟨hclt, ac, hacd, haclt, hacem⟩ := hpend c (List.mem_cons_self c cs)
    obtain ⟨hok1, hpre1, htop1, hframe1⟩ := hcg c g hclt hok (fun a ha => by
      rw [hacd] at ha
      injection ha with ha
      subst ha
      exact ⟨haclt, hacem⟩)
    have hpend1 : ∀ d ∈ cs, d < (depsRead env opts fuel c g).nodes.length ∧
        ∃ ad, ((depsRead env opts fuel c g).node d).deps = some ad ∧
          ad < (depsRead env opts fuel c g).depsArr.length ∧
          (depsRead env opts fuel c g).arr ad = [] := by
      intro d hd
      obtain ⟨hdlt, ad, hdd, hdlt2, hdem⟩ := hpend d (List.mem_cons_of_mem _ hd)
      refine ⟨by have := hpre1.1; omega, ad, ?_, by have := hpre1.2.1; omega, ?_⟩
      · rw [(hpre1.2.2 d hdlt).2, hdd]
      · have hne : (g.node c).deps ≠ some ad := by
          have hx := (List.pairwise_cons.mp hpair).1 d hd
          rw [hacd, hdd] at hx
          rw [hacd]
          exact hx
        rw [hframe1 ad hdlt2 hne, hdem]
    have hpair1 : cs.Pairwise (fun x y =>
        ((depsRead env opts fuel c g).node x).deps ≠
        ((depsRead env opts fuel c g).node y).deps) := by
      refine ((List.pairwise_cons.mp hpair).2).imp_of_mem ?_
      intro x y hx hy hxy
      rw [(hpre1.2.2 x (hpend x (List.mem_cons_of_mem _ hx)).1).2,
          (hpre1.2.2 y (hpend y (List.mem_cons_of_mem _ hy)).1).2]
      exact hxy
    obtain ⟨hok2, hpre2, htop2, hframe2⟩ := ih (depsRead env opts fuel c g) hok1 hpend1 hpair1
    refine ⟨hok2, hpre1.trans hpre2, by rw [htop2, htop1], ?_⟩
    intro a halt hall
    have h1 : (depsRead env opts fuel c g).arr a = g.arr a :=
      hframe1 a halt (hall c (List.mem_cons_self c cs))
    rw [← h1]
    refine hframe2 a (by have := hpre1.2.1; omega) ?_
    intro d hd
    rw [(hpre1.2.2 d (hpend d (List.mem_cons_of_mem _ hd)).1).2]
    exact hall d (List.mem_cons_of_mem _ hd)

/-- Every amount of fuel yields a good crawl: induction on fuel, using
the loop invariant, the sorting step and the pending-children lemma. -/
theorem crawlGood_all (env : Env) (opts : DependencyOptions) :
    ∀ fuel, CrawlGood env opts fuel := by
  intro fuel
  induction fuel with
  | zero =>
    intro id g _ hok _
    exact ⟨hok, Preserves.refl g, rfl, fun _ _ _ => rfl⟩
  | succ fuel ih =>
    intro id g hid hok hdep
    rcases hrd : readDylibsFile env (g.node id).realPath with _ | libs
    · simp only [depsRead, hrd]
      obtain ⟨hda, hto, hfl, hnl, hnode⟩ :=
        setNode_flag_spec g id { g.node id with notResolved := true } rfl rfl rfl
      have harr : ∀ a,
          (g.setNode id { g.node id with notResolved := true }).arr a = g.arr a := by
        intro a
        simp [Graph.arr, hda]
      have hpres : Preserves g (g.setNode id { g.node id with notResolved := true }) :=
        ⟨le_of_eq hnl.symm, le_of_eq (by rw [hda]),
         fun i _ => ⟨(hnode i).1, (hnode i).2.1⟩⟩
      refine ⟨⟨?_, ?_, ?_⟩, hpres, hto, fun a _ _ => harr a⟩
      · intro a i hi
        rw [harr a] at hi
        simpa [Graph.setNode] using hok.1 a i hi
      · intro a
        rw [harr a]
        exact ArrSorted_preserved hpres (g.arr a) (hok.1 a) (hok.2.1 a)
      · intro p hp
        rw [hfl] at hp
        simpa [Graph.setNode] using hok.2.2 p hp
    · simp only [depsRead, hrd]
      have hinv := crawlFold_inv env.fs opts id g hid hdep libs (g, [], [])
        (foldInv_init g id hok hdep)
      obtain ⟨hokS, hpreS, htopS, hframeS, hpendS, hpairS⟩ :=
        sortFinal g id hid hdep (libs.foldl (depsReadStep env.fs opts id) (g, [], [])) hinv
      cases hrec : opts.recursive with
      | false =>
        simp only [hrec, Bool.false_eq_true, if_false]
        exact ⟨hokS, hpreS, htopS, hframeS⟩
      | true =>
        simp only [hrec, if_true]
        obtain ⟨hokL, hpreL, htopL, hframeL⟩ :=
          crawlList_good env opts fuel ih
            (libs.foldl (depsReadStep env.fs opts id) (g, [], [])).2.2
            (sortChildren (libs.foldl (depsReadStep env.fs opts id) (g, [], [])).1 id)
            hokS
            (fun c hc => by
              obtain ⟨h1, ac, h2, h3, _, h5⟩ := hpendS c hc
              exact ⟨h1, ac, h2, h3, h5⟩)
            hpairS
        refine ⟨hokL, hpreS.trans hpreL, by rw [htopL, htopS], ?_⟩
        intro a halt hne
        have hlt2 : a < (sortChildren
            (libs.foldl (depsReadStep env.fs opts id) (g, [], [])).1 id).depsArr.length := by
          have := hpreS.2.1
          omega
        have hneL : ∀ c ∈ (libs.foldl (depsReadStep env.fs opts id) (g, [], [])).2.2,
            ((sortChildren
              (libs.foldl (depsReadStep env.fs opts id) (g, [], [])).1 id).node c).deps
              ≠ some a := by
          intro c hc
          obtain ⟨_, ac, h2, _, h4, _⟩ := hpendS c hc
          rw [h2]
          simp only [ne_eq, Option.some.injEq]
          omega
        rw [hframeL a hlt2 hneL]
        exact hframeS a halt hne

/-- The invariant of the input-normalisation fold of `DepsRead`: when it
has produced a graph, that graph is well-formed and its top-level nodes
are crawl-ready (each owns an empty children slice, pairwise distinct). -/
def SeedOK (st : Except DepsErr (Graph × List String)) : Prop :=
  ∀ g seen, st = .ok (g, seen) →
    GraphOK g ∧
    (∀ t ∈ g.topDeps, t < g.nodes.length ∧ ∃ a, (g.node t).deps = some a ∧
       a < g.depsArr.length ∧ g.arr a = []) ∧
    g.topDeps.Pairwise (fun c d => (g.node c).deps ≠ (g.node d).deps) ∧
    g.flatDeps = []

theorem seedOK_init : SeedOK (.ok (({} : Graph), ([] : List String))) := by
  intro g s heq
  simp only [Except.ok.injEq, Prod.mk.injEq] at heq
  obtain ⟨hg, -⟩ := heq
  subst hg
  have harr : ∀ a, ({} : Graph).arr a = [] := by
    intro a
    simp [Graph.arr, List.getD_eq_getElem?_getD]
  refine ⟨⟨?_, ?_, ?_⟩, ?_, List.Pairwise.nil, rfl⟩
  · intro a i hi
    rw [harr a] at hi
    simp at hi
  · intro a
    rw [harr a]
    exact ArrSorted_nil _
  · intro p hp
    simp at hp
  · intro t ht
    simp at ht

/-- Allocating a fresh top-level node (with a fresh empty children slice)
preserves the seed invariant. -/
theorem seedOK_alloc (g : Graph) (dep : Dependency) (s : List String)
    (hdep : dep.deps = some g.depsArr.length)
    (hok : GraphOK g)
    (hpend : ∀ t ∈ g.topDeps, t < g.nodes.length ∧ ∃ a, (g.node t).deps = some a ∧
       a < g.depsArr.length ∧ g.arr a = [])
    (hpair : g.topDeps.Pairwise (fun c d => (g.node c).deps ≠ (g.node d).deps))
    (hfd0 : g.flatDeps = []) :
    SeedOK (.ok (Graph.mk (g.nodes ++ [dep]) (g.depsArr ++ [[]])
        (g.topDeps ++ [g.nodes.length]) g.flatDeps, s)) := by
  intro g' s' heq
  simp only [Except.ok.injEq, Prod.mk.injEq] at heq
  obtain ⟨hg, -⟩ := heq
  have hnodes : g'.nodes = g.nodes ++ [dep] := by rw [← hg]
  have hdarr : g'.depsArr = g.depsArr ++ [[]] := by rw [← hg]
  have htd : g'.topDeps = g.topDeps ++ [g.nodes.length] := by rw [← hg]
  have hfd : g'.flatDeps = g.flatDeps := by rw [← hg]
  have hpres : Preserves g g' := preserves_of_append ⟨[dep], hnodes⟩ (Or.inr hdarr)
  have harr2 : ∀ a, g'.arr a = g.arr a ∨ g'.arr a = [] := arr_of_append (Or.inr hdarr)
  have harrlt : ∀ a, a < g.depsArr.length → g'.arr a = g.arr a :=
    arr_of_append_lt (Or.inr hdarr)
  have hnodeold : ∀ i, i < g.nodes.length → g'.node i = g.node i := by
    intro i hi
    simp [Graph.node, hnodes, List.getD_eq_getElem?_getD, List.getElem?_append_left hi]
  have hnodenew : g'.node g.nodes.length = dep := by
    simp [Graph.node, hnodes, List.getD_eq_getElem?_getD, List.getElem?_concat_length]
  have harrnew : g'.arr g.depsArr.length = [] := by
    rw [Graph.arr, hdarr, getD_append_ge _ _ _ _ (le_refl _)]
    simp
  have hnl : g'.nodes.length = g.nodes.length + 1 := by rw [hnodes]; simp
  have hdl : g'.depsArr.length = g.depsArr.length + 1 := by rw [hdarr]; simp
  refine ⟨⟨?_, ?_, ?_⟩, ?_, ?_, by rw [hfd, hfd0]⟩
  · intro a i hi
    rcases harr2 a with ha | ha
    · rw [ha] at hi
      have := hok.1 a i hi
      omega
    · rw [ha] at hi
      simp at hi
  · intro a
    rcases harr2 a with ha | ha
    · rw [ha]
      exact ArrSorted_preserved hpres (g.arr a) (hok.1 a) (hok.2.1 a)
    · rw [ha]
      exact ArrSorted_nil _
  · intro p hp
    rw [hfd] at hp
    have := hok.2.2 p hp
    omega
  · intro t ht
    rw [htd] at ht
    rcases List.mem_append.mp ht with ht | ht
    · obtain ⟨htlt, a, hta, halt, haem⟩ := hpend t ht
      refine ⟨by omega, a, ?_, by omega, ?_⟩
      · rw [hnodeold t htlt, hta]
      · rw [harrlt a halt, haem]
    · rcases List.mem_singleton.mp ht with rfl
      refine ⟨by omega, g.depsArr.length, ?_, by omega, harrnew⟩
      rw [hnodenew, hdep]
  · rw [htd]
    refine List.pairwise_append.mpr ⟨?_, by simp, ?_⟩
    · refine hpair.imp_of_mem ?_
      intro c d hc hd hcd
      rw [hnodeold c (hpend c hc).1, hnodeold d (hpend d hd).1]
      exact hcd
    · intro c hc b hb
      rcases List.mem_singleton.mp hb with rfl
      obtain ⟨hclt, a, hca, halt, -⟩ := hpend c hc
      rw [hnodeold c hclt, hca, hnodenew, hdep]
      simp only [ne_eq, Option.some.injEq]
      omega

/-- One step of the input-normalisation fold preserves the seed
invariant. -/
theorem depsReadSeed_ok (env : Env) (file : String)
    (st : Except DepsErr (Graph × List String)) (h : SeedOK st) :
    SeedOK (depsReadSeed env st file) := by
  rcases st with e | ⟨g, seen⟩
  · intro g' s' heq
    simp [depsReadSeed] at heq
  · obtain ⟨hok, hpend, hpair, hfd0⟩ := h g seen rfl
    rcases h1 : ResolveAbsPath env.fs file with ⟨ap, err1⟩
    rcases err1 with _ | e1
    · rcases h2 : env.contents file with _ | data
      · intro g' s' heq
        simp [depsReadSeed, h1, h2] at heq
      · cases h3 : (IsFatMachO data).1 with
        | false =>
          intro g' s' heq
          simp [depsReadSeed, h1, h2, h3] at heq
        | true =>
          rcases h4 : getDylibInfoFile env ap with _ | info
          · intro g' s' heq
            simp [depsReadSeed, h1, h2, h3, h4] at heq
          · cases h5 : seen.contains file with
            | true =>
              intro g' s' heq
              simp only [depsReadSeed, h1, h2, h3, h4, h5, Bool.not_true,
                Bool.false_eq_true, if_false, if_true, Except.ok.injEq,
                Prod.mk.injEq] at heq
              obtain ⟨hg, -⟩ := heq
              subst hg
              exact ⟨hok, hpend, hpair, hfd0⟩
            | false =>
              rcases info with _ | ⟨i0, irest⟩
              · have hEQ : depsReadSeed env (.ok (g, seen)) file =
                    .ok (Graph.mk
                      (g.nodes ++ [{
                        name := goBase file, path := file,
                        realPath := if ap ≠ file then ap else file,
                        info := "",
                        deps := some g.depsArr.length }])
                      (g.depsArr ++ [[]])
                      (g.topDeps ++ [g.nodes.length]) g.flatDeps, file :: seen) := by
                  simp only [depsReadSeed, h1, h2, h3, h4, h5, Bool.not_true,
                    Bool.false_eq_true, if_false]
                  rfl
                rw [hEQ]
                exact seedOK_alloc g _ (file :: seen) rfl hok hpend hpair hfd0
              · have hEQ : depsReadSeed env (.ok (g, seen)) file =
                    .ok (Graph.mk
                      (g.nodes ++ [{
                        name := goBase file, path := file,
                        realPath := if ap ≠ file then ap else file,
                        info := mkInfo i0.compatVersion i0.currentVersion,
                        deps := some g.depsArr.length }])
                      (g.depsArr ++ [[]])
                      (g.topDeps ++ [g.nodes.length]) g.flatDeps, file :: seen) := by
                  simp only [depsReadSeed, h1, h2, h3, h4, h5, Bool.not_true,
                    Bool.false_eq_true, if_false]
                  rfl
                rw [hEQ]
                exact seedOK_alloc g _ (file :: seen) rfl hok hpend hpair hfd0
    · intro g' s' heq
      simp [depsReadSeed, h1] at heq

/-- The whole input-normalisation fold preserves the seed invariant. -/
theorem seedFold_ok (env : Env) :
    ∀ (files : List String) (st : Except DepsErr (Graph × List String)),
      SeedOK st → SeedOK (files.foldl (depsReadSeed env) st) := by
  intro files
  induction files with
  | nil =>
    intro st h
    exact h
  | cons f fs ih =>
    intro st h
    exact ih _ (depsReadSeed_ok env f st h)

/-- An identity filesystem: every path is already absolute and
symlink-free. -/
def fsId : FS :=
  { evalSymlinks := fun p => (p, true), abs := fun p => (p, true) }

/-- The single slice of the file `/t`: two slices of a Universal binary
are flattened here into one load list that declares `/b`, then `/a`, then
`/b` again (out of order and with a duplicate). -/
def slC6 : MachoSlice :=
  { cpu := 0, subCpu := 0, little := true,
    loads := [MachoLoad.dylib "/b" 0 0 0, MachoLoad.dylib "/a" 0 0 0,
              MachoLoad.dylib "/b" 0 0 0] }

/-- Environment for the sorted/deduplicated-children scenario. -/
def envC6 : Env :=
  { fs := fsId,
    contents := fun _ => some [0xce, 0xfa, 0xed, 0xfe],
    slices := fun p => if p = "/t" then some [slC6] else some [] }

/-- The graph `DepsRead` produces on `envC6` for input `/t`: the two
distinct children appear once each, sorted (`/a` before `/b`). -/
def gC6 : Graph :=
  { nodes := [
      { name := "t", path := "/t", realPath := "/t", info := "", deps := some 0 },
      { name := "b", path := "/b", realPath := "/b", info := mkInfo 0 0,
        isWeakDep := false, deps := some 1 },
      { name := "a", path := "/a", realPath := "/a", info := mkInfo 0 0,
        isWeakDep := false, deps := some 2 }],
    depsArr := [[2, 1], [], []],
    topDeps := [0],
    flatDeps := [("/b", 1), ("/a", 2)] }

/-- Claim C6: in every graph returned by `DepsRead`, every parent's
children sequence is sorted ascending by declared path and contains no
duplicate declared path. -/
theorem depsRead_children_sorted_nodup (env : Env) (fuel : Nat)
    (opts : DependencyOptions) (files : List String) (g : Graph)
    (h : DepsRead env fuel opts files = .ok g) :
    ∀ i a, (g.node i).deps = some a →
      (pathsOf g (g.arr a)).Sorted (fun x y => strLe x y = true) ∧
      (pathsOf g (g.arr a)).Nodup := by
  unfold DepsRead at h
  rcases hse : files.foldl (depsReadSeed env) (.ok ({}, [])) with e | ⟨g0, seen⟩
  · rw [hse] at h
    simp at h
  · rw [hse] at h
    dsimp only at h
    by_cases htd : g0.topDeps = []
    · rw [if_pos htd] at h
      simp at h
    · rw [if_neg htd] at h
      simp only [Except.ok.injEq] at h
      obtain ⟨hok0, hpend0, hpair0, -⟩ := seedFold_ok env files _ seedOK_init g0 seen hse
      obtain ⟨hokF, -, -, -⟩ :=
        crawlList_good env opts fuel (crawlGood_all env opts fuel) g0.topDeps g0 hok0
          hpend0 hpair0
      subst h
      intro i a hia
      exact hokF.2.1 a

/-- Witness for C6: on a file whose load commands declare `/b`, `/a`,
`/b` (out of order, with a duplicate), the crawl produces children
`/a`, `/b` — one per distinct declared path, sorted. -/
theorem depsRead_children_sorted_nodup_witness :
    DepsRead envC6 1 {} ["/t"] = .ok gC6 ∧
    (pathsOf gC6 (gC6.arr 0)).Sorted (fun x y => strLe x y = true) ∧
    (pathsOf gC6 (gC6.arr 0)).Nodup :=
  ⟨by rfl,
   (depsRead_children_sorted_nodup envC6 1 {} ["/t"] gC6 (by rfl) 0 0 rfl).1,
   (depsRead_children_sorted_nodup envC6 1 {} ["/t"] gC6 (by rfl) 0 0 rfl).2⟩

/-! ### The task-parallel crawl (claim C9)

The concurrent path of `DepsRead` (`opts.Recursive && opts.Jobs > 1`)
spawns one `depsRead` goroutine per top-level node and one per non-pruned
child.  The only shared mutable state is the graph: `FlatDeps` is guarded
by `fdLock` (the check-and-insert of `pruneDep` is atomic), `TopDeps` is
read-only after seeding, and each node's children slice is written only by
the one task that crawls that node.  The model below interleaves whole
crawl tasks under an arbitrary scheduler; one task body is exactly the
body of `depsRead` with the recursive calls replaced by returned
sub-tasks. -/

/-- One crawl task: the body of `depsRead` for node `id`, returning the
updated graph and the sub-tasks it spawns (`depsToProcess`, empty when
`opts.Recursive` is off). -/
def crawlTask (env : Env) (opts : DependencyOptions) (id : Nat) (g : Graph) :
    Graph × List Nat :=
  match readDylibsFile env (g.node id).realPath with
  | none => (g.setNode id { g.node id with notResolved := true }, [])
  | some libs =>
    let acc := libs.foldl (depsReadStep env.fs opts id) (g, [], [])
    (sortChildren acc.1 id, if opts.recursive then acc.2.2 else [])

/-- A scheduled run of the task system: at each step the scheduler entry
picks one pending task (by index, modulo the number of pending tasks),
which runs to completion and appends the tasks it spawned. -/
def runSched (env : Env) (opts : DependencyOptions) :
    List Nat → Graph × List Nat → Graph × List Nat
  | [], st => st
  | s :: rest, (g, pend) =>
    match pend with
    | [] => (g, [])
    | _ :: _ =>
      let c := pend.getD (s % pend.length) 0
      let r := crawlTask env opts c g
      runSched env opts rest (r.1, pend.eraseIdx (s % pend.length) ++ r.2)

/-- The children sequence of a node, read as declared paths. -/
def childPathsAt (g : Graph) (c : Nat) : List String :=
  match (g.node c).deps with
  | none => []
  | some a => pathsOf g (g.arr a)

/-- The data of the top-level nodes consulted by `pruneDep`'s cycle
check: their declared and real paths. -/
def topPairsOf (g : Graph) : List (String × String) :=
  g.topDeps.map (fun t => ((g.node t).path, (g.node t).realPath))

/-- The flat-deps key a candidate record contributes, when it survives
every graph-independent pruning check of `pruneDep`: `none` when the
candidate is pruned before the flat-deps lookup, otherwise the resolved
real path under which it is inserted (or found). -/
def candKey (fs : FS) (opts : DependencyOptions) (tops : List (String × String))
    (parentReal : String) (lib : Dylib) : Option String :=
  if lib.weak && opts.skipWeakLibs then none
  else if opts.ignoredFiles.contains (goBase lib.path) then none
  else if tops.any (fun t => t.1 == lib.path || t.2 == lib.path) then none
  else match resolvePath fs lib.path parentReal opts with
  | (_, some _) => none
  | (rp, none) =>
    if matchesIgnoredPrefixes lib.path opts ||
        (lib.path ≠ rp && matchesIgnoredPrefixes rp opts) then none
    else some rp

/-- First-occurrence deduplication of dylib records by declared path
(the effect of the per-parent `observedDeps` set). -/
def dedupLibsFrom (seen : List String) : List Dylib → List Dylib
  | [] => []
  | l :: ls =>
    if seen.contains l.path then dedupLibsFrom seen ls
    else l :: dedupLibsFrom (l.path :: seen) ls

/-- The flat-deps keys contributed by crawling a node with the given real
path: one per deduplicated candidate that survives pruning. -/
def keysOf (env : Env) (opts : DependencyOptions) (tops : List (String × String))
    (r : String) : List String :=
  match readDylibsFile env r with
  | none => []
  | some libs => (dedupLibsFrom [] libs).filterMap (candKey env.fs opts tops r)

/-- The children (by declared path) a crawled node with the given real
path ends up with: the deduplicated declared paths, sorted. -/
def canonPaths (env : Env) (r : String) : List String :=
  match readDylibsFile env r with
  | none => []
  | some libs =>
    List.insertionSort (fun x y => strLe x y = true)
      (((dedupLibsFrom [] libs).map (fun l => l.path)).reverse)

theorem listLeNat_antisymm : ∀ x y : List Nat,
    listLeNat x y = true → listLeNat y x = true → x = y
  | [], [], _, _ => rfl
  | [], _ :: _, _, h2 => by simp [listLeNat] at h2
  | _ :: _, [], h1, _ => by simp [listLeNat] at h1
  | a :: as, b :: bs, h1, h2 => by
    rcases Nat.lt_trichotomy a b with hab | hab | hab
    · rw [listLeNat, if_neg (by omega), if_pos hab] at h2
      simp at h2
    · subst hab
      rw [listLeNat, if_neg (by omega), if_neg (by omega)] at h1
      rw [listLeNat, if_neg (by omega), if_neg (by omega)] at h2
      rw [listLeNat_antisymm as bs h1 h2]
    · rw [listLeNat, if_neg (by omega), if_pos hab] at h1
      simp at h1

theorem char_toNat_inj {c d : Char} (h : c.toNat = d.toNat) : c = d :=
  Char.ext (UInt32.ext h)

theorem strLe_antisymm {a b : String} (h1 : strLe a b = true)
    (h2 : strLe b a = true) : a = b := by
  unfold strLe at h1 h2
  have hmaps := listLeNat_antisymm _ _ h1 h2
  have hlists : a.toList = b.toList :=
    (List.map_injective_iff.mpr (fun _ _ h => char_toNat_inj h)) hmaps
  have hdata : a.data = b.data := hlists
  cases a
  cases b
  simp only at hdata
  rw [hdata]

/-- The flat-deps behaviour of `pruneDep`, phrased through `candKey`:
a candidate pruned before the lookup leaves the flat index unchanged;
a surviving candidate whose key is present leaves it unchanged (and is
not descended); a surviving candidate with an absent key is inserted as
the fresh node under exactly that key and is descended. -/
theorem pruneDepKeys (fs : FS) (lib : Dylib) (pid : Nat) (g : Graph)
    (opts : DependencyOptions) :
    (candKey fs opts (topPairsOf g) ((g.node pid).realPath) lib = none →
       (pruneDep fs lib pid g opts).2.2.flatDeps = g.flatDeps ∧
       (pruneDep fs lib pid g opts).2.1 = true) ∧
    (∀ k, candKey fs opts (topPairsOf g) ((g.node pid).realPath) lib = some k →
       (∀ ex, flatLookup g.flatDeps k = some ex →
          (pruneDep fs lib pid g opts).2.2.flatDeps = g.flatDeps ∧
          (pruneDep fs lib pid g opts).2.1 = true) ∧
       (flatLookup g.flatDeps k = none →
          (pruneDep fs lib pid g opts).2.2.flatDeps =
            g.flatDeps ++ [(k, g.nodes.length)] ∧
          (pruneDep fs lib pid g opts).2.1 = false ∧
          (pruneDep fs lib pid g opts).1 = g.nodes.length ∧
          ((pruneDep fs lib pid g opts).2.2.node g.nodes.length).realPath = k)) := by
  have htopsAux : ∀ l : List Nat,
      ((l.map (fun t => ((g.node t).path, (g.node t).realPath))).any
        (fun t => t.1 == lib.path || t.2 == lib.path)) =
      l.any (fun t => (g.node t).path == lib.path ||
        (g.node t).realPath == lib.path) := by
    intro l
    induction l with
    | nil => rfl
    | cons a as ih => simp only [List.map_cons, List.any_cons, ih]
  have htops : (topPairsOf g).any (fun t => t.1 == lib.path || t.2 == lib.path) =
      g.topDeps.any (fun t => (g.node t).path == lib.path ||
        (g.node t).realPath == lib.path) := htopsAux g.topDeps
  cases h1 : lib.weak && opts.skipWeakLibs with
  | true =>
    refine ⟨fun _ => ?_, fun k hk => ?_⟩
    · simp only [pruneDep, h1, if_true]
      exact ⟨rfl, by trivial⟩
    · rw [candKey, if_pos h1] at hk
      exact absurd hk (by simp)
  | false =>
  cases h2 : opts.ignoredFiles.contains (goBase lib.path) with
  | true =>
    refine ⟨fun _ => ?_, fun k hk => ?_⟩
    · simp only [pruneDep, h1, h2, Bool.false_eq_true, if_false, if_true]
      exact ⟨rfl, by trivial⟩
    · rw [candKey, if_neg (by rw [h1]; exact Bool.false_ne_true), if_pos h2] at hk
      exact absurd hk (by simp)
  | false =>
  cases h3 : g.topDeps.any fun t => (g.node t).path == lib.path ||
      (g.node t).realPath == lib.path with
  | true =>
    refine ⟨fun _ => ?_, fun k hk => ?_⟩
    · simp only [pruneDep, h1, h2, h3, Bool.false_eq_true, if_false, if_true]
      exact ⟨rfl, by trivial⟩
    · rw [candKey, if_neg (by rw [h1]; exact Bool.false_ne_true),
          if_neg (by rw [h2]; exact Bool.false_ne_true)] at hk
      rw [if_pos (by rw [htops, h3])] at hk
      exact absurd hk (by simp)
  | false =>
  rcases hres : resolvePath fs lib.path (g.node pid).realPath opts with ⟨rp, err⟩
  have hck : candKey fs opts (topPairsOf g) ((g.node pid).realPath) lib =
      (match (rp, err) with
       | (_, some _) => none
       | (rp, none) =>
         if matchesIgnoredPrefixes lib.path opts ||
             (lib.path ≠ rp && matchesIgnoredPrefixes rp opts) then none
         else some rp) := by
    rw [candKey, if_neg (by rw [h1]; exact Bool.false_ne_true),
        if_neg (by rw [h2]; exact Bool.false_ne_true),
        if_neg (by rw [htops, h3]; exact Bool.false_ne_true), hres]
  simp only [pruneDep, h1, h2, h3, hres, Bool.false_eq_true, if_false]
  rcases err with _ | e
  · dsimp only
    dsimp only at hck
    by_cases hrp : rp ≠ lib.path
    · rw [if_pos hrp]
      by_cases hpre : (matchesIgnoredPrefixes lib.path opts ||
          (lib.path ≠ rp && matchesIgnoredPrefixes rp opts)) = true
      · rw [if_pos hpre] at hck
        rw [if_pos hpre]
        refine ⟨fun _ => ⟨rfl, rfl⟩, fun k hk => ?_⟩
        rw [hck] at hk
        exact absurd hk (by simp)
      · rw [if_neg hpre] at hck
        rw [if_neg hpre]
        refine ⟨fun hn => ?_, fun k hk => ?_⟩
        · rw [hck] at hn
          exact absurd hn (by simp)
        · rw [hck] at hk
          obtain rfl : rp = k := Option.some.inj hk
          dsimp only
          constructor
          · intro ex hex
            rw [hex]
            dsimp only
            by_cases hxp : (g.node ex).path ≠ lib.path
            · rw [if_pos hxp]
              exact ⟨rfl, rfl⟩
            · rw [if_neg hxp]
              exact ⟨rfl, rfl⟩
          · intro hnone
            rw [hnone]
            dsimp only
            refine ⟨rfl, rfl, rfl, ?_⟩
            simp [Graph.node, Graph.allocNode, Graph.allocArr,
                  List.getD_eq_getElem?_getD, List.getElem?_concat_length]
    · rw [if_neg hrp]
      have hrpe : rp = lib.path := by
        by_contra hx
        exact hrp hx
      subst hrpe
      by_cases hpre : (matchesIgnoredPrefixes lib.path opts ||
          (lib.path ≠ lib.path && matchesIgnoredPrefixes lib.path opts)) = true
      · rw [if_pos hpre] at hck
        rw [if_pos hpre]
        refine ⟨fun _ => ⟨rfl, rfl⟩, fun k hk => ?_⟩
        rw [hck] at hk
        exact absurd hk (by simp)
      · rw [if_neg hpre] at hck
        rw [if_neg hpre]
        refine ⟨fun hn => ?_, fun k hk => ?_⟩
        · rw [hck] at hn
          exact absurd hn (by simp)
        · rw [hck] at hk
          obtain rfl : lib.path = k := Option.some.inj hk
          dsimp only
          constructor
          · intro ex hex
            rw [hex]
            dsimp only
            by_cases hxp : (g.node ex).path ≠ lib.path
            · rw [if_pos hxp]
              exact ⟨rfl, rfl⟩
            · rw [if_neg hxp]
              exact ⟨rfl, rfl⟩
          · intro hnone
            rw [hnone]
            dsimp only
            refine ⟨rfl, rfl, rfl, ?_⟩
            simp [Graph.node, Graph.allocNode, Graph.allocArr,
                  List.getD_eq_getElem?_getD, List.getElem?_concat_length]
  · dsimp only
    dsimp only at hck
    refine ⟨fun _ => ⟨rfl, rfl⟩, fun k hk => ?_⟩
    rw [hck] at hk
    exact absurd hk (by simp)

theorem flatLookup_none_iff (fd : List (String × Nat)) (k : String) :
    flatLookup fd k = none ↔ ∀ p ∈ fd, p.1 ≠ k := by
  unfold flatLookup
  simp [List.find?_eq_none]

theorem flatLookup_some_mem (fd : List (String × Nat)) (k : String) (ex : Nat)
    (h : flatLookup fd k = some ex) : (k, ex) ∈ fd := by
  unfold flatLookup at h
  rcases hf : fd.find? (fun p => p.1 == k) with _ | p
  · rw [hf] at h
    simp at h
  · rw [hf] at h
    simp at h
    have hmem := List.mem_of_find?_eq_some hf
    have hkey := List.find?_some hf
    simp at hkey
    have : p = (k, ex) := by
      rcases p with ⟨p1, p2⟩
      simp at hkey h
      rw [hkey, h]
    rw [← this]
    exact hmem

/-- The per-parent deduplication produces paths disjoint from `seen` and
mutually distinct. -/
theorem dedupLibsFrom_spec :
    ∀ (libs : List Dylib) (seen : List String),
    ((dedupLibsFrom seen libs).map (fun l => l.path)).Nodup ∧
    (∀ l ∈ dedupLibsFrom seen libs, l.path ∉ seen ∧ l ∈ libs) := by
  intro libs
  induction libs with
  | nil =>
    intro seen
    exact ⟨List.nodup_nil, by simp [dedupLibsFrom]⟩
  | cons l ls ih =>
    intro seen
    cases hc : seen.contains l.path with
    | true =>
      rw [dedupLibsFrom, if_pos hc]
      refine ⟨(ih seen).1, ?_⟩
      intro x hx
      exact ⟨((ih seen).2 x hx).1, List.mem_cons_of_mem _ ((ih seen).2 x hx).2⟩
    | false =>
      rw [dedupLibsFrom, if_neg (by rw [hc]; exact Bool.false_ne_true)]
      obtain ⟨hnd, hmem⟩ := ih (l.path :: seen)
      refine ⟨?_, ?_⟩
      · rw [List.map_cons]
        refine List.nodup_cons.mpr ⟨?_, hnd⟩
        intro hx
        rcases List.mem_map.mp hx with ⟨x, hx1, hx2⟩
        have := (hmem x hx1).1
        rw [hx2] at this
        exact this (List.mem_cons_self _ _)
      · intro x hx
        rcases List.mem_cons.mp hx with rfl | hx
        · refine ⟨?_, List.mem_cons_self _ _⟩
          intro hmem2
          have hce : seen.contains x.path = true := List.elem_iff.mpr hmem2
          rw [hce] at hc
          exact absurd hc (by simp)
        · refine ⟨?_, List.mem_cons_of_mem _ (hmem x hx).2⟩
          have h1 := (hmem x hx).1
          intro hseen
          exact h1 (List.mem_cons_of_mem _ hseen)

/-- The observed-paths component and the skip decision of one loop
iteration. -/
theorem depsReadStep_obs (fs : FS) (opts : DependencyOptions) (id : Nat)
    (st : CrawlAcc) (l : Dylib) :
    (st.2.1.contains l.path = true → depsReadStep fs opts id st l = st) ∧
    (st.2.1.contains l.path = false →
      (depsReadStep fs opts id st l).2.1 = l.path :: st.2.1) := by
  constructor
  · intro hc
    rw [depsReadStep, if_pos hc]
  · intro hc
    rw [depsReadStep, if_neg (by rw [hc]; exact Bool.false_ne_true)]

/-- Skipped duplicates are no-ops: the dylib loop computes the same state
on the deduplicated record list. -/
theorem foldl_dedup (fs : FS) (opts : DependencyOptions) (id : Nat) :
    ∀ (libs : List Dylib) (st : CrawlAcc),
    libs.foldl (depsReadStep fs opts id) st =
    (dedupLibsFrom st.2.1 libs).foldl (depsReadStep fs opts id) st := by
  intro libs
  induction libs with
  | nil =>
    intro st
    rfl
  | cons l ls ih =>
    intro st
    cases hc : st.2.1.contains l.path with
    | true =>
      rw [List.foldl_cons, (depsReadStep_obs fs opts id st l).1 hc,
          dedupLibsFrom, if_pos hc]
      exact ih st
    | false =>
      rw [List.foldl_cons, dedupLibsFrom,
          if_neg (by rw [hc]; exact Bool.false_ne_true), List.foldl_cons]
      rw [ih (depsReadStep fs opts id st l),
          (depsReadStep_obs fs opts id st l).2 hc]

/-- On a record list with fresh, duplicate-free paths, the loop records
the paths in reverse encounter order. -/
theorem foldl_obs_val (fs : FS) (opts : DependencyOptions) (id : Nat) :
    ∀ (libs : List Dylib) (st : CrawlAcc),
    (∀ l ∈ libs, l.path ∉ st.2.1) →
    ((libs.map (fun l => l.path)).Nodup) →
    (libs.foldl (depsReadStep fs opts id) st).2.1 =
      (libs.map (fun l => l.path)).reverse ++ st.2.1 := by
  intro libs
  induction libs with
  | nil =>
    intro st _ _
    simp
  | cons l ls ih =>
    intro st hfresh hnd
    have hc : st.2.1.contains l.path = false := by
      rcases hcc : st.2.1.contains l.path with _ | _
      · rfl
      · exact absurd (List.elem_iff.mp hcc)
          (hfresh l (List.mem_cons_self _ _))
    rw [List.foldl_cons, ih (depsReadStep fs opts id st l) ?hf ?hn,
        (depsReadStep_obs fs opts id st l).2 hc]
    · simp
    case hf =>
      intro x hx
      rw [(depsReadStep_obs fs opts id st l).2 hc]
      intro hmem
      rcases List.mem_cons.mp hmem with heq | hmem2
      · rw [List.map_cons] at hnd
        exact (List.nodup_cons.mp hnd).1 (List.mem_map.mpr ⟨x, hx, heq⟩)
      · exact hfresh x (List.mem_cons_of_mem _ hx) hmem2
    case hn =>
      rw [List.map_cons] at hnd
      exact (List.nodup_cons.mp hnd).2

theorem node_ext_eq {g g' : Graph} (hn : ∃ ns, g'.nodes = g.nodes ++ ns)
    (i : Nat) (hi : i < g.nodes.length) : g'.node i = g.node i := by
  obtain ⟨ns, hns⟩ := hn
  simp [Graph.node, hns, List.getD_eq_getElem?_getD, List.getElem?_append_left hi]

theorem topPairsOf_ext {g g' : Graph} (hn : ∃ ns, g'.nodes = g.nodes ++ ns)
    (ht : g'.topDeps = g.topDeps)
    (htb : ∀ t ∈ g.topDeps, t < g.nodes.length) :
    topPairsOf g' = topPairsOf g := by
  unfold topPairsOf
  rw [ht]
  refine List.map_congr_left ?_
  intro t htmem
  rw [node_ext_eq hn t (htb t htmem)]

/-- The flat-deps keys reachable from the top-level nodes: contributed by
a top-level crawl, or (in recursive mode) by the crawl of an
already-reachable key's node. -/
inductive ReachKey (env : Env) (opts : DependencyOptions)
    (tops : List (String × String)) : String → Prop where
  | base (t : String × String) (k : String) (ht : t ∈ tops)
      (hk : k ∈ keysOf env opts tops t.2) : ReachKey env opts tops k
  | step (k' k : String) (h : ReachKey env opts tops k')
      (hrec : opts.recursive = true)
      (hk : k ∈ keysOf env opts tops k') : ReachKey env opts tops k

/-- The flat-deps and pending-children bookkeeping of the dylib loop:
on fresh duplicate-free records, the loop only appends flat entries,
every new entry stems from a surviving candidate (`candKey`), is held by
a freshly allocated node under its resolved real path and is collected
for processing, every surviving candidate's key ends up present, and
key uniqueness is preserved. -/
theorem crawlFoldKeys (fs : FS) (opts : DependencyOptions) (id : Nat) (g0 : Graph)
    (hid : id < g0.nodes.length)
    (hdep : ∀ a, (g0.node id).deps = some a → a < g0.depsArr.length ∧ g0.arr a = []) :
    ∀ (libs : List Dylib) (st : CrawlAcc),
    FoldInv g0 id st →
    (∀ l ∈ libs, l.path ∉ st.2.1) →
    ((libs.map (fun l => l.path)).Nodup) →
    (∀ t ∈ st.1.topDeps, t < st.1.nodes.length) →
    ∀ out, out = libs.foldl (depsReadStep fs opts id) st →
    (∃ ns, out.1.nodes = st.1.nodes ++ ns) ∧
    (∃ nfd, out.1.flatDeps = st.1.flatDeps ++ nfd) ∧
    (∀ d ∈ st.2.2, d ∈ out.2.2) ∧
    (∀ p ∈ out.1.flatDeps, p ∉ st.1.flatDeps →
       ∃ l ∈ libs, candKey fs opts (topPairsOf st.1) ((st.1.node id).realPath) l
           = some p.1 ∧
         st.1.nodes.length ≤ p.2 ∧ p.2 < out.1.nodes.length ∧
         (out.1.node p.2).realPath = p.1 ∧ p.2 ∈ out.2.2) ∧
    (∀ l ∈ libs, ∀ k,
       candKey fs opts (topPairsOf st.1) ((st.1.node id).realPath) l = some k →
       ∃ c, (k, c) ∈ out.1.flatDeps) ∧
    (∀ d ∈ out.2.2, d ∉ st.2.2 →
       ∃ k, (k, d) ∈ out.1.flatDeps ∧ (k, d) ∉ st.1.flatDeps ∧
         (out.1.node d).realPath = k) ∧
    ((st.1.flatDeps.map (fun p => p.1)).Nodup →
       (out.1.flatDeps.map (fun p => p.1)).Nodup) := by
  intro libs
  induction libs with
  | nil =>
    intro st _ _ _ _ out hout
    subst hout
    refine ⟨⟨[], by simp⟩, ⟨[], by simp⟩, fun d hd => hd, ?_, ?_, ?_, fun h => h⟩
    · intro p hp hpn
      exact absurd hp hpn
    · intro l hl
      simp at hl
    · intro d hd hdn
      exact absurd hd hdn
  | cons l ls ih =>
    intro st hinv hfresh hnd htb out hout
    have hc : st.2.1.contains l.path = false := by
      rcases hcc : st.2.1.contains l.path with _ | _
      · rfl
      · exact absurd (List.elem_iff.mp hcc)
          (hfresh l (List.mem_cons_self _ _))
    rcases hps : pruneDep fs l id st.1 opts with ⟨cid, pruned, g2⟩
    have hspec := pruneDep_spec fs l id st.1 opts hinv.2.2.1
    rw [hps] at hspec
    obtain ⟨htop2, ⟨ns2, hns2⟩, hdarr2, hflat2, hcidlt, hcidpath, hfreshR⟩ := hspec
    dsimp only at htop2 hns2 hdarr2 hflat2 hcidlt hcidpath hfreshR
    have hkeys := pruneDepKeys fs l id st.1 opts
    rw [hps] at hkeys
    dsimp only at hkeys
    obtain ⟨han, hat, haf, hal, hane, hae⟩ := appendChild_spec g2 id cid
    have hst1 : depsReadStep fs opts id st l =
        (appendChild g2 id cid, l.path :: st.2.1,
         if pruned = true then st.2.2 else st.2.2 ++ [cid]) := by
      rw [depsReadStep, if_neg (by rw [hc]; exact Bool.false_ne_true), hps]
    have hinv1 := foldStep_inv fs opts id g0 hid hdep st l hinv
    rw [hst1] at hinv1
    rw [List.foldl_cons, hst1] at hout
    have hns1 : ∃ ns, (appendChild g2 id cid).nodes = st.1.nodes ++ ns :=
      ⟨ns2, by rw [han, hns2]⟩
    have hlen1 : st.1.nodes.length ≤ (appendChild g2 id cid).nodes.length := by
      obtain ⟨ns, hns⟩ := hns1
      rw [hns]
      simp
    have htop1 : (appendChild g2 id cid).topDeps = st.1.topDeps := by
      rw [hat, htop2]
    have hidlt : id < st.1.nodes.length :=
      lt_of_lt_of_le hid hinv.1.1
    have htp : topPairsOf (appendChild g2 id cid) = topPairsOf st.1 :=
      topPairsOf_ext hns1 htop1 htb
    have hpr : ((appendChild g2 id cid).node id).realPath =
        (st.1.node id).realPath := by
      rw [node_ext_eq hns1 id hidlt]
    have hfresh1 : ∀ x ∈ ls, x.path ∉ (l.path :: st.2.1) := by
      intro x hx hmem
      rcases List.mem_cons.mp hmem with heq | hmem2
      · rw [List.map_cons] at hnd
        exact (List.nodup_cons.mp hnd).1 (List.mem_map.mpr ⟨x, hx, heq⟩)
      · exact hfresh x (List.mem_cons_of_mem _ hx) hmem2
    have hnd1 : (ls.map (fun x => x.path)).Nodup := by
      rw [List.map_cons] at hnd
      exact (List.nodup_cons.mp hnd).2
    have htb1 : ∀ t ∈ (appendChild g2 id cid).topDeps,
        t < (appendChild g2 id cid).nodes.length := by
      intro t ht
      rw [htop1] at ht
      exact lt_of_lt_of_le (htb t ht) hlen1
    obtain ⟨⟨nsI, hnsI⟩, ⟨nfdI, hnfdI⟩, hmonoI, hnewI, hallI, hprocI, hkndI⟩ :=
      ih (appendChild g2 id cid, l.path :: st.2.1,
          if pruned = true then st.2.2 else st.2.2 ++ [cid])
        hinv1 hfresh1 hnd1 htb1 out hout
    rw [htp, hpr] at hnewI hallI
    have houtns : ∃ ns, out.1.nodes = st.1.nodes ++ ns := by
      obtain ⟨ns, hns⟩ := hns1
      exact ⟨ns ++ nsI, by rw [hnsI, hns, List.append_assoc]⟩
    rcases hck : candKey fs opts (topPairsOf st.1) ((st.1.node id).realPath) l
        with _ | k
    · -- pruned before the lookup: no insertion, nothing pended
      obtain ⟨hfu, hpt⟩ := hkeys.1 hck
      have hflat1 : (appendChild g2 id cid).flatDeps = st.1.flatDeps := by
        rw [haf, hfu]
      have hproc1 : (if pruned = true then st.2.2 else st.2.2 ++ [cid]) = st.2.2 := by
        rw [if_pos hpt]
      rw [hflat1] at hnfdI hnewI hkndI hprocI
      rw [hproc1] at hmonoI hprocI hnewI
      refine ⟨houtns, ⟨nfdI, hnfdI⟩, hmonoI, ?_, ?_, hprocI, hkndI⟩
      · intro p hp hpn
        obtain ⟨x, hx, hck2, hge, hlt2, hrp2, hmem2⟩ := hnewI p hp hpn
        exact ⟨x, List.mem_cons_of_mem _ hx, hck2,
          le_trans hlen1 (by simpa using hge), hlt2, hrp2, hmem2⟩
      · intro x hx k hkx
        rcases List.mem_cons.mp hx with rfl | hx
        · rw [hck] at hkx
          exact absurd hkx (by simp)
        · exact hallI x hx k hkx
    · rcases hlk : flatLookup st.1.flatDeps k with _ | ex
      · -- fresh key: inserted and pended
        obtain ⟨hfu, hpf, hcideq, hrpk⟩ := (hkeys.2 k hck).2 hlk
        have hflat1 : (appendChild g2 id cid).flatDeps =
            st.1.flatDeps ++ [(k, st.1.nodes.length)] := by
          rw [haf, hfu]
        have hproc1 : (if pruned = true then st.2.2 else st.2.2 ++ [cid]) =
            st.2.2 ++ [cid] := by
          rw [if_neg (by rw [hpf]; exact Bool.false_ne_true)]
        rw [hflat1] at hnfdI hnewI hkndI hprocI
        rw [hproc1] at hmonoI hprocI hnewI
        have houtfd : out.1.flatDeps =
            st.1.flatDeps ++ ((k, st.1.nodes.length) :: nfdI) := by
          rw [hnfdI, List.append_assoc]
          rfl
        have hkLmem : (k, st.1.nodes.length) ∈ out.1.flatDeps := by
          rw [hnfdI]
          exact List.mem_append_left _ (List.mem_append_right _
            (List.mem_singleton.mpr rfl))
        have hcidmem : cid ∈ out.2.2 :=
          hmonoI cid (List.mem_append_right _ (List.mem_singleton.mpr rfl))
        have hlt1 : st.1.nodes.length < (appendChild g2 id cid).nodes.length := by
          rw [han, ← hcideq]
          exact hcidlt
        have hlenI : (appendChild g2 id cid).nodes.length ≤ out.1.nodes.length := by
          rw [hnsI]
          simp
        have hrpout : (out.1.node st.1.nodes.length).realPath = k := by
          have hin1 : ((appendChild g2 id cid).node st.1.nodes.length).realPath
              = k := by
            rw [node_eq_of_nodes_eq han, hrpk]
          rw [node_ext_eq ⟨nsI, hnsI⟩ _ hlt1, hin1]
        refine ⟨houtns, ⟨(k, st.1.nodes.length) :: nfdI, houtfd⟩, ?_, ?_, ?_, ?_, ?_⟩
        · intro d hd
          exact hmonoI d (List.mem_append_left _ hd)
        · intro p hp hpn
          by_cases hpKL : p = (k, st.1.nodes.length)
          · subst hpKL
            exact ⟨l, List.mem_cons_self _ _, hck, le_refl _,
              lt_of_lt_of_le hlt1 hlenI, hrpout, hcideq ▸ hcidmem⟩
          · have hpn1 : p ∉ st.1.flatDeps ++ [(k, st.1.nodes.length)] := by
              intro hmem3
              rcases List.mem_append.mp hmem3 with h4 | h4
              · exact hpn h4
              · exact hpKL (List.mem_singleton.mp h4)
            obtain ⟨x, hx, hck2, hge, hltout, hrp2, hmem2⟩ := hnewI p hp hpn1
            refine ⟨x, List.mem_cons_of_mem _ hx, hck2,
              le_trans (le_of_lt hlt1) ?_, hltout, hrp2, hmem2⟩
            simpa using hge
        · intro x hx k2 hkx
          rcases List.mem_cons.mp hx with rfl | hx
          · rw [hck] at hkx
            obtain rfl : k = k2 := Option.some.inj hkx
            exact ⟨st.1.nodes.length, hkLmem⟩
          · exact hallI x hx k2 hkx
        · intro d hd hdn
          by_cases hd1 : d ∈ st.2.2 ++ [cid]
          · have hdc : d = cid := by
              rcases List.mem_append.mp hd1 with h4 | h4
              · exact absurd h4 hdn
              · exact List.mem_singleton.mp h4
            subst hdc
            refine ⟨k, ?_, ?_, ?_⟩
            · rw [hcideq]
              exact hkLmem
            · rw [hcideq]
              intro hmem4
              have := hinv.2.2.1 _ hmem4
              simp at this
            · rw [hcideq]
              exact hrpout
          · obtain ⟨k2, hk2mem, hk2not, hk2rp⟩ := hprocI d hd hd1
            exact ⟨k2, hk2mem, fun hmem4 => hk2not (List.mem_append_left _ hmem4), hk2rp⟩
        · intro hknd
          refine hkndI ?_
          rw [List.map_append]
          have hkfree : k ∉ st.1.flatDeps.map (fun p => p.1) := by
            intro hmem
            rcases List.mem_map.mp hmem with ⟨p, hpmem, hpa⟩
            exact (flatLookup_none_iff st.1.flatDeps k).mp hlk p hpmem hpa
          refine List.nodup_append.mpr ⟨hknd, List.nodup_singleton _, ?_⟩
          intro a ha hb
          simp only [List.map_cons, List.map_nil, List.mem_singleton] at hb
          subst hb
          exact hkfree ha
      · -- key already present: nothing inserted, not descended
        obtain ⟨hfu, hpt⟩ := (hkeys.2 k hck).1 ex hlk
        have hflat1 : (appendChild g2 id cid).flatDeps = st.1.flatDeps := by
          rw [haf, hfu]
        have hproc1 : (if pruned = true then st.2.2 else st.2.2 ++ [cid]) = st.2.2 := by
          rw [if_pos hpt]
        rw [hflat1] at hnfdI hnewI hkndI hprocI
        rw [hproc1] at hmonoI hprocI hnewI
        refine ⟨houtns, ⟨nfdI, hnfdI⟩, hmonoI, ?_, ?_, hprocI, hkndI⟩
        · intro p hp hpn
          obtain ⟨x, hx, hck2, hge, hlt2, hrp2, hmem2⟩ := hnewI p hp hpn
          exact ⟨x, List.mem_cons_of_mem _ hx, hck2,
            le_trans hlen1 (by simpa using hge), hlt2, hrp2, hmem2⟩
        · intro x hx k2 hkx
          rcases List.mem_cons.mp hx with rfl | hx
          · rw [hck] at hkx
            have hkk : k = k2 := Option.some.inj hkx
            subst hkk
            refine ⟨ex, ?_⟩
            rw [hnfdI]
            exact List.mem_append_left _ (flatLookup_some_mem _ _ _ hlk)
          · exact hallI x hx k2 hkx

theorem childPathsAt_eq (g : Graph) (c a : Nat) (h : (g.node c).deps = some a) :
    childPathsAt g c = pathsOf g (g.arr a) := by
  rw [childPathsAt, h]

/-- The full contract of one crawl task on a crawl-ready node: the graph
stays well-formed, seed data is untouched, only the crawled node's slice
changes, the flat index grows by exactly the surviving candidate keys,
each fresh entry is a crawl-ready fresh node under its resolved real path
(and is spawned when recursion is on), and the crawled node's children
become the sorted deduplicated declared paths of its file. -/
theorem crawlTask_spec (env : Env) (opts : DependencyOptions) (c : Nat) (g : Graph)
    (hok : GraphOK g)
    (hclt : c < g.nodes.length)
    (hcdep : ∃ a, (g.node c).deps = some a ∧ a < g.depsArr.length ∧ g.arr a = [])
    (htb : ∀ t ∈ g.topDeps, t < g.nodes.length) :
    GraphOK (crawlTask env opts c g).1 ∧
    (g.nodes.length ≤ (crawlTask env opts c g).1.nodes.length ∧
     g.depsArr.length ≤ (crawlTask env opts c g).1.depsArr.length ∧
     ∀ i, i < g.nodes.length →
       ((crawlTask env opts c g).1.node i).path = (g.node i).path ∧
       ((crawlTask env opts c g).1.node i).realPath = (g.node i).realPath ∧
       ((crawlTask env opts c g).1.node i).deps = (g.node i).deps) ∧
    (crawlTask env opts c g).1.topDeps = g.topDeps ∧
    (∀ a, a < g.depsArr.length → (g.node c).deps ≠ some a →
       (crawlTask env opts c g).1.arr a = g.arr a) ∧
    (∃ nfd, (crawlTask env opts c g).1.flatDeps = g.flatDeps ++ nfd) ∧
    (∀ p ∈ (crawlTask env opts c g).1.flatDeps, p ∉ g.flatDeps →
       p.1 ∈ keysOf env opts (topPairsOf g) ((g.node c).realPath) ∧
       g.nodes.length ≤ p.2 ∧ p.2 < (crawlTask env opts c g).1.nodes.length ∧
       ((crawlTask env opts c g).1.node p.2).realPath = p.1 ∧
       (∃ a, ((crawlTask env opts c g).1.node p.2).deps = some a ∧
          g.depsArr.length ≤ a ∧ a < (crawlTask env opts c g).1.depsArr.length ∧
          (crawlTask env opts c g).1.arr a = []) ∧
       (opts.recursive = true → p.2 ∈ (crawlTask env opts c g).2)) ∧
    (∀ k, k ∈ keysOf env opts (topPairsOf g) ((g.node c).realPath) →
       ∃ i, (k, i) ∈ (crawlTask env opts c g).1.flatDeps) ∧
    (opts.recursive = false → (crawlTask env opts c g).2 = []) ∧
    (∀ d ∈ (crawlTask env opts c g).2,
       ∃ p, p ∈ (crawlTask env opts c g).1.flatDeps ∧ p ∉ g.flatDeps ∧ p.2 = d) ∧
    ((crawlTask env opts c g).2.Pairwise (fun x y =>
       ((crawlTask env opts c g).1.node x).deps ≠
       ((crawlTask env opts c g).1.node y).deps)) ∧
    (∀ p q, p ∈ (crawlTask env opts c g).1.flatDeps → p ∉ g.flatDeps →
       q ∈ (crawlTask env opts c g).1.flatDeps → q ∉ g.flatDeps → p.2 ≠ q.2 →
       ((crawlTask env opts c g).1.node p.2).deps ≠
       ((crawlTask env opts c g).1.node q.2).deps) ∧
    ((g.flatDeps.map (fun p => p.1)).Nodup →
       ((crawlTask env opts c g).1.flatDeps.map (fun p => p.1)).Nodup) ∧
    childPathsAt (crawlTask env opts c g).1 c = canonPaths env ((g.node c).realPath) := by
  obtain ⟨a0, hca0, ha0lt, ha0em⟩ := hcdep
  have hdepAll : ∀ a, (g.node c).deps = some a → a < g.depsArr.length ∧ g.arr a = [] := by
    intro a ha
    rw [hca0] at ha
    obtain rfl : a0 = a := Option.some.inj ha
    exact ⟨ha0lt, ha0em⟩
  rcases hrd : readDylibsFile env (g.node c).realPath with _ | libs
  · -- unreadable file: only the notResolved flag changes
    have hct : crawlTask env opts c g =
        (g.setNode c { g.node c with notResolved := true }, []) := by
      rw [crawlTask, hrd]
    rw [hct]
    obtain ⟨hda, hto, hfl, hnl, hnode⟩ :=
      setNode_flag_spec g c { g.node c with notResolved := true } rfl rfl rfl
    have harr : ∀ a, (g.setNode c { g.node c with notResolved := true }).arr a =
        g.arr a := by
      intro a
      simp [Graph.arr, hda]
    have hpres : Preserves g (g.setNode c { g.node c with notResolved := true }) :=
      ⟨le_of_eq hnl.symm, le_of_eq (by rw [hda]),
       fun i _ => ⟨(hnode i).1, (hnode i).2.1⟩⟩
    have hkeys0 : keysOf env opts (topPairsOf g) ((g.node c).realPath) = [] := by
      rw [keysOf, hrd]
    refine ⟨⟨?_, ?_, ?_⟩, ⟨le_of_eq hnl.symm, le_of_eq (by rw [hda]),
        fun i _ => ⟨(hnode i).1, (hnode i).2.2, (hnode i).2.1⟩⟩,
      hto, fun a _ _ => harr a, ⟨[], by rw [hfl, List.append_nil]⟩,
      ?_, ?_, fun _ => rfl, ?_, List.Pairwise.nil, ?_, ?_, ?_⟩
    · intro a i hi
      rw [harr a] at hi
      simpa [Graph.setNode] using hok.1 a i hi
    · intro a
      rw [harr a]
      exact ArrSorted_preserved hpres (g.arr a) (hok.1 a) (hok.2.1 a)
    · intro p hp
      rw [hfl] at hp
      simpa [Graph.setNode] using hok.2.2 p hp
    · intro p hp hpn
      rw [hfl] at hp
      exact absurd hp hpn
    · intro k hk
      rw [hkeys0] at hk
      simp at hk
    · intro d hd
      simp at hd
    · intro p q hp hpn hq hqn hne
      rw [hfl] at hp
      exact absurd hp hpn
    · intro h
      rw [hfl]
      exact h
    · rw [childPathsAt_eq _ c a0 ((hnode c).2.1.trans hca0), harr a0, ha0em,
          canonPaths, hrd]
      rfl
  · -- readable file: the dylib loop, then the sort
    have hct : crawlTask env opts c g =
        (sortChildren (libs.foldl (depsReadStep env.fs opts c) (g, [], [])).1 c,
         if opts.recursive then
           (libs.foldl (depsReadStep env.fs opts c) (g, [], [])).2.2
         else []) := by
      rw [crawlTask, hrd]
    have hinv0 : FoldInv g c (g, [], []) := foldInv_init g c hok hdepAll
    have hinvout : FoldInv g c (libs.foldl (depsReadStep env.fs opts c) (g, [], [])) :=
      crawlFold_inv env.fs opts c g hclt hdepAll libs (g, [], []) hinv0
    have hdedup : libs.foldl (depsReadStep env.fs opts c) (g, [], []) =
        (dedupLibsFrom [] libs).foldl (depsReadStep env.fs opts c) (g, [], []) :=
      foldl_dedup env.fs opts c libs (g, [], [])
    obtain ⟨hdlnd, hdlmem⟩ := dedupLibsFrom_spec libs []
    obtain ⟨⟨nsK, hnsK⟩, ⟨nfdK, hnfdK⟩, hmonoK, hnewK, hallK, hprocK, hkndK⟩ :=
      crawlFoldKeys env.fs opts c g hclt hdepAll (dedupLibsFrom [] libs) (g, [], [])
        hinv0 (fun l hl => by simpa using (hdlmem l hl).1) hdlnd
        (fun t ht => htb t ht)
        (libs.foldl (depsReadStep env.fs opts c) (g, [], [])) hdedup
    obtain ⟨hokS, hpreS, htopS, hframeS, hpendS, hpairS⟩ :=
      sortFinal g c hclt hdepAll (libs.foldl (depsReadStep env.fs opts c) (g, [], []))
        hinvout
    obtain ⟨hsn, hst, hsf, hsl, hsne, hseq⟩ :=
      sortChildren_spec (libs.foldl (depsReadStep env.fs opts c) (g, [], [])).1 c
    have hobs : (libs.foldl (depsReadStep env.fs opts c) (g, [], [])).2.1 =
        ((dedupLibsFrom [] libs).map (fun l => l.path)).reverse ++ [] := by
      rw [hdedup]
      exact foldl_obs_val env.fs opts c (dedupLibsFrom [] libs) (g, [], [])
        (fun l hl => by simpa using (hdlmem l hl).1) hdlnd
    have hnsAll : ∃ ns,
        (sortChildren (libs.foldl (depsReadStep env.fs opts c) (g, [], [])).1 c).nodes =
          g.nodes ++ ns := ⟨nsK, by rw [hsn, hnsK]⟩
    have hkeysEq : keysOf env opts (topPairsOf g) ((g.node c).realPath) =
        (dedupLibsFrom [] libs).filterMap
          (candKey env.fs opts (topPairsOf g) ((g.node c).realPath)) := by
      rw [keysOf, hrd]
    rw [hct]
    cases hrec : opts.recursive with
    | true =>
      simp only [hrec, if_true]
      refine ⟨hokS, ⟨hpreS.1, hpreS.2.1, ?_⟩, htopS, hframeS, ?_, ?_, ?_,
        fun hfalse => absurd hfalse (by simp),
        ?_, hpairS, ?_, ?_, ?_⟩
      · intro i hi
        have := node_ext_eq hnsAll i hi
        rw [this]
        exact ⟨rfl, rfl, rfl⟩
      · exact ⟨nfdK, by rw [hsf, hnfdK]⟩
      · intro p hp hpn
        rw [hsf] at hp
        obtain ⟨x, hx, hck, hge, hltK, hrpK, hmemK⟩ := hnewK p hp hpn
        obtain ⟨hcltS, ac, hacd, haclt, hacge, hacem⟩ := hpendS p.2 hmemK
        refine ⟨?_, by simpa using hge, by rw [hsn] at hcltS ⊢; exact hcltS,
          by rw [node_eq_of_nodes_eq hsn, hrpK], ⟨ac, hacd, hacge, haclt, hacem⟩,
          fun _ => hmemK⟩
        rw [hkeysEq]
        exact List.mem_filterMap.mpr ⟨x, hx, hck⟩
      · intro k hk
        rw [hkeysEq] at hk
        obtain ⟨x, hx, hck⟩ := List.mem_filterMap.mp hk
        obtain ⟨cc, hcc⟩ := hallK x hx k hck
        exact ⟨cc, by rw [hsf]; exact hcc⟩
      · intro d hd
        obtain ⟨k, hkmem, hknot, hkrp⟩ := hprocK d hd (by simp)
        exact ⟨(k, d), by rw [hsf]; exact hkmem, by simpa using hknot, rfl⟩
      · intro p q hp hpn hq hqn hne
        rw [hsf] at hp hq
        obtain ⟨x1, hx1, -, -, -, -, hpmem⟩ := hnewK p hp hpn
        obtain ⟨x2, hx2, -, -, -, -, hqmem⟩ := hnewK q hq hqn
        refine List.Pairwise.forall ?_ hpairS hpmem hqmem hne
        intro x y h heq
        exact h heq.symm
      · intro h
        rw [hsf]
        exact hkndK (by simpa using h)
      · -- the crawled node's children are the sorted deduplicated paths
        have hdepc : ((sortChildren
            (libs.foldl (depsReadStep env.fs opts c) (g, [], [])).1 c).node c).deps =
            some a0 := by
          rw [node_eq_of_nodes_eq hsn, (hinvout.1.2.2 c hclt).2, hca0]
        have hdepc0 : ((libs.foldl (depsReadStep env.fs opts c) (g, [], [])).1.node c).deps
            = some a0 := by
          rw [(hinvout.1.2.2 c hclt).2, hca0]
        have ha0ltF : a0 <
            (libs.foldl (depsReadStep env.fs opts c) (g, [], [])).1.depsArr.length :=
          lt_of_lt_of_le ha0lt hinvout.1.2.1
        have hpaths0 : pathsOf (libs.foldl (depsReadStep env.fs opts c) (g, [], [])).1
            ((libs.foldl (depsReadStep env.fs opts c) (g, [], [])).1.arr a0) =
            (dedupLibsFrom [] libs).map (fun l => l.path) := by
          rw [hinvout.2.2.2.2.2.1 a0 hca0, hobs]
          simp
        rw [childPathsAt_eq _ c a0 hdepc]
        rw [canonPaths, hrd]
        have hsorted := hokS.2.1 a0
        rw [hseq a0 hdepc0 ha0ltF] at hsorted ⊢
        haveI : IsTrans String (fun x y => strLe x y = true) :=
          ⟨fun _ _ _ h1 h2 => strLe_trans h1 h2⟩
        haveI : IsTotal String (fun x y => strLe x y = true) :=
          ⟨fun x y => strLe_total x y⟩
        haveI : IsAntisymm String (fun x y => strLe x y = true) :=
          ⟨fun _ _ h1 h2 => strLe_antisymm h1 h2⟩
        refine List.eq_of_perm_of_sorted ?_ hsorted.1 ?_
        · -- both sides are permutations of the deduplicated paths
          have hp1 : (pathsOf (sortChildren
              (libs.foldl (depsReadStep env.fs opts c) (g, [], [])).1 c)
              (((libs.foldl (depsReadStep env.fs opts c) (g, [], [])).1.arr
                a0).insertionSort
                (fun i j => strLe
                  (((libs.foldl (depsReadStep env.fs opts c) (g, [], [])).1.node i).path)
                  (((libs.foldl (depsReadStep env.fs opts c) (g, [], [])).1.node j).path)
                  = true))).Perm
              (pathsOf (libs.foldl (depsReadStep env.fs opts c) (g, [], [])).1
                ((libs.foldl (depsReadStep env.fs opts c) (g, [], [])).1.arr a0)) := by
            rw [pathsOf_eq_of_nodes_eq hsn]
            exact (List.perm_insertionSort _ _).map _
          refine hp1.trans ?_
          rw [hpaths0]
          exact ((List.perm_insertionSort _ _).trans
            (List.reverse_perm _)).symm
        · exact List.sorted_insertionSort _ _
    | false =>
      simp only [hrec, Bool.false_eq_true, if_false]
      refine ⟨hokS, ⟨hpreS.1, hpreS.2.1, ?_⟩, htopS, hframeS, ?_, ?_, ?_,
        fun _ => by trivial, ?_, List.Pairwise.nil, ?_, ?_, ?_⟩
      · intro i hi
        have := node_ext_eq hnsAll i hi
        rw [this]
        exact ⟨rfl, rfl, rfl⟩
      · exact ⟨nfdK, by rw [hsf, hnfdK]⟩
      · intro p hp hpn
        rw [hsf] at hp
        obtain ⟨x, hx, hck, hge, hltK, hrpK, hmemK⟩ := hnewK p hp hpn
        obtain ⟨hcltS, ac, hacd, haclt, hacge, hacem⟩ := hpendS p.2 hmemK
        refine ⟨?_, by simpa using hge, by rw [hsn] at hcltS ⊢; exact hcltS,
          by rw [node_eq_of_nodes_eq hsn, hrpK], ⟨ac, hacd, hacge, haclt, hacem⟩,
          fun hrec2 => absurd hrec2 (by simp)⟩
        rw [hkeysEq]
        exact List.mem_filterMap.mpr ⟨x, hx, hck⟩
      · intro k hk
        rw [hkeysEq] at hk
        obtain ⟨x, hx, hck⟩ := List.mem_filterMap.mp hk
        obtain ⟨cc, hcc⟩ := hallK x hx k hck
        exact ⟨cc, by rw [hsf]; exact hcc⟩
      · intro d hd
        simp at hd
      · intro p q hp hpn hq hqn hne
        rw [hsf] at hp hq
        obtain ⟨x1, hx1, -, -, -, -, hpmem⟩ := hnewK p hp hpn
        obtain ⟨x2, hx2, -, -, -, -, hqmem⟩ := hnewK q hq hqn
        refine List.Pairwise.forall ?_ hpairS hpmem hqmem hne
        intro x y h heq
        exact h heq.symm
      · intro h
        rw [hsf]
        exact hkndK (by simpa using h)
      · have hdepc : ((sortChildren
            (libs.foldl (depsReadStep env.fs opts c) (g, [], [])).1 c).node c).deps =
            some a0 := by
          rw [node_eq_of_nodes_eq hsn, (hinvout.1.2.2 c hclt).2, hca0]
        have hdepc0 : ((libs.foldl (depsReadStep env.fs opts c) (g, [], [])).1.node c).deps
            = some a0 := by
          rw [(hinvout.1.2.2 c hclt).2, hca0]
        have ha0ltF : a0 <
            (libs.foldl (depsReadStep env.fs opts c) (g, [], [])).1.depsArr.length :=
          lt_of_lt_of_le ha0lt hinvout.1.2.1
        have hpaths0 : pathsOf (libs.foldl (depsReadStep env.fs opts c) (g, [], [])).1
            ((libs.foldl (depsReadStep env.fs opts c) (g, [], [])).1.arr a0) =
            (dedupLibsFrom [] libs).map (fun l => l.path) := by
          rw [hinvout.2.2.2.2.2.1 a0 hca0, hobs]
          simp
        rw [childPathsAt_eq _ c a0 hdepc]
        rw [canonPaths, hrd]
        have hsorted := hokS.2.1 a0
        rw [hseq a0 hdepc0 ha0ltF] at hsorted ⊢
        haveI : IsTrans String (fun x y => strLe x y = true) :=
          ⟨fun _ _ _ h1 h2 => strLe_trans h1 h2⟩
        haveI : IsTotal String (fun x y => strLe x y = true) :=
          ⟨fun x y => strLe_total x y⟩
        haveI : IsAntisymm String (fun x y => strLe x y = true) :=
          ⟨fun _ _ h1 h2 => strLe_antisymm h1 h2⟩
        refine List.eq_of_perm_of_sorted ?_ hsorted.1 ?_
        · have hp1 : (pathsOf (sortChildren
              (libs.foldl (depsReadStep env.fs opts c) (g, [], [])).1 c)
              (((libs.foldl (depsReadStep env.fs opts c) (g, [], [])).1.arr
                a0).insertionSort
                (fun i j => strLe
                  (((libs.foldl (depsReadStep env.fs opts c) (g, [], [])).1.node i).path)
                  (((libs.foldl (depsReadStep env.fs opts c) (g, [], [])).1.node j).path)
                  = true))).Perm
              (pathsOf (libs.foldl (depsReadStep env.fs opts c) (g, [], [])).1
                ((libs.foldl (depsReadStep env.fs opts c) (g, [], [])).1.arr a0)) := by
            rw [pathsOf_eq_of_nodes_eq hsn]
            exact (List.perm_insertionSort _ _).map _
          refine hp1.trans ?_
          rw [hpaths0]
          exact ((List.perm_insertionSort _ _).trans
            (List.reverse_perm _)).symm
        · exact List.sorted_insertionSort _ _

theorem perm_cons_eraseIdx :
    ∀ (l : List Nat) (i : Nat), i < l.length →
      l.Perm (l.getD i 0 :: l.eraseIdx i) := by
  intro l
  induction l with
  | nil =>
    intro i hi
    simp at hi
  | cons a t ih =>
    intro i hi
    cases i with
    | zero => rfl
    | succ j =>
      have hj : j < t.length := by
        simp at hi
        omega
      have h1 := ih j hj
      have h2 : (a :: t).Perm (a :: (t.getD j 0 :: t.eraseIdx j)) := h1.cons a
      have h3 : (a :: (t.getD j 0 :: t.eraseIdx j)).Perm
          (t.getD j 0 :: a :: t.eraseIdx j) := List.Perm.swap _ _ _
      exact h2.trans h3

theorem childPathsAt_frame {g g' : Graph} (d : Nat)
    (hdeps : (g'.node d).deps = (g.node d).deps)
    (harr : ∀ a, (g.node d).deps = some a → g'.arr a = g.arr a)
    (hclosed : ∀ a, ∀ i ∈ g.arr a, i < g.nodes.length)
    (hpaths : ∀ i, i < g.nodes.length → (g'.node i).path = (g.node i).path) :
    childPathsAt g' d = childPathsAt g d := by
  rcases hdc : (g.node d).deps with _ | a
  · have h1 : (g'.node d).deps = none := by rw [hdeps, hdc]
    rw [childPathsAt, h1, childPathsAt, hdc]
  · rw [childPathsAt_eq g' d a (by rw [hdeps, hdc]), childPathsAt_eq g d a hdc,
        harr a hdc]
    unfold pathsOf
    refine List.map_congr_left ?_
    intro i hi
    exact hpaths i (hclosed a i hi)

theorem topPairsOf_eq_of_fields {gS g : Graph} (ht : g.topDeps = gS.topDeps)
    (hf : ∀ i, i < gS.nodes.length → (g.node i).path = (gS.node i).path ∧
      (g.node i).realPath = (gS.node i).realPath ∧
      (g.node i).deps = (gS.node i).deps)
    (hSB : ∀ t ∈ gS.topDeps, t < gS.nodes.length) :
    topPairsOf g = topPairsOf gS := by
  unfold topPairsOf
  rw [ht]
  refine List.map_congr_left ?_
  intro t htm
  have := hf t (hSB t htm)
  rw [this.1, this.2.1]

/-- A node is observable across schedules: a top-level node, or the
canonical holder of a flat-deps key. -/
def RelNodes (gS g : Graph) (c : Nat) : Prop :=
  c ∈ gS.topDeps ∨ ∃ p ∈ g.flatDeps, p.2 = c

/-- The invariant of a scheduled run of the task system over the seeded
graph `gS`: the graph stays well-formed and the seed data intact; every
flat entry holds a fresh node under its real path with a reachable key
and unique keys; observable nodes own distinct children slices; pending
tasks are crawl-ready observable nodes, each pending at most once; every
observable node is pending or fully processed (its candidate keys
present, its children the canonical sorted paths). -/
def RunInv (env : Env) (opts : DependencyOptions) (gS : Graph)
    (st : Graph × List Nat) : Prop :=
  GraphOK st.1 ∧
  st.1.topDeps = gS.topDeps ∧
  gS.nodes.length ≤ st.1.nodes.length ∧
  gS.depsArr.length ≤ st.1.depsArr.length ∧
  (∀ i, i < gS.nodes.length →
    (st.1.node i).path = (gS.node i).path ∧
    (st.1.node i).realPath = (gS.node i).realPath ∧
    (st.1.node i).deps = (gS.node i).deps) ∧
  (∀ p ∈ st.1.flatDeps, gS.nodes.length ≤ p.2 ∧ p.2 < st.1.nodes.length ∧
     (st.1.node p.2).realPath = p.1 ∧
     ReachKey env opts (topPairsOf gS) p.1) ∧
  ((st.1.flatDeps.map (fun p => p.1)).Nodup) ∧
  (∀ c, RelNodes gS st.1 c →
     ∃ a, (st.1.node c).deps = some a ∧ a < st.1.depsArr.length) ∧
  (∀ c d, RelNodes gS st.1 c → RelNodes gS st.1 d → c ≠ d →
     (st.1.node c).deps ≠ (st.1.node d).deps) ∧
  (∀ c ∈ st.2, RelNodes gS st.1 c ∧ c < st.1.nodes.length ∧
     ∃ a, (st.1.node c).deps = some a ∧ a < st.1.depsArr.length ∧
       st.1.arr a = []) ∧
  st.2.Nodup ∧
  (∀ t ∈ gS.topDeps, t ∈ st.2 ∨
     (∀ k ∈ keysOf env opts (topPairsOf gS) ((gS.node t).realPath),
        ∃ i, (k, i) ∈ st.1.flatDeps)) ∧
  (opts.recursive = true → ∀ p ∈ st.1.flatDeps, p.2 ∈ st.2 ∨
     (∀ k ∈ keysOf env opts (topPairsOf gS) p.1, ∃ i, (k, i) ∈ st.1.flatDeps)) ∧
  (∀ t ∈ gS.topDeps, t ∉ st.2 →
     childPathsAt st.1 t = canonPaths env ((gS.node t).realPath)) ∧
  (∀ p ∈ st.1.flatDeps, p.2 ∉ st.2 →
     childPathsAt st.1 p.2 =
       (if opts.recursive = true then canonPaths env p.1 else [])) ∧
  (opts.recursive = false → ∀ c ∈ st.2, c ∈ gS.topDeps)

/-- One scheduled task preserves the run invariant: crawling any pending
node `c` (removing it from the pending list and appending its spawned
children) keeps every component of `RunInv`. -/
theorem runStep_inv (env : Env) (opts : DependencyOptions) (gS : Graph)
    (hSB : ∀ t ∈ gS.topDeps, t < gS.nodes.length)
    (g : Graph) (pend : List Nat) (hinv : RunInv env opts gS (g, pend))
    (c : Nat) (pr : List Nat) (hperm : pend.Perm (c :: pr)) :
    RunInv env opts gS
      ((crawlTask env opts c g).1, pr ++ (crawlTask env opts c g).2) := by
  obtain ⟨I1, I2, I3, I4, I5, I6, I7, I8, I9, I10, I11, I12, I13, I14, I15, I16⟩ :=
    hinv
  dsimp only at I1 I2 I3 I4 I5 I6 I7 I8 I9 I10 I11 I12 I13 I14 I15 I16
  have hcmem : c ∈ pend := hperm.mem_iff.mpr (List.mem_cons_self _ _)
  obtain ⟨hcRel, hclt, a0, hca0, ha0lt, ha0em⟩ := I10 c hcmem
  have htbg : ∀ t ∈ g.topDeps, t < g.nodes.length := by
    intro t ht
    rw [I2] at ht
    exact lt_of_lt_of_le (hSB t ht) I3
  obtain ⟨S1, ⟨S2n, S2d, S2f⟩, S3, S4, ⟨nfd, S5⟩, S6, S7, S8, S9, S10, S10b,
      S11, S12⟩ :=
    crawlTask_spec env opts c g I1 hclt ⟨a0, hca0, ha0lt, ha0em⟩ htbg
  have htpg : topPairsOf g = topPairsOf gS := topPairsOf_eq_of_fields I2 I5 hSB
  have hfields2 : ∀ i, i < gS.nodes.length →
      ((crawlTask env opts c g).1.node i).path = (gS.node i).path ∧
      ((crawlTask env opts c g).1.node i).realPath = (gS.node i).realPath ∧
      ((crawlTask env opts c g).1.node i).deps = (gS.node i).deps := by
    intro i hi
    obtain ⟨f1, f2, f3⟩ := S2f i (lt_of_lt_of_le hi I3)
    obtain ⟨e1, e2, e3⟩ := I5 i hi
    exact ⟨f1.trans e1, f2.trans e2, f3.trans e3⟩
  have hcprnd : (c :: pr).Nodup := (hperm.nodup_iff).mp I11
  have hcnpr : c ∉ pr := (List.nodup_cons.mp hcprnd).1
  have hprnd : pr.Nodup := (List.nodup_cons.mp hcprnd).2
  have hprmem : ∀ d ∈ pr, d ∈ pend := fun d hd =>
    hperm.mem_iff.mpr (List.mem_cons_of_mem _ hd)
  have hRelMono : ∀ x, RelNodes gS g x → RelNodes gS (crawlTask env opts c g).1 x := by
    rintro x (hx | ⟨q, hq, hq2⟩)
    · exact Or.inl hx
    · exact Or.inr ⟨q, by rw [S5]; exact List.mem_append_left _ hq, hq2⟩
  have hcpFrame : ∀ d, RelNodes gS g d → d ≠ c → d < g.nodes.length →
      childPathsAt (crawlTask env opts c g).1 d = childPathsAt g d := by
    intro d hdRel hdc hdlt
    refine childPathsAt_frame d (S2f d hdlt).2.2 ?_ I1.1 (fun i hi => (S2f i hi).1)
    intro a ha
    obtain ⟨a', hda', hba'⟩ := I8 d hdRel
    rw [hda'] at ha
    have haa : a' = a := Option.some.inj ha
    rw [haa] at hba' hda'
    refine S4 a hba' ?_
    intro hceq
    exact I9 c d hcRel hdRel (fun h => hdc h.symm) (hceq.trans hda'.symm)
  have hclass : ∀ x, RelNodes gS (crawlTask env opts c g).1 x →
      (RelNodes gS g x ∧ x < g.nodes.length) ∨
      ((∃ a, ((crawlTask env opts c g).1.node x).deps = some a ∧
         g.depsArr.length ≤ a ∧ a < (crawlTask env opts c g).1.depsArr.length) ∧
       (∃ p, p ∈ (crawlTask env opts c g).1.flatDeps ∧ p ∉ g.flatDeps ∧ p.2 = x)) := by
    rintro x (hxt | ⟨q, hq, rfl⟩)
    · exact Or.inl ⟨Or.inl hxt, lt_of_lt_of_le (hSB x hxt) I3⟩
    · by_cases hqo : q ∈ g.flatDeps
      · exact Or.inl ⟨Or.inr ⟨q, hqo, rfl⟩, (I6 q hqo).2.1⟩
      · right
        obtain ⟨-, -, -, -, ⟨a, hda, hga, hla, -⟩, -⟩ := S6 q hq hqo
        exact ⟨⟨a, hda, hga, hla⟩, ⟨q, hq, hqo, rfl⟩⟩
  unfold RunInv
  dsimp only
  refine ⟨S1, S3.trans I2, le_trans I3 S2n, le_trans I4 S2d, hfields2,
    ?_, S11 I7, ?_, ?_, ?_, ?_, ?_, ?_, ?_, ?_, ?_⟩
  · -- flat entries: fresh nodes under their keys, reachable
    intro p hp
    by_cases hpo : p ∈ g.flatDeps
    · obtain ⟨b1, b2, b3, b4⟩ := I6 p hpo
      refine ⟨b1, lt_of_lt_of_le b2 S2n, ?_, b4⟩
      rw [(S2f p.2 b2).2.1, b3]
    · obtain ⟨hkmem, hge, hlt2, hrp2, -, -⟩ := S6 p hp hpo
      refine ⟨le_trans I3 hge, hlt2, hrp2, ?_⟩
      rw [htpg] at hkmem
      rcases hcRel with hctop | ⟨q, hq, hq2⟩
      · have hre : (g.node c).realPath = (gS.node c).realPath :=
          (I5 c (hSB c hctop)).2.1
        rw [hre] at hkmem
        exact ReachKey.base _ _ (List.mem_map.mpr ⟨c, hctop, rfl⟩) hkmem
      · have hre : (g.node c).realPath = q.1 := by
          rw [← hq2]
          exact (I6 q hq).2.2.1
        rw [hre] at hkmem
        cases hr : opts.recursive with
        | false =>
          exfalso
          have hctop2 := I16 hr c hcmem
          have h1 := hSB c hctop2
          have h2 := (I6 q hq).1
          rw [hq2] at h2
          omega
        | true =>
          exact ReachKey.step q.1 p.1 (I6 q hq).2.2.2 hr hkmem
  · -- observable nodes own a slice
    intro x hxRel
    rcases hclass x hxRel with ⟨hxOld, hxlt⟩ | ⟨⟨a, hda, -, hla⟩, -⟩
    · obtain ⟨a, hda, hba⟩ := I8 x hxOld
      refine ⟨a, ?_, lt_of_lt_of_le hba S2d⟩
      rw [(S2f x hxlt).2.2, hda]
    · exact ⟨a, hda, hla⟩
  · -- distinct observable nodes own distinct slices
    intro x y hxRel hyRel hxy
    rcases hclass x hxRel with ⟨hxOld, hxlt⟩ | ⟨⟨ax, hdax, hgax, -⟩, ⟨px, hpx1, hpx2, hpx3⟩⟩
    · rcases hclass y hyRel with ⟨hyOld, hylt⟩ | ⟨⟨ay, hday, hgay, -⟩, -⟩
      · rw [(S2f x hxlt).2.2, (S2f y hylt).2.2]
        exact I9 x y hxOld hyOld hxy
      · obtain ⟨a, hda, hba⟩ := I8 x hxOld
        rw [(S2f x hxlt).2.2, hda, hday]
        intro heq
        obtain rfl : a = ay := Option.some.inj heq
        omega
    · rcases hclass y hyRel with ⟨hyOld, hylt⟩ | ⟨⟨ay, hday, hgay, -⟩, ⟨py, hpy1, hpy2, hpy3⟩⟩
      · obtain ⟨a, hda, hba⟩ := I8 y hyOld
        rw [(S2f y hylt).2.2, hdax, hda]
        intro heq
        obtain rfl : ax = a := Option.some.inj heq
        omega
      · have := S10b px py hpx1 hpx2 hpy1 hpy2 (by rw [hpx3, hpy3]; exact hxy)
        rw [hpx3, hpy3] at this
        exact this
  · -- pending tasks are crawl-ready observable nodes
    intro d hd
    rcases List.mem_append.mp hd with hd | hd
    · have hdpend := hprmem d hd
      obtain ⟨hdRel, hdlt, a, hda, hba, hem⟩ := I10 d hdpend
      have hdc : d ≠ c := fun heq => hcnpr (heq ▸ hd)
      refine ⟨hRelMono d hdRel, lt_of_lt_of_le hdlt S2n, a, ?_,
        lt_of_lt_of_le hba S2d, ?_⟩
      · rw [(S2f d hdlt).2.2, hda]
      · rw [S4 a hba ?_, hem]
        intro hceq
        exact I9 c d hcRel hdRel (fun h => hdc h.symm) (hceq.trans hda.symm)
    · obtain ⟨p, hpmem, hpnot, hp2⟩ := S9 d hd
      obtain ⟨-, -, hlt2, -, ⟨a, hda, -, hla, hem⟩, -⟩ := S6 p hpmem hpnot
      subst hp2
      exact ⟨Or.inr ⟨p, hpmem, rfl⟩, hlt2, a, hda, hla, hem⟩
  · -- each task pending at most once
    refine List.nodup_append.mpr ⟨hprnd, ?_, ?_⟩
    · exact (S10.imp (fun h heq => h (by rw [heq])))
    · intro d hd1 hd2
      obtain ⟨p, hpmem, hpnot, hp2⟩ := S9 d hd2
      obtain ⟨-, hge, -, -, -, -⟩ := S6 p hpmem hpnot
      have hdlt := (I10 d (hprmem d hd1)).2.1
      rw [hp2] at hge
      omega
  · -- each top pending or fully contributed
    intro t ht
    rcases I12 t ht with htp | hpres
    · rcases List.mem_cons.mp (hperm.mem_iff.mp htp) with rfl | htpr
      · right
        intro k hk
        have hre : (g.node t).realPath = (gS.node t).realPath :=
          (I5 t (hSB t ht)).2.1
        have hk2 : k ∈ keysOf env opts (topPairsOf g) ((g.node t).realPath) := by
          rw [htpg, hre]
          exact hk
        exact S7 k hk2
      · exact Or.inl (List.mem_append_left _ htpr)
    · right
      intro k hk
      obtain ⟨i, hi⟩ := hpres k hk
      exact ⟨i, by rw [S5]; exact List.mem_append_left _ hi⟩
  · -- each flat node pending or fully contributed (recursive mode)
    intro hr p hp
    by_cases hpo : p ∈ g.flatDeps
    · rcases I13 hr p hpo with hpp | hpres
      · rcases List.mem_cons.mp (hperm.mem_iff.mp hpp) with hpc | hppr
        · right
          intro k hk
          have hre : (g.node c).realPath = p.1 := by
            rw [← hpc]
            exact (I6 p hpo).2.2.1
          have hk2 : k ∈ keysOf env opts (topPairsOf g) ((g.node c).realPath) := by
            rw [htpg, hre]
            exact hk
          exact S7 k hk2
        · exact Or.inl (List.mem_append_left _ hppr)
      · right
        intro k hk
        obtain ⟨i, hi⟩ := hpres k hk
        exact ⟨i, by rw [S5]; exact List.mem_append_left _ hi⟩
    · left
      obtain ⟨-, -, -, -, -, hrec⟩ := S6 p hp hpo
      exact List.mem_append_right _ (hrec hr)
  · -- processed tops carry the canonical children
    intro t ht htnp
    have htnpr : t ∉ pr := fun h => htnp (List.mem_append_left _ h)
    by_cases htc : t = c
    · subst htc
      rw [S12, (I5 t (hSB t ht)).2.1]
    · have htpend : t ∉ pend := by
        intro hmem
        rcases List.mem_cons.mp (hperm.mem_iff.mp hmem) with h | h
        · exact htc h
        · exact htnpr h
      rw [hcpFrame t (Or.inl ht) htc (lt_of_lt_of_le (hSB t ht) I3)]
      exact I14 t ht htpend
  · -- processed flat nodes carry the canonical children
    intro p hp hpn2
    by_cases hpo : p ∈ g.flatDeps
    · by_cases hpc : p.2 = c
      · have hrec : opts.recursive = true := by
          cases hr : opts.recursive with
          | true => rfl
          | false =>
            exfalso
            have hctop2 := I16 hr c hcmem
            have h1 := hSB c hctop2
            have h2 := (I6 p hpo).1
            rw [hpc] at h2
            omega
        rw [if_pos hrec, hpc, S12]
        have hre : (g.node c).realPath = p.1 := by
          rw [← hpc]
          exact (I6 p hpo).2.2.1
        rw [hre]
      · have hpnp : p.2 ∉ pend := by
          intro hmem
          rcases List.mem_cons.mp (hperm.mem_iff.mp hmem) with h | h
          · exact hpc h
          · exact hpn2 (List.mem_append_left _ h)
        rw [hcpFrame p.2 (Or.inr ⟨p, hpo, rfl⟩) hpc (I6 p hpo).2.1]
        exact I15 p hpo hpnp
    · obtain ⟨-, -, -, -, ⟨a, hda, -, -, hem⟩, hrec⟩ := S6 p hp hpo
      cases hr : opts.recursive with
      | true =>
        exact absurd (List.mem_append_right _ (hrec hr)) hpn2
      | false =>
        rw [if_neg (by simp), childPathsAt_eq _ _ _ hda, hem]
        rfl
  · -- non-recursive runs only ever crawl the tops
    intro hr d hd
    rcases List.mem_append.mp hd with hd | hd
    · exact I16 hr d (hprmem d hd)
    · rw [S8 hr] at hd
      simp at hd

/-- Every scheduled run preserves the run invariant. -/
theorem runSched_inv (env : Env) (opts : DependencyOptions) (gS : Graph)
    (hSB : ∀ t ∈ gS.topDeps, t < gS.nodes.length) :
    ∀ (σ : List Nat) (st : Graph × List Nat), RunInv env opts gS st →
      RunInv env opts gS (runSched env opts σ st) := by
  intro σ
  induction σ with
  | nil =>
    intro st h
    exact h
  | cons s rest ih =>
    rintro ⟨g, pend⟩ h
    rcases pend with _ | ⟨p0, ps⟩
    · simp only [runSched]
      exact h
    · simp only [runSched]
      refine ih _ ?_
      have hlen : s % (p0 :: ps).length < (p0 :: ps).length :=
        Nat.mod_lt _ (by simp)
      have hperm := perm_cons_eraseIdx (p0 :: ps) (s % (p0 :: ps).length) hlen
      exact runStep_inv env opts gS hSB g (p0 :: ps) h _ _ hperm

/-- Any complete scheduled run computes the same observables: the
flat-deps key set is exactly the reachability closure, and every node's
children are the canonical sorted paths of its file. -/
theorem runSched_complete (env : Env) (opts : DependencyOptions) (gS : Graph)
    (hSB : ∀ t ∈ gS.topDeps, t < gS.nodes.length)
    (σ : List Nat) (gF : Graph)
    (hinit : RunInv env opts gS (gS, gS.topDeps))
    (hrun : runSched env opts σ (gS, gS.topDeps) = (gF, [])) :
    (∀ k, (∃ i, (k, i) ∈ gF.flatDeps) ↔ ReachKey env opts (topPairsOf gS) k) ∧
    gF.topDeps = gS.topDeps ∧
    (∀ t ∈ gS.topDeps, childPathsAt gF t = canonPaths env ((gS.node t).realPath)) ∧
    (∀ p ∈ gF.flatDeps,
       childPathsAt gF p.2 =
         (if opts.recursive = true then canonPaths env p.1 else [])) := by
  have hinv := runSched_inv env opts gS hSB σ (gS, gS.topDeps) hinit
  rw [hrun] at hinv
  obtain ⟨F1, F2, F3, F4, F5, F6, F7, F8, F9, F10, F11, F12, F13, F14, F15, F16⟩ :=
    hinv
  dsimp only at F2 F6 F12 F13 F14 F15
  refine ⟨?_, F2, ?_, ?_⟩
  · intro k
    constructor
    · rintro ⟨i, hi⟩
      exact (F6 (k, i) hi).2.2.2
    · intro hreach
      induction hreach with
      | base t k ht hk =>
        rcases List.mem_map.mp ht with ⟨tt, htt, rfl⟩
        rcases F12 tt htt with habs | hpres
        · simp at habs
        · exact hpres k hk
      | step k' k h hrec hk ihk =>
        obtain ⟨i, hi⟩ := ihk
        rcases F13 hrec (k', i) hi with habs | hpres
        · simp at habs
        · exact hpres k hk
  · intro t ht
    exact F14 t ht (by simp)
  · intro p hp
    exact F15 p hp (by simp)

/-- The seeded graph of `DepsRead`, paired with its top-level nodes as
the initial task list, satisfies the run invariant. -/
theorem seed_runInv (env : Env) (opts : DependencyOptions) (gS : Graph)
    (hok : GraphOK gS)
    (hpend : ∀ t ∈ gS.topDeps, t < gS.nodes.length ∧ ∃ a, (gS.node t).deps = some a ∧
       a < gS.depsArr.length ∧ gS.arr a = [])
    (hpair : gS.topDeps.Pairwise (fun c d => (gS.node c).deps ≠ (gS.node d).deps))
    (hfd : gS.flatDeps = []) :
    RunInv env opts gS (gS, gS.topDeps) := by
  have hrel : ∀ c, RelNodes gS gS c → c ∈ gS.topDeps := by
    rintro c (h | ⟨p, hp, -⟩)
    · exact h
    · rw [hfd] at hp
      simp at hp
  have hpairAll : ∀ c d, c ∈ gS.topDeps → d ∈ gS.topDeps → c ≠ d →
      (gS.node c).deps ≠ (gS.node d).deps := by
    intro c d hc hd hcd
    refine List.Pairwise.forall ?_ hpair hc hd hcd
    intro x y h heq
    exact h heq.symm
  have hnd : gS.topDeps.Nodup := by
    refine List.Pairwise.imp ?_ hpair
    intro x y h heq
    exact h (by rw [heq])
  unfold RunInv
  dsimp only
  refine ⟨hok, rfl, le_refl _, le_refl _, fun i _ => ⟨rfl, rfl, rfl⟩,
    ?_, by rw [hfd]; simp, ?_, ?_, ?_, hnd, ?_, ?_, ?_, ?_, ?_⟩
  · intro p hp
    rw [hfd] at hp
    simp at hp
  · intro c hc
    obtain ⟨a, ha, hb, -⟩ := (hpend c (hrel c hc)).2
    exact ⟨a, ha, hb⟩
  · intro c d hc hd
    exact hpairAll c d (hrel c hc) (hrel d hd)
  · intro c hc
    obtain ⟨hlt, a, ha, hb, hem⟩ := hpend c hc
    exact ⟨Or.inl hc, hlt, a, ha, hb, hem⟩
  · intro t ht
    exact Or.inl ht
  · intro _ p hp
    rw [hfd] at hp
    simp at hp
  · intro t ht htn
    exact absurd ht htn
  · intro p hp
    rw [hfd] at hp
    simp at hp
  · intro _ c hc
    exact hc

/-- A filesystem where `/xa` and `/xb` are two symlinked names of the
file `/x`. -/
def fsC9 : FS :=
  { evalSymlinks := fun p => if p = "/xa" ∨ p = "/xb" then ("/x", true) else (p, true),
    abs := fun p => (p, true) }

/-- Environment for the scheduling scenario: the top-level `/t` declares
`/xa` and the top-level `/u` declares `/xb`; both names resolve to the
same file `/x`, which has no dependencies of its own. -/
def envC9 : Env :=
  { fs := fsC9,
    contents := fun _ => some [0xce, 0xfa, 0xed, 0xfe],
    slices := fun p =>
      if p = "/t" then some [{ cpu := 0, subCpu := 0, little := true,
                               loads := [MachoLoad.dylib "/xa" 0 0 0] }]
      else if p = "/u" then some [{ cpu := 0, subCpu := 0, little := true,
                                    loads := [MachoLoad.dylib "/xb" 0 0 0] }]
      else some [] }

/-- The seeded graph for inputs `/t`, `/u` over `envC9`. -/
def g0C9 : Graph :=
  { nodes := [
      { name := "t", path := "/t", realPath := "/t", info := "", deps := some 0 },
      { name := "u", path := "/u", realPath := "/u", info := "", deps := some 1 }],
    depsArr := [[], []], topDeps := [0, 1], flatDeps := [] }

/-- The graph of the run that crawls `/t` first: `/t`'s candidate `/xa`
becomes the canonical node for key `/x`. -/
def g1C9 : Graph :=
  { nodes := [
      { name := "t", path := "/t", realPath := "/t", info := "", deps := some 0 },
      { name := "u", path := "/u", realPath := "/u", info := "", deps := some 1 },
      { name := "xa", path := "/xa", realPath := "/x", info := mkInfo 0 0,
        deps := some 2 },
      { name := "xb", path := "/xb", realPath := "/x", info := mkInfo 0 0,
        deps := some 2 }],
    depsArr := [[2], [3], []], topDeps := [0, 1], flatDeps := [("/x", 2)] }

/-- The graph of the run that crawls `/u` first: now `/xb` is canonical;
the arenas differ from `g1C9`, the observables do not. -/
def g2C9 : Graph :=
  { nodes := [
      { name := "t", path := "/t", realPath := "/t", info := "", deps := some 0 },
      { name := "u", path := "/u", realPath := "/u", info := "", deps := some 1 },
      { name := "xb", path := "/xb", realPath := "/x", info := mkInfo 0 0,
        deps := some 2 },
      { name := "xa", path := "/xa", realPath := "/x", info := mkInfo 0 0,
        deps := some 2 }],
    depsArr := [[3], [2], []], topDeps := [0, 1], flatDeps := [("/x", 2)] }

/-- Claim C9: the crawl is deterministic up to scheduling.  Two complete
task-parallel runs of the crawler over the same seeded inputs, under any
two schedulers (hence any jobs setting), agree on the flat-deps key set,
on the top-level list, and on every node's children sequence compared by
declared path (nodes matched by top-level position and by flat-deps
key). -/
theorem depsRead_schedule_independent (env : Env) (opts : DependencyOptions)
    (files : List String) (g0 : Graph) (seen : List String)
    (hseed : files.foldl (depsReadSeed env) (.ok ({}, [])) = .ok (g0, seen))
    (σ1 σ2 : List Nat) (g1 g2 : Graph)
    (h1 : runSched env opts σ1 (g0, g0.topDeps) = (g1, []))
    (h2 : runSched env opts σ2 (g0, g0.topDeps) = (g2, [])) :
    (∀ k, (∃ i, (k, i) ∈ g1.flatDeps) ↔ (∃ j, (k, j) ∈ g2.flatDeps)) ∧
    g1.topDeps = g2.topDeps ∧
    (∀ t ∈ g1.topDeps, childPathsAt g1 t = childPathsAt g2 t) ∧
    (∀ k i j, (k, i) ∈ g1.flatDeps → (k, j) ∈ g2.flatDeps →
       childPathsAt g1 i = childPathsAt g2 j) := by
  obtain ⟨hok, hpend, hpair, hfd⟩ :=
    seedFold_ok env files _ seedOK_init g0 seen hseed
  have hSB : ∀ t ∈ g0.topDeps, t < g0.nodes.length := fun t ht => (hpend t ht).1
  have hinit := seed_runInv env opts g0 hok hpend hpair hfd
  obtain ⟨K1, T1, C1top, C1flat⟩ := runSched_complete env opts g0 hSB σ1 g1 hinit h1
  obtain ⟨K2, T2, C2top, C2flat⟩ := runSched_complete env opts g0 hSB σ2 g2 hinit h2
  refine ⟨?_, T1.trans T2.symm, ?_, ?_⟩
  · intro k
    rw [K1 k, K2 k]
  · intro t ht
    rw [T1] at ht
    rw [C1top t ht, C2top t ht]
  · intro k i j hi hj
    have e1 := C1flat (k, i) hi
    have e2 := C2flat (k, j) hj
    exact e1.trans e2.symm

/-- Witness for C9: two schedules that crawl `/t` and `/u` in opposite
orders produce genuinely different graphs (the canonical node for `/x`
differs), yet the per-node children by declared path agree. -/
theorem depsRead_schedule_independent_witness :
    runSched envC9 { recursive := true } [0, 0, 0] (g0C9, g0C9.topDeps) =
      (g1C9, []) ∧
    runSched envC9 { recursive := true } [1, 0, 0] (g0C9, g0C9.topDeps) =
      (g2C9, []) ∧
    g1C9 ≠ g2C9 ∧
    childPathsAt g1C9 0 = childPathsAt g2C9 0 ∧
    childPathsAt g1C9 2 = childPathsAt g2C9 2 :=
  ⟨by rfl, by rfl, by decide,
   (depsRead_schedule_independent envC9 { recursive := true } ["/t", "/u"] g0C9
      ["/u", "/t"] (by rfl) [0, 0, 0] [1, 0, 0] g1C9 g2C9 (by rfl) (by rfl)).2.2.1 0
     (by decide),
   (depsRead_schedule_independent envC9 { recursive := true } ["/t", "/u"] g0C9
      ["/u", "/t"] (by rfl) [0, 0, 0] [1, 0, 0] g1C9 g2C9 (by rfl) (by rfl)).2.2.2
     "/x" 2 2 (by decide) (by decide)⟩

end Lddx

